import Mathlib

/-!
Arbitrary-dimension array (`arbitrary_dim_array.hpp`).

A shallow embedding of the class template `Array<T, Dim, Dims...>` of namespace `ms`
and of its two nested iterator classes, followed by theorems about chained indexing,
the two traversal orders, dereferencing, construction and assignment, the comparison of
iterators and the states they reach.

Modelling conventions.

* The template parameter pack is the index of the type: `Array T [D0, ..., Dk]` is the
  class `Array<T, D0, ..., Dk>`.  The class is only declared, not defined, for an empty
  pack, and `Array T []` has no values.
* `T _array[Dim]` is a function on `Fin Dim`; `static_assert(Dim > 0)` is the field `pos`.
* `std::size_t` values are natural numbers.  An index is incremented only while it is
  below the size it is compared with, so wrap-around at `2^64` plays no part.
* The two loop counters declared `int` (lines 35 and 44) are natural numbers up to
  `INT_MAX`, with `int` taken as 32 bits wide; incrementing one that holds `INT_MAX` is
  signed overflow and has the outcome `Error.undefined`.
* A pointer to an array node is the address of the node: the top-level object it lives in
  and the indices that lead from that object to the node.  `none` is `nullptr`.
* An operation returns `Except Error _`.  `Error.Out_Of_Range_Exception` is the exception
  of the header; `Error.undefined` stands for every outcome the language leaves undefined
  (reading `_array` outside its extent, dereferencing a null or dangling pointer, leaving
  a value-returning function without `return`, signed overflow) and for index chains that
  would not compile.
* An operation that can write returns the outcome together with the array as it is when
  control leaves the operation, so that what a failing operation left behind is visible.
-/

namespace ms

deriving instance DecidableEq for Except

/-- Outcomes other than a normal return. -/
inductive Error where
  | Out_Of_Range_Exception
  | undefined
deriving DecidableEq, Repr

/-- The class template `Array<T, Dim, Dims...>`: `base` is the specialisation
`Array<T, Dim>` (lines 344-651), `recur` the recursion case (lines 23-341).
The members are `_array` and `_array_size`. -/
inductive Array (T : Type) : List Nat → Type where
  | base (Dim : Nat) (pos : 0 < Dim) (_array : Fin Dim → T) (_array_size : Nat) : Array T [Dim]
  | recur (Dim : Nat) (pos : 0 < Dim) {d : Nat} {Dims : List Nat}
      (_array : Fin Dim → Array T (d :: Dims)) (_array_size : Nat) : Array T (Dim :: d :: Dims)

/-- What `operator[]` of `Array<T, Dim, Dims...>` refers to: the payload type `T` when
`Dims...` is empty, the class `Array<T, Dims...>` otherwise. -/
@[reducible]
def Sub (T : Type) : List Nat → Type
  | [] => T
  | d :: Dims => Array T (d :: Dims)

/-- The member `_array_size`. -/
def Array._array_size {T : Type} : {dims : List Nat} → Array T dims → Nat
  | _, .base _ _ _ s => s
  | _, .recur _ _ _ s => s

/-- The built-in subscript `_array[index]` on the member array, without any check: it
has a value only inside the extent `Dim` of the storage. -/
def Array.raw {T : Type} : {dims : List Nat} → Array T dims → Nat → Option (Sub T dims.tail)
  | _, .base Dim _ _array _, index => if h : index < Dim then some (_array ⟨index, h⟩) else none
  | _, .recur Dim _ _array _, index => if h : index < Dim then some (_array ⟨index, h⟩) else none

/-- A store into the slot `_array[index]` through a reference to it; outside the extent
nothing is stored. -/
def Array.put {T : Type} : {dims : List Nat} → Array T dims → Nat → Sub T dims.tail → Array T dims
  | _, .base Dim pos _array s, index, v =>
      if h : index < Dim then .base Dim pos (Function.update _array ⟨index, h⟩ v) s
      else .base Dim pos _array s
  | _, .recur Dim pos _array s, index, v =>
      if h : index < Dim then .recur Dim pos (Function.update _array ⟨index, h⟩ v) s
      else .recur Dim pos _array s

/-- The member `operator[]` (lines 88-96 and 99-107 for the recursion case, 408-416 and
419-427 for the base case; the const and non-const overloads have the same body):
throw when `index >= _array_size`, otherwise return `_array[index]`. -/
def Array.subscript {T : Type} {dims : List Nat} (a : Array T dims) (index : Nat) :
    Except Error (Sub T dims.tail) :=
  if index >= a._array_size then .error .Out_Of_Range_Exception
  else
    match a.raw index with
    | some r => .ok r
    | none => .error .undefined

/-- The first subscripts of a chain `a[i0][i1]...`: the calls of `operator[]` from left to
right, each applied to what the previous one returned.  The result is what the last call
refers to, with its pack of remaining dimensions. -/
def chain {T : Type} : (dims : List Nat) → Sub T dims → List Nat →
    Except Error ((ds : List Nat) × Sub T ds)
  | dims, x, [] => .ok ⟨dims, x⟩
  | [], _, _ :: _ => .error .undefined
  | d :: Dims, a, index :: rest =>
      match Array.subscript (a : Array T (d :: Dims)) index with
      | .ok c => chain Dims c rest
      | .error e => .error e

/-- Reading `a[i0]...[ik]`: one `operator[]` call per dimension, the last of which
refers to an element. -/
def get {T : Type} : (dims : List Nat) → Sub T dims → List Nat → Except Error T
  | [], x, [] => .ok x
  | d :: Dims, a, index :: rest =>
      match Array.subscript (a : Array T (d :: Dims)) index with
      | .ok c => get Dims c rest
      | .error e => .error e
  | _, _, _ => .error .undefined

/-- The assignment `a[i0]...[ik] = v`: the same `operator[]` calls, each returning a
reference, then the store through the last reference.  The second component is the array
when control leaves the statement. -/
def write {T : Type} : (dims : List Nat) → Sub T dims → List Nat → T →
    Except Error Unit × Sub T dims
  | [], _, [], v => (.ok (), v)
  | d :: Dims, a, index :: rest, v =>
      match Array.subscript (a : Array T (d :: Dims)) index with
      | .ok c =>
          ((write Dims c rest v).1, Array.put (a : Array T (d :: Dims)) index (write Dims c rest v).2)
      | .error e => (.error e, a)
  | _, x, _, _ => (.error .undefined, x)

/-- The element held in the storage slot `_array[i0]._array[i1]. ... ._array[ik]`, read
directly from the members with no call of `operator[]`. -/
def elem {T : Type} : (dims : List Nat) → Sub T dims → List Nat → Option T
  | [], x, [] => some x
  | d :: Dims, a, index :: rest =>
      match Array.raw (a : Array T (d :: Dims)) index with
      | some c => elem Dims c rest
      | none => none
  | _, _, _ => none

/-- Every constructor of both cases initialises `_array_size` with `Dim` (lines 30, 33,
42, 351, 354, 363) and nothing in the header writes the member afterwards: in an array
object every node records its own dimension. -/
def Array.Sized {T : Type} : {dims : List Nat} → Array T dims → Prop
  | _, .base Dim _ _ s => s = Dim
  | _, .recur Dim _ _array s => s = Dim ∧ ∀ i, (_array i).Sized

/-- An index tuple is inside the shape: one index per dimension, each below it. -/
def InBounds : List Nat → List Nat → Prop
  | [], [] => True
  | d :: Dims, index :: rest => index < d ∧ InBounds Dims rest
  | _, _ => False

/-- The size invariant carried over to what a subscript refers to: nothing to say of an
element. -/
def SubSized {T : Type} : (dims : List Nat) → Sub T dims → Prop
  | [], _ => True
  | d :: Dims, a => Array.Sized (a : Array T (d :: Dims))

instance Array.decSized {T : Type} : {dims : List Nat} → (a : Array T dims) → Decidable a.Sized
  | _, .base Dim _ _ s => decEq s Dim
  | _, .recur Dim _ _array s =>
      @instDecidableAnd _ _ (decEq s Dim) (@Nat.decidableForallFin Dim _ fun i => decSized (_array i))

instance decInBounds : (dims is : List Nat) → Decidable (InBounds dims is)
  | [], [] => isTrue trivial
  | d :: Dims, index :: rest => @instDecidableAnd _ _ (Nat.decLt index d) (decInBounds Dims rest)
  | [], _ :: _ => isFalse (fun h => h)
  | _ :: _, [] => isFalse (fun h => h)

/-- The address of an array node: the top-level array object it is part of, and the
subscripts that lead from that object to the node. -/
structure Addr where
  obj : Nat
  path : List Nat
deriving DecidableEq, Repr

/-- The address `&(p->_array[index])` of a child node. -/
def Addr.child (p : Addr) (index : Nat) : Addr := ⟨p.obj, p.path ++ [index]⟩

/-- A value of type `T*` pointing into the storage of a base-case node: the node and the
slot of its `_array`. -/
structure ElemPtr where
  leaf : Addr
  offset : Nat
deriving DecidableEq, Repr

/-- The node found by following subscripts from a node, when it is of the class `want`. -/
def Array.nodeAt {T : Type} : {dims : List Nat} → Array T dims → List Nat → (want : List Nat) →
    Option (Array T want)
  | dims, a, [], want => if h : dims = want then some (h ▸ a) else none
  | _, .recur Dim _ _array _, index :: p, want =>
      if h : index < Dim then (_array ⟨index, h⟩).nodeAt p want else none
  | _, .base _ _ _ _, _ :: _, _ => none

/-- A top-level array object: its identity and its present value. -/
structure Object (T : Type) (dims : List Nat) where
  obj : Nat
  val : Array T dims

/-- The address `&a` of a top-level array object. -/
def Object.addr {T : Type} {dims : List Nat} (m : Object T dims) : Addr := ⟨m.obj, []⟩

/-- Dereferencing a pointer of static type `Array<T, want...>*` that points into the
object. -/
def Object.deref {T : Type} {dims : List Nat} (m : Object T dims) (p : Addr) (want : List Nat) :
    Option (Array T want) :=
  if p.obj = m.obj then m.val.nodeAt p.path want else none

/-- The nested class `FirstDimensionIterator` (row-major order) of the base case (lines
433-505) and of the recursion case (lines 113-191), with its member variables. -/
inductive FirstDimensionIterator : List Nat → Type where
  | base (Dim : Nat) (_arr_ptr : Option ElemPtr) (_arr : Option Addr)
      (_arr_index _arr_iter_size : Nat) (_is_iter_end : Bool) : FirstDimensionIterator [Dim]
  | recur (Dim : Nat) {d : Nat} {Dims : List Nat} (_arr_ptr : Option Addr)
      (_arr_index _arr_iter_size : Nat) (_is_iter_end : Bool)
      (_arr_rec_iter : FirstDimensionIterator (d :: Dims)) :
      FirstDimensionIterator (Dim :: d :: Dims)
deriving DecidableEq, Repr

/-- The nested class `LastDimensionIterator` (column-major order) of the base case (lines
511-580) and of the recursion case (lines 197-269), with its member variables. -/
inductive LastDimensionIterator : List Nat → Type where
  | base (Dim : Nat) (_arr_ptr : Option Addr)
      (_arr_index _arr_iter_size : Nat) (_is_iter_end : Bool) : LastDimensionIterator [Dim]
  | recur (Dim : Nat) {d : Nat} {Dims : List Nat} (_arr_ptr : Option Addr)
      (_arr_index _arr_iter_size : Nat) (_is_iter_end : Bool)
      (_arr_rec_iter : LastDimensionIterator (d :: Dims)) :
      LastDimensionIterator (Dim :: d :: Dims)
deriving DecidableEq, Repr

/-- The member `_is_iter_end`. -/
def FirstDimensionIterator._is_iter_end : {dims : List Nat} → FirstDimensionIterator dims → Bool
  | _, .base _ _ _ _ _ e => e
  | _, .recur _ _ _ _ e _ => e

/-- The assignment `it._is_iter_end = e`. -/
def FirstDimensionIterator.set_is_iter_end : {dims : List Nat} → FirstDimensionIterator dims →
    Bool → FirstDimensionIterator dims
  | _, .base Dim p a i s _, e => .base Dim p a i s e
  | _, .recur Dim p i s _ r, e => .recur Dim p i s e r

/-- The current index of every level, outermost first. -/
def FirstDimensionIterator.indices : {dims : List Nat} → FirstDimensionIterator dims → List Nat
  | _, .base _ _ _ i _ _ => [i]
  | _, .recur _ _ i _ _ r => i :: r.indices

/-- The member `fmbegin` (lines 583-587 and 272-276), called on the node at address `this`.
The value constructor stores `_array_size` as the size of the iterator. -/
def Array.fmbegin {T : Type} : {dims : List Nat} → Array T dims → Addr → FirstDimensionIterator dims
  | _, .base Dim _ _ _array_size, this => .base Dim (some ⟨this, 0⟩) (some this) 0 _array_size false
  | _, .recur Dim pos _array _array_size, this =>
      .recur Dim (some this) 0 _array_size false ((_array ⟨0, pos⟩).fmbegin (this.child 0))

/-- The member `fmend` (lines 590-594 and 279-283). -/
def Array.fmend {T : Type} : {dims : List Nat} → Array T dims → Addr → FirstDimensionIterator dims
  | _, .base Dim _ _ _array_size, this => .base Dim (some ⟨this, 0⟩) (some this) 0 _array_size true
  | _, .recur Dim pos _array _array_size, this =>
      .recur Dim (some this) 0 _array_size true ((_array ⟨0, pos⟩).fmend (this.child 0))

/-- The member `modify_end_flag` of the row-major iterator.  Base case (lines 466-468):
`_arr_ptr = &(_arr->_array[_arr_index])`.  Recursion case (lines 146-150): the nested
iterator is replaced by `_arr_ptr->_array[_arr_index].fmbegin()`, its flag is cleared and
its own `modify_end_flag` is run. -/
def FirstDimensionIterator.modify_end_flag {T : Type} {rd : List Nat} (m : Object T rd) :
    (dims : List Nat) → FirstDimensionIterator dims → Except Error (FirstDimensionIterator dims)
  | _, .base Dim _ _arr i s e =>
      match _arr with
      | some q => .ok (.base Dim (some ⟨q, i⟩) _arr i s e)
      | none => .error .undefined
  | Dim :: d :: Dims, .recur _ _arr_ptr i s e _ =>
      match _arr_ptr with
      | none => .error .undefined
      | some q =>
        match m.deref q (Dim :: d :: Dims) with
        | some (.recur _ _ _array _) =>
            if h : i < Dim then
              match modify_end_flag m (d :: Dims)
                  (((_array ⟨i, h⟩).fmbegin (q.child i)).set_is_iter_end false) with
              | .ok r => .ok (.recur Dim _arr_ptr i s e r)
              | .error err => .error err
            else .error .undefined
        | none => .error .undefined

/-- The pre-increment `operator++()` of the row-major iterator: base case lines 471-481,
recursion case lines 153-167. -/
def FirstDimensionIterator.increment {T : Type} {rd : List Nat} (m : Object T rd) :
    {dims : List Nat} → FirstDimensionIterator dims → Except Error (FirstDimensionIterator dims)
  | _, .base Dim p a i s _ =>
      if s = i + 1 then .ok (.base Dim p a 0 s true) else .ok (.base Dim p a (i + 1) s false)
  | _, .recur Dim p i s e r =>
      match r.increment m with
      | .error err => .error err
      | .ok r1 =>
        if r1._is_iter_end then
          if s = i + 1 then modify_end_flag m _ (.recur Dim p 0 s true r1)
          else modify_end_flag m _ (.recur Dim p (i + 1) s false r1)
        else .ok (.recur Dim p i s e r1)

/-- The member `operator*` of the row-major iterator.  Base case (lines 491-494):
`return _arr_ptr[_arr_index]`.  Recursion case (lines 177-180): the body is the expression
statement `*_arr_rec_iter;` and control reaches the end of the function without a
`return`, so no value is returned. -/
def FirstDimensionIterator.dereference {T : Type} {rd : List Nat} (m : Object T rd) :
    {dims : List Nat} → FirstDimensionIterator dims → Except Error T
  | _, .base Dim _arr_ptr _ i _ _ =>
      match _arr_ptr with
      | none => .error .undefined
      | some q =>
        match m.deref q.leaf [Dim] with
        | some a =>
            match a.raw (q.offset + i) with
            | some v => .ok v
            | none => .error .undefined
        | none => .error .undefined
  | _, .recur _ _ _ _ _ r =>
      match r.dereference m with
      | .ok _ => .error .undefined
      | .error err => .error err

/-- The friend `operator==` on row-major iterators: base case lines 611-621, recursion
case lines 300-310. -/
def FirstDimensionIterator.equal : {dims : List Nat} → FirstDimensionIterator dims →
    FirstDimensionIterator dims → Bool
  | _, .base _ p1 a1 i1 s1 e1, .base _ p2 a2 i2 s2 e2 =>
      if p1 ≠ p2 ∨ i1 ≠ i2 ∨ a1 ≠ a2 ∨ s1 ≠ s2 ∨ e1 ≠ e2 then false
      else if e1 then true
      else true
  | _, .recur _ p1 i1 s1 e1 r1, .recur _ p2 i2 s2 e2 r2 =>
      if p1 ≠ p2 ∨ i1 ≠ i2 ∨ s1 ≠ s2 ∨ e1 ≠ e2 then false
      else if e1 then true
      else r1.equal r2

/-- The friend `operator!=` on row-major iterators (lines 623-626 and 312-315). -/
def FirstDimensionIterator.not_equal {dims : List Nat} (x y : FirstDimensionIterator dims) : Bool :=
  !(x.equal y)

/-- The iterator after `k` pre-increments. -/
def FirstDimensionIterator.advance {T : Type} {rd : List Nat} (m : Object T rd) {dims : List Nat} :
    Nat → FirstDimensionIterator dims → Except Error (FirstDimensionIterator dims)
  | 0, it => .ok it
  | k + 1, it =>
      match advance m k it with
      | .ok it1 => it1.increment m
      | .error err => .error err

/-- The member `_is_iter_end`. -/
def LastDimensionIterator._is_iter_end : {dims : List Nat} → LastDimensionIterator dims → Bool
  | _, .base _ _ _ _ e => e
  | _, .recur _ _ _ _ e _ => e

/-- The assignment `it._arr_ptr = p`. -/
def LastDimensionIterator.set_arr_ptr : {dims : List Nat} → LastDimensionIterator dims →
    Option Addr → LastDimensionIterator dims
  | _, .base Dim _ i s e, p => .base Dim p i s e
  | _, .recur Dim _ i s e r, p => .recur Dim p i s e r

/-- The current index of every level, outermost first. -/
def LastDimensionIterator.indices : {dims : List Nat} → LastDimensionIterator dims → List Nat
  | _, .base _ _ i _ _ => [i]
  | _, .recur _ _ i _ _ r => i :: r.indices

/-- The member `lmbegin` (lines 597-601 and 286-290).  The value constructor of this
iterator stores the template parameter `Dim` as its size. -/
def Array.lmbegin {T : Type} : {dims : List Nat} → Array T dims → Addr → LastDimensionIterator dims
  | _, .base Dim _ _ _, this => .base Dim (some this) 0 Dim false
  | _, .recur Dim pos _array _, this =>
      .recur Dim (some this) 0 Dim false ((_array ⟨0, pos⟩).lmbegin (this.child 0))

/-- The member `lmend` (lines 604-608 and 293-297). -/
def Array.lmend {T : Type} : {dims : List Nat} → Array T dims → Addr → LastDimensionIterator dims
  | _, .base Dim _ _ _, this => .base Dim (some this) 0 Dim true
  | _, .recur Dim pos _array _, this =>
      .recur Dim (some this) 0 Dim true ((_array ⟨0, pos⟩).lmend (this.child 0))

/-- The member `modify_end_flag` of the column-major iterator.  Base case (lines 541-543):
the body is commented out.  Recursion case (lines 230-234): the nested iterator is pointed
at `&(_arr_ptr->_array[_arr_index])`, its own `modify_end_flag` is run, and its flag is
copied into this level. -/
def LastDimensionIterator.modify_end_flag :
    (dims : List Nat) → LastDimensionIterator dims → Except Error (LastDimensionIterator dims)
  | _, .base Dim p i s e => .ok (.base Dim p i s e)
  | _ :: d :: Dims, .recur Dim _arr_ptr i s _ r =>
      match _arr_ptr with
      | none => .error .undefined
      | some q =>
        match modify_end_flag (d :: Dims) (r.set_arr_ptr (some (q.child i))) with
        | .ok r1 => .ok (.recur Dim _arr_ptr i s r1._is_iter_end r1)
        | .error err => .error err

/-- The pre-increment `operator++()` of the column-major iterator.  Base case (lines
546-556): the flag is set on wrap-around and otherwise left as it is.  Recursion case
(lines 237-245): the remainder by `_arr_iter_size` is undefined when that is zero. -/
def LastDimensionIterator.increment :
    {dims : List Nat} → LastDimensionIterator dims → Except Error (LastDimensionIterator dims)
  | _, .base Dim p i s e =>
      if s = i + 1 then .ok (.base Dim p 0 s true) else .ok (.base Dim p (i + 1) s e)
  | _, .recur Dim p i s e r =>
      if s = 0 then .error .undefined
      else if (i + 1) % s = 0 then
        match r.increment with
        | .ok r1 => modify_end_flag _ (.recur Dim p ((i + 1) % s) s true r1)
        | .error err => .error err
      else modify_end_flag _ (.recur Dim p ((i + 1) % s) s e r)

/-- The member `operator*` of the column-major iterator.  Base case (lines 566-570):
`return _arr_ptr->_array[_arr_index]`.  Recursion case (lines 255-258): the body is the
expression statement `*_arr_rec_iter;` and no value is returned. -/
def LastDimensionIterator.dereference {T : Type} {rd : List Nat} (m : Object T rd) :
    {dims : List Nat} → LastDimensionIterator dims → Except Error T
  | _, .base Dim _arr_ptr i _ _ =>
      match _arr_ptr with
      | none => .error .undefined
      | some q =>
        match m.deref q [Dim] with
        | some a =>
            match a.raw i with
            | some v => .ok v
            | none => .error .undefined
        | none => .error .undefined
  | _, .recur _ _ _ _ _ r =>
      match r.dereference m with
      | .ok _ => .error .undefined
      | .error err => .error err

/-- The friend `operator==` on column-major iterators: base case lines 628-638, recursion
case lines 317-327. -/
def LastDimensionIterator.equal : {dims : List Nat} → LastDimensionIterator dims →
    LastDimensionIterator dims → Bool
  | _, .base _ p1 i1 s1 e1, .base _ p2 i2 s2 e2 =>
      if p1 ≠ p2 ∨ i1 ≠ i2 ∨ s1 ≠ s2 ∨ e1 ≠ e2 then false
      else if e1 then true
      else true
  | _, .recur _ p1 i1 s1 e1 r1, .recur _ p2 i2 s2 e2 r2 =>
      if p1 ≠ p2 ∨ i1 ≠ i2 ∨ s1 ≠ s2 ∨ e1 ≠ e2 then false
      else if e1 then true
      else r1.equal r2

/-- The friend `operator!=` on column-major iterators (lines 640-643 and 329-332). -/
def LastDimensionIterator.not_equal {dims : List Nat} (x y : LastDimensionIterator dims) : Bool :=
  !(x.equal y)

/-- The iterator after `k` pre-increments. -/
def LastDimensionIterator.advance {dims : List Nat} :
    Nat → LastDimensionIterator dims → Except Error (LastDimensionIterator dims)
  | 0, it => .ok it
  | k + 1, it =>
      match advance k it with
      | .ok it1 => it1.increment
      | .error err => .error err

/-- The loop `for (it = a.fmbegin(); it != a.fmend(); ++it) body` of the test program
(lines 50-52), started at `it` with `stop` for `a.fmend()`: the list of what the body
yielded, one entry per run of the body, or `none` when the loop has not been left after
`fuel` tests of its condition. -/
def FirstDimensionIterator.traverse {T : Type} {rd : List Nat} (m : Object T rd)
    {dims : List Nat} {α : Type} (stop : FirstDimensionIterator dims)
    (body : FirstDimensionIterator dims → Except Error α) :
    Nat → FirstDimensionIterator dims → Except Error (Option (List α))
  | 0, _ => .ok none
  | fuel + 1, it =>
      if it.not_equal stop then
        match body it with
        | .error err => .error err
        | .ok x =>
          match it.increment m with
          | .error err => .error err
          | .ok it1 =>
            match traverse m stop body fuel it1 with
            | .ok (some xs) => .ok (some (x :: xs))
            | .ok none => .ok none
            | .error err => .error err
      else .ok (some [])

/-- The loop `for (it = a.lmbegin(); it != a.lmend(); ++it) body` of the test program
(lines 57-59), in the same terms. -/
def LastDimensionIterator.traverse {dims : List Nat} {α : Type} (stop : LastDimensionIterator dims)
    (body : LastDimensionIterator dims → Except Error α) :
    Nat → LastDimensionIterator dims → Except Error (Option (List α))
  | 0, _ => .ok none
  | fuel + 1, it =>
      if it.not_equal stop then
        match body it with
        | .error err => .error err
        | .ok x =>
          match it.increment with
          | .error err => .error err
          | .ok it1 =>
            match traverse stop body fuel it1 with
            | .ok (some xs) => .ok (some (x :: xs))
            | .ok none => .ok none
            | .error err => .error err
      else .ok (some [])

/-- The array of the test program: shape `[2, 3, 4]`, filled with `0..23` by the nested
loops of `functionality_test.cpp` (lines 12-24). -/
def arr234 : Array Nat [2, 3, 4] :=
  .recur 2 (by decide)
    (fun i => .recur 3 (by decide)
      (fun j => .base 4 (by decide) (fun k => 12 * i.val + 4 * j.val + k.val) 4) 3) 2

/-- The test array as a top-level object. -/
def obj234 : Object Nat [2, 3, 4] := ⟨0, arr234⟩


/-- The loop `for (index = 0; index < _array_size; ++index) body`, given the indices it
runs through: an exception thrown by the body leaves the loop at once. -/
def copy_loop {σ : Type} (body : Nat → σ → Except Error Unit × σ) :
    List Nat → σ → Except Error Unit × σ
  | [], st => (.ok (), st)
  | index :: rest, st =>
      match body index st with
      | (.ok _, st1) => copy_loop body rest st1
      | (.error e, st1) => (.error e, st1)

/-- The copy assignment `operator=(const Array &array)` (lines 51-66 and 371-386), called
on the node at address `this` with an argument at address `that`: throw when the recorded
sizes differ; do nothing when `this == &array`; otherwise run
`_array[index] = array[index]` for every index below `_array_size`, where `array[index]`
is the checked `operator[]` of the argument and the assignment is that of the element
type (base case) or this operator on the child (recursion case). -/
def Array.assign {T : Type} : {dims : List Nat} → Array T dims → Addr → Array T dims → Addr →
    Except Error Unit × Array T dims
  | _, .base Dim pos _array s, this, .base _ _ src src_s, that =>
      if s ≠ src_s then (.error .Out_Of_Range_Exception, .base Dim pos _array s)
      else if this ≠ that then
        let r := copy_loop (fun index (st : Fin Dim → T) =>
          if index >= src_s then (.error .Out_Of_Range_Exception, st)
          else if h : index < Dim then (.ok (), Function.update st ⟨index, h⟩ (src ⟨index, h⟩))
          else (.error .undefined, st)) (List.range s) _array
        (r.1, .base Dim pos r.2 s)
      else (.ok (), .base Dim pos _array s)
  | _, .recur Dim pos _array s, this, .recur _ _ src src_s, that =>
      if s ≠ src_s then (.error .Out_Of_Range_Exception, .recur Dim pos _array s)
      else if this ≠ that then
        let r := copy_loop (fun index (st : Fin Dim → Array T _) =>
          if index >= src_s then (.error .Out_Of_Range_Exception, st)
          else if h : index < Dim then
            ((assign (st ⟨index, h⟩) (this.child index) (src ⟨index, h⟩) (that.child index)).1,
              Function.update st ⟨index, h⟩
                (assign (st ⟨index, h⟩) (this.child index) (src ⟨index, h⟩) (that.child index)).2)
          else (.error .undefined, st)) (List.range s) _array
        (r.1, .recur Dim pos r.2 s)
      else (.ok (), .recur Dim pos _array s)


/-- The number `(...((i0 * D1 + i1) * D2 + i2)...) * Dk + ik` of an index tuple, computed
from the left starting from `acc`: the last dimension is least significant. -/
def rowRankFrom : Nat → List Nat → List Nat → Nat
  | acc, d :: Dims, index :: rest => rowRankFrom (acc * d + index) Dims rest
  | acc, _, _ => acc

/-- The row-major number of an index tuple. -/
def rowRank (dims is : List Nat) : Nat := rowRankFrom 0 dims is

/-- The number `i0 + D0 * (i1 + D1 * (i2 + ...))` of an index tuple: the first dimension
is least significant. -/
def colRank : List Nat → List Nat → Nat
  | d :: Dims, index :: rest => index + d * colRank Dims rest
  | _, _ => 0

/-- The row-major iterator over the node at address `q` that stands at the tuple with
row-major number `k`: sizes as recorded, no flag set, every nested iterator at the child
selected by the index above it. -/
def fmState : (Dim : Nat) → (Dims : List Nat) → Addr → Nat → FirstDimensionIterator (Dim :: Dims)
  | Dim, [], q, k => .base Dim (some ⟨q, 0⟩) (some q) k Dim false
  | Dim, d :: Dims, q, k =>
      .recur Dim (some q) (k / (d :: Dims).prod) Dim false
        (fmState d Dims (q.child (k / (d :: Dims).prod)) (k % (d :: Dims).prod))

/-- The column-major iterator over the node at address `q` that stands at the tuple with
column-major number `k`, with the flag `e` at every level. -/
def lmState : (Dim : Nat) → (Dims : List Nat) → Addr → Nat → Bool →
    LastDimensionIterator (Dim :: Dims)
  | Dim, [], q, k, e => .base Dim (some q) k Dim e
  | Dim, d :: Dims, q, k, e =>
      .recur Dim (some q) (k % Dim) Dim e (lmState d Dims (q.child (k % Dim)) (k / Dim) e)

/-- The index tuple with row-major number `k`: the mixed-radix digits of `k`, the last
dimension least significant. -/
def rowDigits : List Nat → Nat → List Nat
  | [], _ => []
  | _ :: Dims, k => (k / Dims.prod) :: rowDigits Dims (k % Dims.prod)

/-- The index tuple with column-major number `k`: the mixed-radix digits of `k`, the first
dimension least significant. -/
def colDigits : List Nat → Nat → List Nat
  | [], _ => []
  | d :: Dims, k => (k % d) :: colDigits Dims (k / d)



/-- The template copy assignment `operator=(const Array<U, Dim, Dims...> &array)` (lines
69-85 and 389-405).  Its body is that of the copy assignment; the element assignment of
the base case converts a `U` to a `T`, here by `conv`, and the recursion case calls this
operator on the children. -/
def Array.assign_from {U T : Type} (conv : U → T) : {dims : List Nat} → Array T dims → Addr →
    Array U dims → Addr → Except Error Unit × Array T dims
  | _, .base Dim pos _array s, this, .base _ _ src src_s, that =>
      if s ≠ src_s then (.error .Out_Of_Range_Exception, .base Dim pos _array s)
      else if this ≠ that then
        let r := copy_loop (fun index (st : Fin Dim → T) =>
          if index >= src_s then (.error .Out_Of_Range_Exception, st)
          else if h : index < Dim then
            (.ok (), Function.update st ⟨index, h⟩ (conv (src ⟨index, h⟩)))
          else (.error .undefined, st)) (List.range s) _array
        (r.1, .base Dim pos r.2 s)
      else (.ok (), .base Dim pos _array s)
  | _, .recur Dim pos _array s, this, .recur _ _ src src_s, that =>
      if s ≠ src_s then (.error .Out_Of_Range_Exception, .recur Dim pos _array s)
      else if this ≠ that then
        let r := copy_loop (fun index (st : Fin Dim → Array T _) =>
          if index >= src_s then (.error .Out_Of_Range_Exception, st)
          else if h : index < Dim then
            ((assign_from conv (st ⟨index, h⟩) (this.child index) (src ⟨index, h⟩)
                (that.child index)).1,
              Function.update st ⟨index, h⟩
                (assign_from conv (st ⟨index, h⟩) (this.child index) (src ⟨index, h⟩)
                  (that.child index)).2)
          else (.error .undefined, st)) (List.range s) _array
        (r.1, .recur Dim pos r.2 s)
      else (.ok (), .recur Dim pos _array s)

/-- The default constructor `Array() : _array_size{Dim} {}` (lines 30 and 351) of the
class with dimensions `Dim, Dims...`, each positive by the `static_assert`.  The members of
`_array` are default-initialised: child nodes by this constructor; elements hold whatever
the default-initialisation of a `T` leaves in the slot, given here by `fill` on the
subscripts that lead to the slot. -/
def Array.default_construct {T : Type} (fill : List Nat → T) : (Dim : Nat) → (Dims : List Nat) →
    (∀ d ∈ Dim :: Dims, 0 < d) → List Nat → Array T (Dim :: Dims)
  | Dim, [], h, p =>
      .base Dim (h Dim (List.mem_cons_self _ _)) (fun i => fill (p ++ [i.val])) Dim
  | Dim, d :: Dims, h, p =>
      .recur Dim (h Dim (List.mem_cons_self _ _))
        (fun i => default_construct fill d Dims (fun x hx => h x (List.mem_cons_of_mem _ hx))
          (p ++ [i.val])) Dim

/-- The largest value of the type `int`, taken as 32 bits wide. -/
def INT_MAX : Nat := 2147483647

/-- The step `++index` of a loop whose counter is declared `int` (lines 35 and 44), applied
to what the body of the iteration at `index` left: after a body that returned normally the
counter is incremented, which overflows the `int` when it holds `INT_MAX` and is undefined
then; an exception thrown by the body leaves the loop before the increment. -/
def int_increment {σ : Type} (index : Nat) (r : Except Error Unit × σ) :
    Except Error Unit × σ :=
  match r with
  | (.ok _, st) => if index < INT_MAX then (.ok (), st) else (.error .undefined, st)
  | (.error e, st) => (.error e, st)

/-- The copy constructor `Array(const Array &array) : _array_size{Dim}` (lines 33-38 and
354-359), constructing the object at address `this` from the one at `that`: the members
are default-initialised, then `_array[index] = array[index]` runs for every index below
`_array_size`, with the checked `operator[]` on the argument and, in the recursion case,
the copy assignment of the child.  An exception leaves no object.  The counter of the
base case is a `std::size_t`; that of the recursion case is declared `int` (line 35) and
its increment is `int_increment`. -/
def Array.copy_construct {T : Type} (fill : List Nat → T) : (Dim : Nat) → (Dims : List Nat) →
    (∀ d ∈ Dim :: Dims, 0 < d) → Addr → Array T (Dim :: Dims) → Addr →
    Except Error (Array T (Dim :: Dims))
  | Dim, [], hp, this, .base _ _ src src_s, _ =>
      let r := copy_loop (fun index (st : Fin Dim → T) =>
        if index >= src_s then (.error .Out_Of_Range_Exception, st)
        else if h : index < Dim then (.ok (), Function.update st ⟨index, h⟩ (src ⟨index, h⟩))
        else (.error .undefined, st)) (List.range Dim) (fun i => fill (this.path ++ [i.val]))
      match r.1 with
      | .ok _ => .ok (.base Dim (hp Dim (List.mem_cons_self _ _)) r.2 Dim)
      | .error e => .error e
  | Dim, d :: Dims, hp, this, .recur _ _ src src_s, that =>
      let r := copy_loop (fun index (st : Fin Dim → Array T (d :: Dims)) =>
        int_increment index
          (if index >= src_s then (.error .Out_Of_Range_Exception, st)
          else if h : index < Dim then
            (((st ⟨index, h⟩).assign (this.child index) (src ⟨index, h⟩) (that.child index)).1,
              Function.update st ⟨index, h⟩
                ((st ⟨index, h⟩).assign (this.child index) (src ⟨index, h⟩)
                  (that.child index)).2)
          else (.error .undefined, st))) (List.range Dim)
        (fun i => Array.default_construct fill d Dims
          (fun x hx => hp x (List.mem_cons_of_mem _ hx)) (this.path ++ [i.val]))
      match r.1 with
      | .ok _ => .ok (.recur Dim (hp Dim (List.mem_cons_self _ _)) r.2 Dim)
      | .error e => .error e

/-- The template copy constructor `Array(const Array<U, Dim, Dims...> &array)` (lines
41-47 and 362-368): as the copy constructor, with the converting assignment of elements
(base case) or the template copy assignment of the child (recursion case); the counter of
the recursion case is again an `int` (line 44). -/
def Array.construct_from {U T : Type} (conv : U → T) (fill : List Nat → T) : (Dim : Nat) →
    (Dims : List Nat) → (∀ d ∈ Dim :: Dims, 0 < d) → Addr → Array U (Dim :: Dims) → Addr →
    Except Error (Array T (Dim :: Dims))
  | Dim, [], hp, this, .base _ _ src src_s, _ =>
      let r := copy_loop (fun index (st : Fin Dim → T) =>
        if index >= src_s then (.error .Out_Of_Range_Exception, st)
        else if h : index < Dim then
          (.ok (), Function.update st ⟨index, h⟩ (conv (src ⟨index, h⟩)))
        else (.error .undefined, st)) (List.range Dim) (fun i => fill (this.path ++ [i.val]))
      match r.1 with
      | .ok _ => .ok (.base Dim (hp Dim (List.mem_cons_self _ _)) r.2 Dim)
      | .error e => .error e
  | Dim, d :: Dims, hp, this, .recur _ _ src src_s, that =>
      let r := copy_loop (fun index (st : Fin Dim → Array T (d :: Dims)) =>
        int_increment index
          (if index >= src_s then (.error .Out_Of_Range_Exception, st)
          else if h : index < Dim then
            (((st ⟨index, h⟩).assign_from conv (this.child index) (src ⟨index, h⟩)
                (that.child index)).1,
              Function.update st ⟨index, h⟩
                ((st ⟨index, h⟩).assign_from conv (this.child index) (src ⟨index, h⟩)
                  (that.child index)).2)
          else (.error .undefined, st))) (List.range Dim)
        (fun i => Array.default_construct fill d Dims
          (fun x hx => hp x (List.mem_cons_of_mem _ hx)) (this.path ++ [i.val]))
      match r.1 with
      | .ok _ => .ok (.recur Dim (hp Dim (List.mem_cons_self _ _)) r.2 Dim)
      | .error e => .error e

/-- The array that holds `conv x` in every slot where the argument holds `x`, with the
recorded sizes of the argument. -/
def Array.map {U T : Type} (conv : U → T) : {dims : List Nat} → Array U dims → Array T dims
  | _, .base Dim pos _array s => .base Dim pos (fun i => conv (_array i)) s
  | _, .recur Dim pos _array s => .recur Dim pos (fun i => (_array i).map conv) s

/-- The value of an integer converted to a signed integer type of `w` bits: the value
itself when the type can represent it, reduced modulo `2 ^ w` otherwise. -/
def toSigned (w : Nat) (x : Int) : Int := (x + 2 ^ (w - 1)) % 2 ^ w - 2 ^ (w - 1)

/-- The values of a signed integer type of `w` bits. -/
def IsSigned (w : Nat) (x : Int) : Prop := -(2 ^ (w - 1)) ≤ x ∧ x < 2 ^ (w - 1)

/-- The implicit conversion from `short` (16 bits) to `int` (32 bits) that the template
assignment applies to the elements in `arr1 = arr3` (line 42 of the test program). -/
def short_to_int (x : Int) : Int := toSigned 32 x

/-- The array `arr3` of the test program: shape `[2, 3, 4]`, elements of type `short`,
filled with `0..23` (lines 9-24). -/
def arr3 : Array Int [2, 3, 4] :=
  .recur 2 (by decide)
    (fun i => .recur 3 (by decide)
      (fun j => .base 4 (by decide) (fun k => 12 * i.val + 4 * j.val + k.val) 4) 3) 2



/-- The array `arr1` of the test program when `arr1 = arr3` runs (line 42): filled with
`0..23`, then overwritten at `[0][0][0]`, `[1][1][1]` and `[0][2][3]` (lines 27-29). -/
def arr1 : Array Int [2, 3, 4] :=
  .recur 2 (by decide)
    (fun i => .recur 3 (by decide)
      (fun j => .base 4 (by decide) (fun k =>
        if i.val = 0 ∧ j.val = 0 ∧ k.val = 0 then 1234
        else if i.val = 1 ∧ j.val = 1 ∧ k.val = 1 then 1234
        else if i.val = 0 ∧ j.val = 2 ∧ k.val = 3 then 5678
        else 12 * i.val + 4 * j.val + k.val) 4) 3) 2

/-- The array `arr2` of the test program when `arr2 = arr1` runs (line 41): filled with
`0..23` (lines 12-24). -/
def arr2 : Array Int [2, 3, 4] :=
  .recur 2 (by decide)
    (fun i => .recur 3 (by decide)
      (fun j => .base 4 (by decide) (fun k => 12 * i.val + 4 * j.val + k.val) 4) 3) 2

/-- An array of shape `[2147483648, 1]`, whose first dimension is `INT_MAX + 1`, with an
integer element type: every element holds 7. -/
def wide_src : Array Int [2147483648, 1] :=
  .recur 2147483648 (by decide) (fun _ => .base 1 (by decide) (fun _ => 7) 1) 2147483648

/-- An array of the same shape with every element 0. -/
def wide_dst : Array Int [2147483648, 1] :=
  .recur 2147483648 (by decide) (fun _ => .base 1 (by decide) (fun _ => 0) 1) 2147483648

/-- A store of array objects of one class, each known by its identity: the variables
`arr1`, `arr2`, ... of a program. -/
def Heap (T : Type) (dims : List Nat) : Type := Nat → Array T dims

/-- The statement `b = a;` on two variables of the store (line 41 of the test program):
the copy assignment of `b` with the argument `a`. -/
def Heap.assign {T : Type} {dims : List Nat} (h : Heap T dims) (b a : Nat) :
    Except Error Unit × Heap T dims :=
  (((h b).assign ⟨b, []⟩ (h a) ⟨a, []⟩).1,
    Function.update h b ((h b).assign ⟨b, []⟩ (h a) ⟨a, []⟩).2)

/-- The declaration `Array<T, Dim, Dims...> b(a);`: the variable `b` comes to hold the
object that the copy constructor builds from `a`. -/
def Heap.copy_construct {T : Type} (fill : List Nat → T) (Dim : Nat) (Dims : List Nat)
    (hp : ∀ d ∈ Dim :: Dims, 0 < d) (h : Heap T (Dim :: Dims)) (b a : Nat) :
    Except Error (Heap T (Dim :: Dims)) :=
  match Array.copy_construct fill Dim Dims hp ⟨b, []⟩ (h a) ⟨a, []⟩ with
  | .ok v => .ok (Function.update h b v)
  | .error e => .error e

/-- The statement `b[i0]...[ik] = v;` on a variable of the store. -/
def Heap.write {T : Type} {Dim : Nat} {Dims : List Nat} (h : Heap T (Dim :: Dims)) (b : Nat)
    (is : List Nat) (v : T) : Except Error Unit × Heap T (Dim :: Dims) :=
  ((ms.write (Dim :: Dims) (h b) is v).1,
    Function.update h b (ms.write (Dim :: Dims) (h b) is v).2)

/-- The variables `arr1` (identity 1) and `arr2` (every other identity) of the test program
before line 41. -/
def test_vars : Heap Int [2, 3, 4] := fun n => if n = 1 then arr1 else arr2

/-- Two variables of the class `Array<int, 2147483648, 1>`: `wide_src` (identity 0) and
`wide_dst` (every other identity). -/
def wide_vars : Heap Int [2147483648, 1] := fun n => if n = 0 then wide_src else wide_dst

/-- The array values a program obtains through the members of the class: by default
construction, by the two copy constructors, as what the two assignment operators leave in
their target, and as what an element write through a subscript chain leaves. -/
inductive Obtained : (T : Type) → (dims : List Nat) → Array T dims → Prop where
  | default_construct {T : Type} (fill : List Nat → T) (Dim : Nat) (Dims : List Nat)
      (hp : ∀ d ∈ Dim :: Dims, 0 < d) (p : List Nat) :
      Obtained T (Dim :: Dims) (Array.default_construct fill Dim Dims hp p)
  | copy_construct {T : Type} (fill : List Nat → T) (Dim : Nat) (Dims : List Nat)
      (hp : ∀ d ∈ Dim :: Dims, 0 < d) (this that : Addr) (src b : Array T (Dim :: Dims)) :
      Obtained T (Dim :: Dims) src →
      Array.copy_construct fill Dim Dims hp this src that = .ok b →
      Obtained T (Dim :: Dims) b
  | construct_from {U T : Type} (conv : U → T) (fill : List Nat → T) (Dim : Nat)
      (Dims : List Nat) (hp : ∀ d ∈ Dim :: Dims, 0 < d) (this that : Addr)
      (src : Array U (Dim :: Dims)) (b : Array T (Dim :: Dims)) :
      Obtained U (Dim :: Dims) src →
      Array.construct_from conv fill Dim Dims hp this src that = .ok b →
      Obtained T (Dim :: Dims) b
  | assign {T : Type} {dims : List Nat} (self src : Array T dims) (this that : Addr) :
      Obtained T dims self → Obtained T dims src →
      Obtained T dims (self.assign this src that).2
  | assign_from {U T : Type} (conv : U → T) {dims : List Nat} (self : Array T dims)
      (src : Array U dims) (this that : Addr) :
      Obtained T dims self → Obtained U dims src →
      Obtained T dims (self.assign_from conv this src that).2
  | write {T : Type} (Dim : Nat) (Dims : List Nat) (a : Array T (Dim :: Dims)) (is : List Nat)
      (v : T) :
      Obtained T (Dim :: Dims) a → Obtained T (Dim :: Dims) (write (Dim :: Dims) a is v).2

/-- A target whose recorded size agrees with its dimension. -/
def tgt2 : Array Nat [2] := .base 2 (by decide) (fun i => i.val) 2

/-- An argument of the same class whose member `_array_size` has been set to 3. -/
def src2 : Array Nat [2] := .base 2 (by decide) (fun i => 10 + i.val) 3


/-- The copy constructor of the row-major iterator (lines 439-443 and 119-123): every
member is copied, the nested iterator by its own copy constructor, except that
`_arr_iter_size` is initialised with the template parameter `Dim`. -/
def FirstDimensionIterator.copy : {dims : List Nat} → FirstDimensionIterator dims →
    FirstDimensionIterator dims
  | _, .base Dim p a i _ e => .base Dim p a i Dim e
  | _, .recur Dim p i _ e r => .recur Dim p i Dim e r.copy

/-- The copy constructor of the column-major iterator (lines 517-520 and 203-207), with
the same treatment of `_arr_iter_size`. -/
def LastDimensionIterator.copy : {dims : List Nat} → LastDimensionIterator dims →
    LastDimensionIterator dims
  | _, .base Dim p i _ e => .base Dim p i Dim e
  | _, .recur Dim p i _ e r => .recur Dim p i Dim e r.copy

/-- The post-increment `operator++(int)` of the row-major iterator (lines 484-488 and
170-174): a copy of the iterator is made, the iterator is pre-incremented, the copy is
returned.  The result is the returned iterator and the iterator itself afterwards. -/
def FirstDimensionIterator.post_increment {T : Type} {rd : List Nat} (m : Object T rd)
    {dims : List Nat} (it : FirstDimensionIterator dims) :
    Except Error (FirstDimensionIterator dims × FirstDimensionIterator dims) :=
  match it.increment m with
  | .ok it1 => .ok (it.copy, it1)
  | .error err => .error err

/-- The post-increment `operator++(int)` of the column-major iterator (lines 559-563 and
248-252). -/
def LastDimensionIterator.post_increment {dims : List Nat} (it : LastDimensionIterator dims) :
    Except Error (LastDimensionIterator dims × LastDimensionIterator dims) :=
  match it.increment with
  | .ok it1 => .ok (it.copy, it1)
  | .error err => .error err

/-- The row-major iterators over an array object that a program reaches from `fmbegin()`
or `fmend()` by pre-increments, post-increments and copies. -/
inductive FirstDimensionIterator.Reachable {T : Type} {rd : List Nat} (m : Object T rd) :
    FirstDimensionIterator rd → Prop where
  | fmbegin : Reachable m (m.val.fmbegin m.addr)
  | fmend : Reachable m (m.val.fmend m.addr)
  | increment (it it1 : FirstDimensionIterator rd) :
      Reachable m it → it.increment m = .ok it1 → Reachable m it1
  | post_increment (it ret it1 : FirstDimensionIterator rd) :
      Reachable m it → it.post_increment m = .ok (ret, it1) → Reachable m ret
  | copy (it : FirstDimensionIterator rd) : Reachable m it → Reachable m it.copy

/-- The column-major iterators over the array `a` at address `this` that a program
reaches from `lmbegin()` or `lmend()` by pre-increments, post-increments and copies. -/
inductive LastDimensionIterator.Reachable {T : Type} {rd : List Nat} (a : Array T rd)
    (this : Addr) : LastDimensionIterator rd → Prop where
  | lmbegin : Reachable a this (a.lmbegin this)
  | lmend : Reachable a this (a.lmend this)
  | increment (it it1 : LastDimensionIterator rd) :
      Reachable a this it → it.increment = .ok it1 → Reachable a this it1
  | post_increment (it ret it1 : LastDimensionIterator rd) :
      Reachable a this it → it.post_increment = .ok (ret, it1) → Reachable a this ret
  | copy (it : LastDimensionIterator rd) : Reachable a this it → Reachable a this it.copy

/-- At every level of a row-major iterator the index is below the dimension and the
stored size is the dimension. -/
def FirstDimensionIterator.Bounded : {dims : List Nat} → FirstDimensionIterator dims → Prop
  | _, .base Dim _ _ i s _ => i < Dim ∧ s = Dim
  | _, .recur Dim _ i s _ r => i < Dim ∧ s = Dim ∧ r.Bounded

/-- At every level of a column-major iterator the index is below the dimension and the
stored size is the dimension. -/
def LastDimensionIterator.Bounded : {dims : List Nat} → LastDimensionIterator dims → Prop
  | _, .base Dim _ i s _ => i < Dim ∧ s = Dim
  | _, .recur Dim _ i s _ r => i < Dim ∧ s = Dim ∧ r.Bounded

/-- The element access `_arr_ptr[_arr_index]` that `operator*` performs at the base level
of a row-major iterator designates a slot of the leaf: `_arr_ptr` points at a slot and the
index added to it stays below the dimension. -/
def FirstDimensionIterator.AccessInRange : {dims : List Nat} → FirstDimensionIterator dims → Prop
  | _, .base Dim p _ i _ _ => ∃ q : ElemPtr, p = some q ∧ q.offset + i < Dim
  | _, .recur _ _ _ _ _ r => r.AccessInRange

/-- The state of a row-major iterator over the node at address `q`: at every level the
pointers designate the node of that level, reached through the indices above it, the
index is below the dimension and the stored size is the dimension. -/
def FirstDimensionIterator.Inv : {dims : List Nat} → Addr → FirstDimensionIterator dims → Prop
  | _, q, .base Dim p a i s _ => p = some ⟨q, 0⟩ ∧ a = some q ∧ i < Dim ∧ s = Dim
  | _, q, .recur Dim p i s _ r => p = some q ∧ i < Dim ∧ s = Dim ∧ Inv (q.child i) r

/-- The state of a column-major iterator over the node at address `q`, in the same
terms. -/
def LastDimensionIterator.Inv : {dims : List Nat} → Addr → LastDimensionIterator dims → Prop
  | _, q, .base Dim p i s _ => p = some q ∧ i < Dim ∧ s = Dim
  | _, q, .recur Dim p i s _ r => p = some q ∧ i < Dim ∧ s = Dim ∧ Inv (q.child i) r

/-- What one level of an iterator holds besides its nested iterator: the pointer to the
array node (`_arr_ptr`, or `_arr` at the base level of the row-major iterator), the pointer
into the element storage of that node (`_arr_ptr` at the base level of the row-major
iterator, absent elsewhere), the current index, the stored size and the end flag. -/
structure Level where
  node : Option Addr
  elems : Option ElemPtr
  index : Nat
  size : Nat
  exhausted : Bool
deriving DecidableEq, Repr

/-- The levels of a row-major iterator, outermost first. -/
def FirstDimensionIterator.levels : {dims : List Nat} → FirstDimensionIterator dims → List Level
  | _, .base _ p a i s e => [⟨a, p, i, s, e⟩]
  | _, .recur _ p i s e r => ⟨p, none, i, s, e⟩ :: r.levels

/-- The levels of a column-major iterator, outermost first. -/
def LastDimensionIterator.levels : {dims : List Nat} → LastDimensionIterator dims → List Level
  | _, .base _ p i s e => [⟨p, none, i, s, e⟩]
  | _, .recur _ p i s e r => ⟨p, none, i, s, e⟩ :: r.levels

/-- The comparison in the words of the specification: two lists of levels agree at every
level from the outermost down to and including the first one whose end flag is set, or
down to the deepest when none is set. -/
def AgreeToFirstExhausted (xs ys : List Level) : Prop :=
  xs.take (xs.findIdx (fun l => l.exhausted) + 1) = ys.take (xs.findIdx (fun l => l.exhausted) + 1)

/-- An array of the reversed shape `[4, 3, 2]`. -/
def arr432 : Array Nat [4, 3, 2] :=
  .recur 4 (by decide)
    (fun i => .recur 3 (by decide)
      (fun j => .base 2 (by decide) (fun k => 6 * i.val + 2 * j.val + k.val) 2) 3) 4

/-- The reversed-shape array as a top-level object. -/
def obj432 : Object Nat [4, 3, 2] := ⟨1, arr432⟩


/-- The addresses of the nodes met from the node at `q` by following the subscripts `is`,
one address per subscript: `q`, then the child of `q` at the first subscript, and so
on. -/
def Addr.descend : Addr → List Nat → List Addr
  | _, [] => []
  | q, index :: rest => q :: descend (q.child index) rest

/-- The end flag of the deepest level of a column-major iterator. -/
def LastDimensionIterator.deepest_flag : {dims : List Nat} → LastDimensionIterator dims → Bool
  | _, .base _ _ _ _ e => e
  | _, .recur _ _ _ _ _ r => r.deepest_flag

/-- What the statements of `modify_end_flag` (lines 230-234) make of a nested column-major
iterator that has been pointed at the node `q`: at every level the pointer designates the
child selected by the index above it, and every level above the deepest takes over the
flag of its nested iterator.  Indices, sizes and the deepest flag are as before. -/
def LastDimensionIterator.repoint : {dims : List Nat} → Addr → LastDimensionIterator dims →
    LastDimensionIterator dims
  | _, q, .base Dim _ i s e => .base Dim (some q) i s e
  | _, q, .recur Dim _ i s _ r =>
      .recur Dim (some q) i s (repoint (q.child i) r)._is_iter_end (repoint (q.child i) r)

/-! ## Chained indexing -/

theorem Array.subscript_lt {T : Type} {d : Nat} {Dims : List Nat} (a : Array T (d :: Dims))
    (hs : a.Sized) {index : Nat} (h : index < d) :
    ∃ c, a.raw index = some c ∧ a.subscript index = .ok c ∧ SubSized Dims c := by
  cases a with
  | base Dim pos arr s =>
      simp only [Array.Sized] at hs
      subst hs
      exact ⟨arr ⟨index, h⟩, by simp [Array.raw, h], by
        simp [Array.subscript, Array._array_size, Array.raw, h], trivial⟩
  | recur Dim pos arr s =>
      simp only [Array.Sized] at hs
      obtain ⟨hs1, hs2⟩ := hs
      subst hs1
      exact ⟨arr ⟨index, h⟩, by simp [Array.raw, h], by
        simp [Array.subscript, Array._array_size, Array.raw, h], hs2 _⟩

theorem Array.subscript_ge {T : Type} {d : Nat} {Dims : List Nat} (a : Array T (d :: Dims))
    (hs : a.Sized) {index : Nat} (h : d ≤ index) :
    a.subscript index = .error .Out_Of_Range_Exception := by
  cases a with
  | base Dim pos arr s =>
      simp only [Array.Sized] at hs
      subst hs
      simp [Array.subscript, Array._array_size, h]
  | recur Dim pos arr s =>
      simp only [Array.Sized] at hs
      obtain ⟨hs1, hs2⟩ := hs
      subst hs1
      simp [Array.subscript, Array._array_size, h]

theorem get_inBounds {T : Type} : ∀ (dims : List Nat) (x : Sub T dims) (is : List Nat),
    SubSized dims x → InBounds dims is → ∃ v, elem dims x is = some v ∧ get dims x is = .ok v
  | [], x, [], _, _ => ⟨x, rfl, rfl⟩
  | [], _, _ :: _, _, h => by simp [InBounds] at h
  | _ :: _, _, [], _, h => by simp [InBounds] at h
  | d :: Dims, a, index :: rest, hs, h => by
      obtain ⟨h1, h2⟩ := h
      obtain ⟨c, hr, hc, hcs⟩ := Array.subscript_lt a hs h1
      obtain ⟨v, hv1, hv2⟩ := get_inBounds Dims c rest hcs h2
      exact ⟨v, by simp [elem, hr, hv1], by simp [get, hc, hv2]⟩

theorem get_not_inBounds {T : Type} : ∀ (dims : List Nat) (x : Sub T dims) (is : List Nat),
    SubSized dims x → is.length = dims.length → ¬ InBounds dims is →
    get dims x is = .error .Out_Of_Range_Exception
  | [], x, [], _, _, h => by simp [InBounds] at h
  | [], _, _ :: _, _, hl, _ => by simp at hl
  | _ :: _, _, [], _, hl, _ => by simp at hl
  | d :: Dims, a, index :: rest, hs, hl, h => by
      by_cases h1 : index < d
      · obtain ⟨c, _, hc, hcs⟩ := Array.subscript_lt a hs h1
        have h2 : ¬ InBounds Dims rest := fun h2 => h ⟨h1, h2⟩
        have := get_not_inBounds Dims c rest hcs (by simpa using hl) h2
        simp [get, hc, this]
      · have := Array.subscript_ge a hs (Nat.le_of_not_lt h1)
        simp [get, this]


theorem chain_leftmost {T : Type} : ∀ (dpre : List Nat) (d : Nat) (dpost : List Nat)
    (x : Sub T (dpre ++ d :: dpost)) (pre : List Nat) (i : Nat),
    SubSized (dpre ++ d :: dpost) x → InBounds dpre pre → d ≤ i →
    ∃ c : Array T (d :: dpost), chain (dpre ++ d :: dpost) x pre = .ok ⟨d :: dpost, c⟩ ∧
      c.subscript i = .error .Out_Of_Range_Exception
  | [], d, dpost, x, [], i, hs, _, hi => ⟨x, rfl, Array.subscript_ge x hs hi⟩
  | [], _, _, _, _ :: _, _, _, h, _ => by simp [InBounds] at h
  | _ :: _, _, _, _, [], _, _, h, _ => by simp [InBounds] at h
  | e :: dpre, d, dpost, x, index :: rest, i, hs, h, hi => by
      obtain ⟨h1, h2⟩ := h
      have hx : ∃ c, Array.raw (x : Array T (e :: (dpre ++ d :: dpost))) index = some c ∧
          Array.subscript (x : Array T (e :: (dpre ++ d :: dpost))) index = .ok c ∧
          SubSized (dpre ++ d :: dpost) c := Array.subscript_lt _ hs h1
      obtain ⟨c, _, hc, hcs⟩ := hx
      obtain ⟨c2, hc2, hc3⟩ := chain_leftmost dpre d dpost c rest i hcs h2 hi
      refine ⟨c2, ?_, hc3⟩
      show chain (e :: (dpre ++ d :: dpost)) x (index :: rest) = _
      simp only [chain, hc]
      exact hc2

theorem Array.put_size {T : Type} {dims : List Nat} (a : Array T dims) (index : Nat)
    (v : Sub T dims.tail) : (a.put index v)._array_size = a._array_size := by
  cases a <;> simp only [Array.put] <;> split <;> rfl

theorem Array.raw_put {T : Type} {d : Nat} {Dims : List Nat} (a : Array T (d :: Dims))
    {index : Nat} (h : index < d) (v : Sub T Dims) : (a.put index v).raw index = some v := by
  cases a <;> simp [Array.put, Array.raw, h]

theorem Array.put_raw {T : Type} {dims : List Nat} (a : Array T dims) {index : Nat}
    {c : Sub T dims.tail} (h : a.raw index = some c) : a.put index c = a := by
  cases a with
  | base Dim pos arr s =>
      simp only [Array.raw] at h
      split at h
      · rename_i hlt
        simp only [Option.some.injEq] at h
        subst h
        simp [Array.put, hlt]
      · cases h
  | recur Dim pos arr s =>
      simp only [Array.raw] at h
      split at h
      · rename_i hlt
        simp only [Option.some.injEq] at h
        subst h
        simp [Array.put, hlt]
      · cases h

theorem write_then_get {T : Type} : ∀ (dims : List Nat) (x : Sub T dims) (is : List Nat) (v : T),
    SubSized dims x → InBounds dims is →
    (write dims x is v).1 = .ok () ∧ get dims (write dims x is v).2 is = .ok v
  | [], _, [], _, _, _ => ⟨rfl, rfl⟩
  | [], _, _ :: _, _, _, h => by simp [InBounds] at h
  | _ :: _, _, [], _, _, h => by simp [InBounds] at h
  | d :: Dims, a, index :: rest, v, hs, h => by
      obtain ⟨h1, h2⟩ := h
      obtain ⟨c, _, hc, hcs⟩ := Array.subscript_lt (a : Array T (d :: Dims)) hs h1
      obtain ⟨ih1, ih2⟩ := write_then_get Dims c rest v hcs h2
      have hsz : (a : Array T (d :: Dims))._array_size = d := by
        cases a <;> simp_all [Array.Sized, SubSized, Array._array_size]
      have hsub : Array.subscript
          (Array.put (a : Array T (d :: Dims)) index (write Dims c rest v).2) index
            = .ok (write Dims c rest v).2 := by
        simp [Array.subscript, Array.put_size, hsz, h1, Array.raw_put]
      constructor
      · simp [write, hc, ih1]
      · simp only [write, hc, get, hsub]
        exact ih2

theorem write_not_inBounds {T : Type} : ∀ (dims : List Nat) (x : Sub T dims) (is : List Nat)
    (v : T), SubSized dims x → is.length = dims.length → ¬ InBounds dims is →
    write dims x is v = (.error .Out_Of_Range_Exception, x)
  | [], x, [], _, _, _, h => by simp [InBounds] at h
  | [], _, _ :: _, _, _, hl, _ => by simp at hl
  | _ :: _, _, [], _, _, hl, _ => by simp at hl
  | d :: Dims, a, index :: rest, v, hs, hl, h => by
      by_cases h1 : index < d
      · obtain ⟨c, hr, hc, hcs⟩ := Array.subscript_lt (a : Array T (d :: Dims)) hs h1
        have h2 : ¬ InBounds Dims rest := fun h2 => h ⟨h1, h2⟩
        have ih := write_not_inBounds Dims c rest v hcs (by simpa using hl) h2
        simp only [write, hc, ih]
        rw [Array.put_raw _ hr]
      · have := Array.subscript_ge (a : Array T (d :: Dims)) hs (Nat.le_of_not_lt h1)
        simp [write, this]


/-- C1 (chained access).  For every array with recorded sizes and every index tuple with
one index per dimension: the chained read `a[i0]...[ik]` returns normally exactly when
every index is below its dimension, and then yields the element stored in that slot;
otherwise it throws `Out_Of_Range_Exception`.  The exception is thrown at the leftmost
offending level: the subscripts before it return the node of that level, and the
`operator[]` of that node throws on its own index, whatever follows in the chain. -/
theorem C1_chained_access {T : Type} (Dim : Nat) (Dims : List Nat) (a : Array T (Dim :: Dims))
    (hs : a.Sized) (is : List Nat) (hlen : is.length = (Dim :: Dims).length) :
    ((∃ v, get (Dim :: Dims) a is = .ok v) ↔ InBounds (Dim :: Dims) is) ∧
    (InBounds (Dim :: Dims) is →
      ∃ v, elem (Dim :: Dims) a is = some v ∧ get (Dim :: Dims) a is = .ok v) ∧
    (¬ InBounds (Dim :: Dims) is →
      get (Dim :: Dims) a is = .error .Out_Of_Range_Exception) ∧
    (∀ (dpre : List Nat) (d : Nat) (dpost pre : List Nat) (i : Nat) (post : List Nat),
      Dim :: Dims = dpre ++ d :: dpost → is = pre ++ i :: post → InBounds dpre pre → d ≤ i →
      ∃ c : Array T (d :: dpost), chain (Dim :: Dims) a pre = .ok ⟨d :: dpost, c⟩ ∧
        c.subscript i = .error .Out_Of_Range_Exception) := by
  refine ⟨⟨?_, ?_⟩, get_inBounds (Dim :: Dims) a is hs, get_not_inBounds (Dim :: Dims) a is hs hlen, ?_⟩
  · rintro ⟨v, hv⟩
    by_contra hn
    rw [get_not_inBounds (Dim :: Dims) a is hs hlen hn] at hv
    cases hv
  · intro h
    obtain ⟨v, _, hv⟩ := get_inBounds (Dim :: Dims) a is hs h
    exact ⟨v, hv⟩
  · intro dpre d dpost pre i post hd _ hpre hi
    cases dpre with
    | nil =>
        simp only [List.nil_append, List.cons.injEq] at hd
        obtain ⟨h1, h2⟩ := hd
        subst h1
        subst h2
        exact chain_leftmost [] Dim Dims a pre i hs hpre hi
    | cons e dpre =>
        simp only [List.cons_append, List.cons.injEq] at hd
        obtain ⟨h1, h2⟩ := hd
        subst h1
        subst h2
        exact chain_leftmost (Dim :: dpre) d dpost a pre i hs hpre hi

/-- C1 at the access of the test program, `arr1[0][3][0]`: the second subscript
throws. -/
theorem C1_chained_access_witness :
    arr234.Sized ∧ [0, 3, 0].length = [2, 3, 4].length ∧
    get [2, 3, 4] arr234 [0, 3, 0] = .error .Out_Of_Range_Exception :=
  ⟨by decide, by decide,
    (C1_chained_access 2 [3, 4] arr234 (by decide) [0, 3, 0] (by decide)).2.2.1 (by decide)⟩

/-- C2 (write then read).  For every array with recorded sizes, every in-bounds index
tuple and every value `v`: the assignment `a[i0]...[ik] = v` returns normally and a read
of `a[i0]...[ik]` afterwards returns `v`. -/
theorem C2_write_then_read {T : Type} (Dim : Nat) (Dims : List Nat) (a : Array T (Dim :: Dims))
    (hs : a.Sized) (is : List Nat) (hin : InBounds (Dim :: Dims) is) (v : T) :
    (write (Dim :: Dims) a is v).1 = .ok () ∧
    get (Dim :: Dims) (write (Dim :: Dims) a is v).2 is = .ok v :=
  write_then_get (Dim :: Dims) a is v hs hin

/-- C2 at the test array: writing 5678 at `[0][2][3]` and reading it back. -/
theorem C2_write_then_read_witness :
    arr234.Sized ∧ InBounds [2, 3, 4] [0, 2, 3] ∧
    (write [2, 3, 4] arr234 [0, 2, 3] 5678).1 = .ok () ∧
    get [2, 3, 4] (write [2, 3, 4] arr234 [0, 2, 3] 5678).2 [0, 2, 3] = .ok 5678 :=
  ⟨by decide, by decide, C2_write_then_read 2 [3, 4] arr234 (by decide) [0, 2, 3] (by decide) 5678⟩

/-- C3 (failed write).  For every array with recorded sizes and every index tuple, one
index per dimension, in which some index is not below its dimension: the assignment
`a[i0]...[ik] = v` throws `Out_Of_Range_Exception` and the array it leaves behind is the
array it started from, also when valid subscripts precede the failing one. -/
theorem C3_failed_write_leaves_array {T : Type} (Dim : Nat) (Dims : List Nat)
    (a : Array T (Dim :: Dims)) (hs : a.Sized) (is : List Nat)
    (hlen : is.length = (Dim :: Dims).length) (hout : ¬ InBounds (Dim :: Dims) is) (v : T) :
    (write (Dim :: Dims) a is v).1 = .error .Out_Of_Range_Exception ∧
    (write (Dim :: Dims) a is v).2 = a ∧
    ∀ t, elem (Dim :: Dims) (write (Dim :: Dims) a is v).2 t = elem (Dim :: Dims) a t := by
  have h := write_not_inBounds (Dim :: Dims) a is v hs hlen hout
  rw [h]
  exact ⟨rfl, rfl, fun _ => rfl⟩

/-- C3 at the statement of the test program, `arr1[0][3][0] = 1` on shape `[2, 3, 4]`. -/
theorem C3_failed_write_leaves_array_witness :
    arr234.Sized ∧ [0, 3, 0].length = [2, 3, 4].length ∧ ¬ InBounds [2, 3, 4] [0, 3, 0] ∧
    (write [2, 3, 4] arr234 [0, 3, 0] 1).1 = .error .Out_Of_Range_Exception ∧
    (write [2, 3, 4] arr234 [0, 3, 0] 1).2 = arr234 :=
  ⟨by decide, by decide, by decide,
    (C3_failed_write_leaves_array 2 [3, 4] arr234 (by decide) [0, 3, 0] (by decide)
      (by decide) 1).1,
    (C3_failed_write_leaves_array 2 [3, 4] arr234 (by decide) [0, 3, 0] (by decide)
      (by decide) 1).2.1⟩

/-! ## Addresses and nodes -/

theorem Array.nodeAt_child {T : Type} : ∀ {dims : List Nat} (a : Array T dims) (p : List Nat)
    {Dim d : Nat} {Dims : List Nat} (pos : 0 < Dim) (arr : Fin Dim → Array T (d :: Dims))
    (s : Nat) (i : Nat) (h : i < Dim),
    a.nodeAt p (Dim :: d :: Dims) = some (.recur Dim pos arr s) →
    a.nodeAt (p ++ [i]) (d :: Dims) = some (arr ⟨i, h⟩)
  | dims, a, [], Dim, d, Dims, pos, arr, s, i, h, hn => by
      simp only [Array.nodeAt] at hn
      split at hn
      · rename_i hd
        subst hd
        simp only [Option.some.injEq] at hn
        subst hn
        simp [Array.nodeAt, h]
      · cases hn
  | _, .base _ _ _ _, _ :: _, _, _, _, _, _, _, _, _, hn => by
      simp [Array.nodeAt] at hn
  | _, .recur D0 _ arr0 _, index :: p, Dim, d, Dims, pos, arr, s, i, h, hn => by
      simp only [Array.nodeAt] at hn
      split at hn
      · rename_i hlt
        have := Array.nodeAt_child (arr0 ⟨index, hlt⟩) p pos arr s i h hn
        simp [Array.nodeAt, hlt, this]
      · cases hn

theorem Object.deref_child {T : Type} {rd : List Nat} (m : Object T rd) (q : Addr)
    {Dim d : Nat} {Dims : List Nat} (pos : 0 < Dim) (arr : Fin Dim → Array T (d :: Dims))
    (s : Nat) (i : Nat) (h : i < Dim)
    (hq : m.deref q (Dim :: d :: Dims) = some (.recur Dim pos arr s)) :
    m.deref (q.child i) (d :: Dims) = some (arr ⟨i, h⟩) := by
  unfold Object.deref at hq ⊢
  simp only [Addr.child]
  split at hq
  · rename_i ho
    simp only [ho, if_true]
    exact Array.nodeAt_child m.val q.path pos arr s i h hq
  · cases hq

theorem Array.nodeAt_sized {T : Type} : ∀ {dims : List Nat} (a : Array T dims) (p : List Nat)
    (want : List Nat) (b : Array T want), a.Sized → a.nodeAt p want = some b → b.Sized
  | dims, a, [], want, b, hs, hn => by
      simp only [Array.nodeAt] at hn
      split at hn
      · rename_i hd
        subst hd
        simp only [Option.some.injEq] at hn
        subst hn
        exact hs
      · cases hn
  | _, .base _ _ _ _, _ :: _, _, _, _, hn => by
      simp [Array.nodeAt] at hn
  | _, .recur D0 _ arr0 _, index :: p, want, b, hs, hn => by
      simp only [Array.nodeAt] at hn
      split at hn
      · rename_i hlt
        exact Array.nodeAt_sized (arr0 ⟨index, hlt⟩) p want b (hs.2 _) hn
      · cases hn

theorem Object.deref_sized {T : Type} {rd : List Nat} (m : Object T rd) (hs : m.val.Sized)
    (q : Addr) (want : List Nat) (b : Array T want) (hq : m.deref q want = some b) : b.Sized := by
  unfold Object.deref at hq
  split at hq
  · exact Array.nodeAt_sized m.val q.path want b hs hq
  · cases hq

theorem Object.deref_addr {T : Type} {rd : List Nat} (m : Object T rd) :
    m.deref m.addr rd = some m.val := by
  simp [Object.deref, Object.addr, Array.nodeAt]


/-! ## Row-major traversal -/

theorem Array.fmbegin_eq {T : Type} : ∀ (Dims : List Nat) (Dim : Nat) (a : Array T (Dim :: Dims))
    (q : Addr), a.Sized → a.fmbegin q = fmState Dim Dims q 0
  | [], _, .base _ _ _ s, q, hs => by
      simp only [Array.Sized] at hs
      subst hs
      rfl
  | d :: Dims, _, .recur _ pos arr s, q, hs => by
      obtain ⟨h1, h2⟩ := hs
      subst h1
      simp [Array.fmbegin, fmState, Array.fmbegin_eq Dims d (arr ⟨0, pos⟩) (q.child 0) (h2 _)]

theorem fmState_flag : ∀ (Dims : List Nat) (Dim : Nat) (q : Addr) (k : Nat),
    (fmState Dim Dims q k)._is_iter_end = false
  | [], _, _, _ => rfl
  | _ :: _, _, _, _ => rfl

theorem fmState_clear : ∀ (Dims : List Nat) (Dim : Nat) (q : Addr) (k : Nat),
    (fmState Dim Dims q k).set_is_iter_end false = fmState Dim Dims q k
  | [], _, _, _ => rfl
  | _ :: _, _, _, _ => rfl

theorem FirstDimensionIterator.flag_set {dims : List Nat} (it : FirstDimensionIterator dims)
    (e : Bool) : (it.set_is_iter_end e)._is_iter_end = e := by
  cases it <;> rfl

theorem FirstDimensionIterator.indices_set {dims : List Nat} (it : FirstDimensionIterator dims)
    (e : Bool) : (it.set_is_iter_end e).indices = it.indices := by
  cases it <;> rfl

theorem FirstDimensionIterator.set_recur {Dim d : Nat} {Dims : List Nat} (p : Option Addr)
    (i s : Nat) (e e1 : Bool) (r : FirstDimensionIterator (d :: Dims)) :
    (FirstDimensionIterator.recur Dim p i s e r).set_is_iter_end e1
      = FirstDimensionIterator.recur Dim p i s e1 r := rfl

theorem FirstDimensionIterator.set_base {Dim : Nat} (p : Option ElemPtr) (a : Option Addr)
    (i s : Nat) (e e1 : Bool) :
    (FirstDimensionIterator.base Dim p a i s e).set_is_iter_end e1
      = FirstDimensionIterator.base Dim p a i s e1 := rfl

theorem Array.prod_pos {T : Type} : ∀ {dims : List Nat}, Array T dims → 0 < dims.prod
  | _, .base _ pos _ _ => by simpa using pos
  | _, .recur _ pos arr _ => by
      rw [List.prod_cons]
      exact Nat.mul_pos pos (Array.prod_pos (arr ⟨0, pos⟩))

theorem fm_modify_end_flag_begin {T : Type} {rd : List Nat} (m : Object T rd)
    (hs : m.val.Sized) : ∀ (Dims : List Nat) (Dim : Nat) (q : Addr) (a : Array T (Dim :: Dims)),
    m.deref q (Dim :: Dims) = some a →
    FirstDimensionIterator.modify_end_flag m (Dim :: Dims) (fmState Dim Dims q 0)
      = .ok (fmState Dim Dims q 0)
  | [], _, _, _, _ => rfl
  | d :: Dims, Dim, q, a, hq => by
      cases a with
      | recur _ pos arr s =>
        have hc := Object.deref_child m q pos arr s 0 pos hq
        have hcs := Object.deref_sized m hs _ _ _ hc
        have ih := fm_modify_end_flag_begin m hs Dims d (q.child 0) (arr ⟨0, pos⟩) hc
        simp only [fmState, Nat.zero_div, Nat.zero_mod, FirstDimensionIterator.modify_end_flag, hq,
          pos, dite_true, Array.fmbegin_eq Dims d _ _ hcs, fmState_clear, ih]

theorem fm_modify_end_flag_recur {T : Type} {rd : List Nat} (m : Object T rd)
    (hs : m.val.Sized) (Dim d : Nat) (Dims : List Nat) (q : Addr) (a : Array T (Dim :: d :: Dims))
    (hq : m.deref q (Dim :: d :: Dims) = some a) (i : Nat) (hi : i < Dim) (s : Nat) (e : Bool)
    (r : FirstDimensionIterator (d :: Dims)) :
    FirstDimensionIterator.modify_end_flag m (Dim :: d :: Dims) (.recur Dim (some q) i s e r)
      = .ok (.recur Dim (some q) i s e (fmState d Dims (q.child i) 0)) := by
  cases a with
  | recur _ pos arr s0 =>
    have hc := Object.deref_child m q pos arr s0 i hi hq
    have hcs := Object.deref_sized m hs _ _ _ hc
    have ih := fm_modify_end_flag_begin m hs Dims d (q.child i) (arr ⟨i, hi⟩) hc
    simp only [FirstDimensionIterator.modify_end_flag, hq, hi, dite_true,
      Array.fmbegin_eq Dims d _ _ hcs, fmState_clear, ih]

theorem succ_div_mod_of_lt {k P : Nat} (h : k % P + 1 < P) :
    (k + 1) / P = k / P ∧ (k + 1) % P = k % P + 1 := by
  have hP : 0 < P := by omega
  have hk : k + 1 = (k % P + 1) + P * (k / P) := by
    have := Nat.div_add_mod k P
    omega
  constructor
  · rw [hk, Nat.add_mul_div_left _ _ hP, Nat.div_eq_of_lt h, Nat.zero_add]
  · rw [hk, Nat.add_mul_mod_self_left, Nat.mod_eq_of_lt h]

theorem succ_div_mod_of_eq {k P : Nat} (hP : 0 < P) (h : k % P + 1 = P) :
    (k + 1) / P = k / P + 1 ∧ (k + 1) % P = 0 := by
  have hk : k + 1 = P * (k / P + 1) := by
    have := Nat.div_add_mod k P
    rw [Nat.mul_add, Nat.mul_one]
    omega
  constructor
  · rw [hk, Nat.mul_div_cancel_left _ hP]
  · rw [hk, Nat.mul_mod_right]

theorem fm_increment {T : Type} {rd : List Nat} (m : Object T rd) (hs : m.val.Sized) :
    ∀ (Dims : List Nat) (Dim : Nat) (q : Addr) (a : Array T (Dim :: Dims)) (k : Nat),
    m.deref q (Dim :: Dims) = some a → k < (Dim :: Dims).prod →
    (fmState Dim Dims q k).increment m
      = .ok (if k + 1 = (Dim :: Dims).prod then (fmState Dim Dims q 0).set_is_iter_end true
             else fmState Dim Dims q (k + 1))
  | [], Dim, q, _, k, _, hk => by
      simp only [List.prod_cons, List.prod_nil, Nat.mul_one] at hk ⊢
      by_cases h : Dim = k + 1
      · simp [fmState, FirstDimensionIterator.increment, FirstDimensionIterator.set_base, h]
      · have h2 : ¬ k + 1 = Dim := fun h3 => h h3.symm
        simp [fmState, FirstDimensionIterator.increment, h, h2]
  | d :: Dims, Dim, q, a, k, hq, hk => by
      cases a with
      | recur _ pos arr s0 =>
        rw [List.prod_cons] at hk
        have hP : 0 < (d :: Dims).prod := by
          rcases Nat.eq_zero_or_pos (d :: Dims).prod with h0 | h0
          · rw [h0] at hk; simp at hk
          · exact h0
        have hi : k / (d :: Dims).prod < Dim := by
          rw [Nat.div_lt_iff_lt_mul hP]; exact hk
        have hm : k % (d :: Dims).prod < (d :: Dims).prod := Nat.mod_lt _ hP
        have hc := Object.deref_child m q pos arr s0 _ hi hq
        have ih := fm_increment m hs Dims d (q.child (k / (d :: Dims).prod)) _
          (k % (d :: Dims).prod) hc hm
        have hdm := Nat.div_add_mod k (d :: Dims).prod
        rw [List.prod_cons (a := Dim)]
        generalize hPdef : (d :: Dims).prod = P at *
        by_cases h1 : k % P + 1 = P
        · obtain ⟨e1, e2⟩ := succ_div_mod_of_eq hP h1
          rw [if_pos h1] at ih
          by_cases h2 : Dim = k / P + 1
          · have hN : k + 1 = Dim * P := by
              rw [h2, Nat.add_mul, Nat.one_mul, Nat.mul_comm]; omega
            rw [if_pos hN]
            simp only [fmState, hPdef, FirstDimensionIterator.increment, ih,
              FirstDimensionIterator.flag_set, if_true, Nat.zero_div, Nat.zero_mod,
              FirstDimensionIterator.set_recur]
            rw [if_pos h2]
            exact fm_modify_end_flag_recur m hs Dim d Dims q _ hq 0 pos Dim true _
          · have hlt : k / P + 1 < Dim := by omega
            have hN : ¬ k + 1 = Dim * P := by
              intro hN
              have : (k + 1) / P = Dim := by rw [hN, Nat.mul_div_cancel _ hP]
              omega
            rw [if_neg hN]
            simp only [fmState, hPdef, FirstDimensionIterator.increment, ih,
              FirstDimensionIterator.flag_set, if_true, e1, e2]
            rw [if_neg h2]
            exact fm_modify_end_flag_recur m hs Dim d Dims q _ hq _ hlt Dim false _
        · have hlt : k % P + 1 < P := by omega
          obtain ⟨e1, e2⟩ := succ_div_mod_of_lt hlt
          rw [if_neg h1] at ih
          have hN : ¬ k + 1 = Dim * P := by
            intro hN
            have : (k + 1) % P = 0 := by rw [hN, Nat.mul_mod_left]
            omega
          rw [if_neg hN]
          simp [fmState, hPdef, FirstDimensionIterator.increment, ih, fmState_flag, e1, e2]

theorem fm_advance {T : Type} {rd : List Nat} (m : Object T rd) (hs : m.val.Sized)
    (Dims : List Nat) (Dim : Nat) (q : Addr) (a : Array T (Dim :: Dims))
    (hq : m.deref q (Dim :: Dims) = some a) :
    ∀ k, k < (Dim :: Dims).prod →
      FirstDimensionIterator.advance m k (fmState Dim Dims q 0) = .ok (fmState Dim Dims q k)
  | 0, _ => rfl
  | k + 1, hk => by
      have ih := fm_advance m hs Dims Dim q a hq k (by omega)
      have hne : ¬ k + 1 = (Dim :: Dims).prod := by omega
      simp only [FirstDimensionIterator.advance, ih, fm_increment m hs Dims Dim q a k hq (by omega),
        if_neg hne]

theorem fm_advance_all {T : Type} {rd : List Nat} (m : Object T rd) (hs : m.val.Sized)
    (Dims : List Nat) (Dim : Nat) (q : Addr) (a : Array T (Dim :: Dims))
    (hq : m.deref q (Dim :: Dims) = some a) :
    FirstDimensionIterator.advance m (Dim :: Dims).prod (fmState Dim Dims q 0)
      = .ok ((fmState Dim Dims q 0).set_is_iter_end true) := by
  have hN : 0 < (Dim :: Dims).prod := Array.prod_pos a
  obtain ⟨k, hk⟩ : ∃ k, (Dim :: Dims).prod = k + 1 := ⟨(Dim :: Dims).prod - 1, by omega⟩
  rw [hk]
  have ih := fm_advance m hs Dims Dim q a hq k (by omega)
  simp only [FirstDimensionIterator.advance, ih, fm_increment m hs Dims Dim q a k hq (by omega),
    hk, if_true]


/-! ## Mixed-radix digits -/

theorem rowDigits_inBounds : ∀ (dims : List Nat) (k : Nat), k < dims.prod →
    InBounds dims (rowDigits dims k)
  | [], _, _ => trivial
  | d :: Dims, k, hk => by
      rw [List.prod_cons] at hk
      have hP : 0 < Dims.prod := by
        rcases Nat.eq_zero_or_pos Dims.prod with h0 | h0
        · rw [h0] at hk; simp at hk
        · exact h0
      refine ⟨?_, rowDigits_inBounds Dims _ (Nat.mod_lt _ hP)⟩
      rw [Nat.div_lt_iff_lt_mul hP]
      exact hk

theorem rowRankFrom_digits : ∀ (dims : List Nat) (acc k : Nat), k < dims.prod →
    rowRankFrom acc dims (rowDigits dims k) = acc * dims.prod + k
  | [], acc, k, hk => by
      simp only [List.prod_nil] at hk
      simp only [rowDigits, rowRankFrom, List.prod_nil]
      omega
  | d :: Dims, acc, k, hk => by
      rw [List.prod_cons] at hk
      have hP : 0 < Dims.prod := by
        rcases Nat.eq_zero_or_pos Dims.prod with h0 | h0
        · rw [h0] at hk; simp at hk
        · exact h0
      simp only [rowDigits, rowRankFrom, List.prod_cons]
      rw [rowRankFrom_digits Dims _ _ (Nat.mod_lt _ hP), Nat.add_mul, Nat.mul_assoc, Nat.add_assoc,
        Nat.mul_comm (k / Dims.prod), Nat.div_add_mod]

theorem rowRank_digits (dims : List Nat) (k : Nat) (hk : k < dims.prod) :
    rowRank dims (rowDigits dims k) = k := by
  simp [rowRank, rowRankFrom_digits dims 0 k hk]

theorem rowDigits_surj : ∀ (dims t : List Nat), InBounds dims t →
    ∃ k, k < dims.prod ∧ rowDigits dims k = t
  | [], [], _ => ⟨0, by simp, rfl⟩
  | [], _ :: _, h => by simp [InBounds] at h
  | _ :: _, [], h => by simp [InBounds] at h
  | d :: Dims, i :: rest, h => by
      obtain ⟨h1, h2⟩ := h
      obtain ⟨k, hk, hd⟩ := rowDigits_surj Dims rest h2
      have hP : 0 < Dims.prod := by omega
      refine ⟨k + Dims.prod * i, ?_, ?_⟩
      · rw [List.prod_cons]
        calc k + Dims.prod * i < Dims.prod + Dims.prod * i := by omega
          _ = Dims.prod * (i + 1) := by rw [Nat.mul_add, Nat.mul_one, Nat.add_comm]
          _ ≤ Dims.prod * d := Nat.mul_le_mul_left _ h1
          _ = d * Dims.prod := Nat.mul_comm _ _
      · simp only [rowDigits]
        rw [Nat.add_mul_div_left _ _ hP, Nat.div_eq_of_lt hk, Nat.zero_add,
          Nat.add_mul_mod_self_left, Nat.mod_eq_of_lt hk, hd]

theorem rowDigits_lex : ∀ (dims : List Nat) (k k1 : Nat), k < k1 → k1 < dims.prod →
    List.Lex (· < ·) (rowDigits dims k) (rowDigits dims k1)
  | [], k, k1, h, h1 => by
      simp only [List.prod_nil] at h1
      omega
  | d :: Dims, k, k1, h, h1 => by
      rw [List.prod_cons] at h1
      have hP : 0 < Dims.prod := by
        rcases Nat.eq_zero_or_pos Dims.prod with h0 | h0
        · rw [h0] at h1; simp at h1
        · exact h0
      simp only [rowDigits]
      have hle : k / Dims.prod ≤ k1 / Dims.prod := Nat.div_le_div_right (Nat.le_of_lt h)
      rcases Nat.lt_or_eq_of_le hle with hlt | heq
      · exact List.Lex.rel hlt
      · rw [heq]
        refine List.Lex.cons (rowDigits_lex Dims _ _ ?_ (Nat.mod_lt _ hP))
        have e1 := Nat.div_add_mod k Dims.prod
        have e2 := Nat.div_add_mod k1 Dims.prod
        rw [heq] at e1
        omega

theorem fmState_indices : ∀ (Dims : List Nat) (Dim : Nat) (q : Addr) (k : Nat),
    (fmState Dim Dims q k).indices = rowDigits (Dim :: Dims) k
  | [], Dim, q, k => by
      simp [fmState, FirstDimensionIterator.indices, rowDigits]
  | d :: Dims, Dim, q, k => by
      simp only [fmState, FirstDimensionIterator.indices, rowDigits, fmState_indices Dims d]


theorem fm_equal_end_false {T : Type} (Dims : List Nat) (Dim : Nat) (a : Array T (Dim :: Dims))
    (q : Addr) (k : Nat) : (fmState Dim Dims q k).equal (a.fmend q) = false := by
  cases a <;> simp [fmState, Array.fmend, FirstDimensionIterator.equal]

theorem fm_equal_end_true {T : Type} (Dims : List Nat) (Dim : Nat) (a : Array T (Dim :: Dims))
    (hs : a.Sized) (q : Addr) :
    ((fmState Dim Dims q 0).set_is_iter_end true).equal (a.fmend q) = true := by
  cases a with
  | base _ pos arr s =>
      simp only [Array.Sized] at hs
      subst hs
      simp [fmState, Array.fmend, FirstDimensionIterator.equal, FirstDimensionIterator.set_base]
  | recur _ pos arr s =>
      obtain ⟨h1, _⟩ := hs
      subst h1
      simp [fmState, Array.fmend, FirstDimensionIterator.equal, FirstDimensionIterator.set_recur]

theorem fm_traverse {T : Type} {rd : List Nat} (m : Object T rd) (hs : m.val.Sized)
    (Dims : List Nat) (Dim : Nat) (q : Addr) (a : Array T (Dim :: Dims))
    (hq : m.deref q (Dim :: Dims) = some a) {α : Type} (f : FirstDimensionIterator (Dim :: Dims) → α) :
    ∀ (j k fuel : Nat), k + j = (Dim :: Dims).prod → j < fuel →
      FirstDimensionIterator.traverse m (a.fmend q) (fun it => .ok (f it)) fuel
          (if k = (Dim :: Dims).prod then (fmState Dim Dims q 0).set_is_iter_end true
           else fmState Dim Dims q k)
        = .ok (some ((List.range j).map fun n => f (fmState Dim Dims q (k + n))))
  | 0, k, fuel + 1, hk, _ => by
      have has := Object.deref_sized m hs _ _ _ hq
      simp only [Nat.add_zero] at hk
      simp [hk, FirstDimensionIterator.traverse, FirstDimensionIterator.not_equal,
        fm_equal_end_true Dims Dim a has q]
  | j + 1, k, fuel + 1, hk, hf => by
      have hne : ¬ k = (Dim :: Dims).prod := by omega
      have ih := fm_traverse m hs Dims Dim q a hq f j (k + 1) fuel (by omega) (by omega)
      rw [if_neg hne]
      simp only [FirstDimensionIterator.traverse, FirstDimensionIterator.not_equal,
        fm_equal_end_false, Bool.not_false, if_true,
        fm_increment m hs Dims Dim q a k hq (by omega), ih]
      rw [List.range_succ_eq_map, List.map_cons, List.map_map]
      simp only [Nat.add_zero, Option.some.injEq, Except.ok.injEq, List.cons.injEq, true_and]
      apply List.map_congr_left
      intro n _
      simp only [Function.comp, Nat.add_assoc, Nat.add_comm 1 n]


/-- C4 (row-major positions).  For every array object with recorded sizes and every
`k` below the product of the dimensions: `k` pre-increments of `fmbegin()` succeed, the
iterator reached is unequal to `fmend()`, and its indices are in bounds with row-major
number `k` (last dimension least significant): they are the mixed-radix digits of `k`.  Hence every in-bounds tuple is the position
after exactly one number of steps, and later positions are lexicographically greater. -/
theorem C4_row_major_positions {T : Type} (Dim : Nat) (Dims : List Nat)
    (m : Object T (Dim :: Dims)) (hs : m.val.Sized) :
    (∀ k, k < (Dim :: Dims).prod →
      ∃ it, FirstDimensionIterator.advance m k (m.val.fmbegin m.addr) = .ok it ∧
        it.equal (m.val.fmend m.addr) = false ∧ it.not_equal (m.val.fmend m.addr) = true ∧
        InBounds (Dim :: Dims) it.indices ∧ rowRank (Dim :: Dims) it.indices = k ∧
        it.indices = rowDigits (Dim :: Dims) k) ∧
    (∀ t, InBounds (Dim :: Dims) t →
      ∃! k, k < (Dim :: Dims).prod ∧
        ∃ it, FirstDimensionIterator.advance m k (m.val.fmbegin m.addr) = .ok it ∧
          it.indices = t) ∧
    (∀ k k1, k < k1 → k1 < (Dim :: Dims).prod →
      ∃ it it1, FirstDimensionIterator.advance m k (m.val.fmbegin m.addr) = .ok it ∧
        FirstDimensionIterator.advance m k1 (m.val.fmbegin m.addr) = .ok it1 ∧
        List.Lex (· < ·) it.indices it1.indices) := by
  have hq := Object.deref_addr m
  have hb := Array.fmbegin_eq Dims Dim m.val m.addr hs
  have hadv := fm_advance m hs Dims Dim m.addr m.val hq
  refine ⟨?_, ?_, ?_⟩
  · intro k hk
    refine ⟨fmState Dim Dims m.addr k, by rw [hb]; exact hadv k hk, fm_equal_end_false _ _ _ _ _,
      by simp [FirstDimensionIterator.not_equal, fm_equal_end_false], ?_, ?_, fmState_indices _ _ _ _⟩
    · rw [fmState_indices]; exact rowDigits_inBounds _ _ hk
    · rw [fmState_indices]; exact rowRank_digits _ _ hk
  · intro t ht
    obtain ⟨k, hk, hd⟩ := rowDigits_surj _ t ht
    refine ⟨k, ⟨hk, fmState Dim Dims m.addr k, by rw [hb]; exact hadv k hk, by
      rw [fmState_indices]; exact hd⟩, ?_⟩
    rintro k1 ⟨hk1, it, hit, hidx⟩
    rw [hb, hadv k1 hk1] at hit
    cases hit
    rw [fmState_indices] at hidx
    have e1 := rowRank_digits _ _ hk1
    have e2 := rowRank_digits _ _ hk
    rw [hidx] at e1
    rw [hd] at e2
    omega
  · intro k k1 hlt hk1
    refine ⟨fmState Dim Dims m.addr k, fmState Dim Dims m.addr k1, by
      rw [hb]; exact hadv k (by omega), by rw [hb]; exact hadv k1 hk1, ?_⟩
    rw [fmState_indices, fmState_indices]
    exact rowDigits_lex _ _ _ hlt hk1

/-- C4 at the array of the test program: the last position of the row-major traversal
of shape `[2, 3, 4]`. -/
theorem C4_row_major_positions_witness :
    obj234.val.Sized ∧
    ∃ it, FirstDimensionIterator.advance obj234 23 (obj234.val.fmbegin obj234.addr) = .ok it ∧
      it.equal (obj234.val.fmend obj234.addr) = false ∧
      it.not_equal (obj234.val.fmend obj234.addr) = true ∧
      InBounds [2, 3, 4] it.indices ∧ rowRank [2, 3, 4] it.indices = 23 ∧
      it.indices = rowDigits [2, 3, 4] 23 :=
  ⟨by decide, (C4_row_major_positions 2 [3, 4] obj234 (by decide)).1 23 (by decide)⟩

/-- C6 (row-major end).  For every array object with recorded sizes, the iterator
obtained from `fmbegin()` by as many pre-increments as the product of the dimensions
compares equal to `fmend()`, no earlier one does, and the loop
`for (it = fmbegin(); it != fmend(); ++it)` is left after exactly that many runs of its
body. -/
theorem C6_row_major_reaches_end {T : Type} (Dim : Nat) (Dims : List Nat)
    (m : Object T (Dim :: Dims)) (hs : m.val.Sized) :
    (∃ it, FirstDimensionIterator.advance m (Dim :: Dims).prod (m.val.fmbegin m.addr) = .ok it ∧
      it.equal (m.val.fmend m.addr) = true ∧ it.not_equal (m.val.fmend m.addr) = false) ∧
    (∀ k, k < (Dim :: Dims).prod →
      ∃ it, FirstDimensionIterator.advance m k (m.val.fmbegin m.addr) = .ok it ∧
        it.equal (m.val.fmend m.addr) = false) ∧
    (∀ fuel, (Dim :: Dims).prod < fuel →
      ∃ visited, FirstDimensionIterator.traverse m (m.val.fmend m.addr)
          (fun it => .ok it.indices) fuel (m.val.fmbegin m.addr) = .ok (some visited) ∧
        visited.length = (Dim :: Dims).prod) := by
  have hq := Object.deref_addr m
  have hb := Array.fmbegin_eq Dims Dim m.val m.addr hs
  refine ⟨⟨_, by rw [hb]; exact fm_advance_all m hs Dims Dim m.addr m.val hq,
    fm_equal_end_true Dims Dim m.val hs m.addr, by
      simp [FirstDimensionIterator.not_equal, fm_equal_end_true Dims Dim m.val hs m.addr]⟩, ?_, ?_⟩
  · intro k hk
    exact ⟨_, by rw [hb]; exact fm_advance m hs Dims Dim m.addr m.val hq k hk,
      fm_equal_end_false _ _ _ _ _⟩
  · intro fuel hf
    have hpos : 0 < (Dim :: Dims).prod := Array.prod_pos m.val
    have h := fm_traverse m hs Dims Dim m.addr m.val hq (fun it => it.indices)
      (Dim :: Dims).prod 0 fuel (by omega) hf
    rw [if_neg (by omega)] at h
    exact ⟨_, by rw [hb]; exact h, by simp⟩

/-- C6 at the array of the test program: 24 pre-increments reach `fmend()` and the loop
runs its body 24 times. -/
theorem C6_row_major_reaches_end_witness :
    obj234.val.Sized ∧
    ∃ it, FirstDimensionIterator.advance obj234 24 (obj234.val.fmbegin obj234.addr) = .ok it ∧
      it.equal (obj234.val.fmend obj234.addr) = true ∧
      it.not_equal (obj234.val.fmend obj234.addr) = false :=
  ⟨by decide, (C6_row_major_reaches_end 2 [3, 4] obj234 (by decide)).1⟩

/-! ## Column-major traversal -/

theorem Array.lmbegin_eq {T : Type} : ∀ (Dims : List Nat) (Dim : Nat) (a : Array T (Dim :: Dims))
    (q : Addr), a.lmbegin q = lmState Dim Dims q 0 false
  | [], _, .base _ _ _ _, _ => rfl
  | d :: Dims, _, .recur _ pos arr _, q => by
      simp [Array.lmbegin, lmState, Array.lmbegin_eq Dims d (arr ⟨0, pos⟩) (q.child 0)]

theorem Array.lmend_eq {T : Type} : ∀ (Dims : List Nat) (Dim : Nat) (a : Array T (Dim :: Dims))
    (q : Addr), a.lmend q = lmState Dim Dims q 0 true
  | [], _, .base _ _ _ _, _ => rfl
  | d :: Dims, _, .recur _ pos arr _, q => by
      simp [Array.lmend, lmState, Array.lmend_eq Dims d (arr ⟨0, pos⟩) (q.child 0)]

theorem lmState_flag : ∀ (Dims : List Nat) (Dim : Nat) (q : Addr) (k : Nat) (e : Bool),
    (lmState Dim Dims q k e)._is_iter_end = e
  | [], _, _, _, _ => rfl
  | _ :: _, _, _, _, _ => rfl

theorem LastDimensionIterator.set_ptr_recur {Dim d : Nat} {Dims : List Nat} (p p1 : Option Addr)
    (i s : Nat) (e : Bool) (r : LastDimensionIterator (d :: Dims)) :
    (LastDimensionIterator.recur Dim p i s e r).set_arr_ptr p1
      = LastDimensionIterator.recur Dim p1 i s e r := rfl

theorem lm_modify_end_flag_repoint : ∀ (Dims : List Nat) (Dim : Nat) (q0 q : Addr) (j : Nat)
    (e : Bool),
    LastDimensionIterator.modify_end_flag (Dim :: Dims)
        ((lmState Dim Dims q0 j e).set_arr_ptr (some q))
      = .ok (lmState Dim Dims q j e)
  | [], _, _, _, _, _ => rfl
  | d :: Dims, Dim, q0, q, j, e => by
      simp only [lmState, LastDimensionIterator.set_ptr_recur, LastDimensionIterator.modify_end_flag,
        lm_modify_end_flag_repoint Dims d _ (q.child (j % Dim)) (j / Dim) e, lmState_flag]

theorem lm_modify_end_flag_recur (Dim d : Nat) (Dims : List Nat) (q q0 : Addr) (i s j : Nat)
    (e0 e : Bool) :
    LastDimensionIterator.modify_end_flag (Dim :: d :: Dims)
        (.recur Dim (some q) i s e0 (lmState d Dims q0 j e))
      = .ok (.recur Dim (some q) i s e (lmState d Dims (q.child i) j e)) := by
  simp only [LastDimensionIterator.modify_end_flag, lm_modify_end_flag_repoint, lmState_flag]

theorem lm_increment : ∀ (Dims : List Nat) (Dim : Nat) (q : Addr) (k : Nat),
    k < (Dim :: Dims).prod →
    (lmState Dim Dims q k false).increment
      = .ok (if k + 1 = (Dim :: Dims).prod then lmState Dim Dims q 0 true
             else lmState Dim Dims q (k + 1) false)
  | [], Dim, q, k, hk => by
      simp only [List.prod_cons, List.prod_nil, Nat.mul_one] at hk ⊢
      by_cases h : Dim = k + 1
      · simp [lmState, LastDimensionIterator.increment, h]
      · have h2 : ¬ k + 1 = Dim := fun h3 => h h3.symm
        simp [lmState, LastDimensionIterator.increment, h, h2]
  | d :: Dims, Dim, q, k, hk => by
      rw [List.prod_cons] at hk
      have hD : 0 < Dim := by
        rcases Nat.eq_zero_or_pos Dim with h0 | h0
        · rw [h0] at hk; simp at hk
        · exact h0
      have hD0 : ¬ Dim = 0 := by omega
      have hj : k / Dim < (d :: Dims).prod := by
        rw [Nat.div_lt_iff_lt_mul hD, Nat.mul_comm]; exact hk
      have hm : k % Dim < Dim := Nat.mod_lt _ hD
      have ih := lm_increment Dims d (q.child (k % Dim)) (k / Dim) hj
      rw [List.prod_cons (a := Dim)]
      generalize (d :: Dims).prod = P at *
      by_cases h1 : k % Dim + 1 = Dim
      · obtain ⟨e1, e2⟩ := succ_div_mod_of_eq hD h1
        have hw : (k % Dim + 1) % Dim = 0 := by rw [h1, Nat.mod_self]
        by_cases h2 : k / Dim + 1 = P
        · have hN : k + 1 = Dim * P := by
            have := Nat.div_add_mod k Dim
            rw [← h2, Nat.mul_add, Nat.mul_one]; omega
          rw [if_pos h2] at ih
          rw [if_pos hN]
          simp only [lmState, LastDimensionIterator.increment, hD0, if_false, hw, if_true, ih,
            Nat.zero_mod, Nat.zero_div]
          exact lm_modify_end_flag_recur Dim d Dims q _ 0 Dim 0 true true
        · have hN : ¬ k + 1 = Dim * P := by
            intro hN
            have : (k + 1) / Dim = P := by rw [hN, Nat.mul_div_cancel_left _ hD]
            omega
          rw [if_neg h2] at ih
          rw [if_neg hN]
          simp only [lmState, LastDimensionIterator.increment, hD0, if_false, hw, if_true, ih,
            e1, e2]
          exact lm_modify_end_flag_recur Dim d Dims q _ 0 Dim (k / Dim + 1) true false
      · have hlt : k % Dim + 1 < Dim := by omega
        obtain ⟨e1, e2⟩ := succ_div_mod_of_lt hlt
        have hw : (k % Dim + 1) % Dim = k % Dim + 1 := Nat.mod_eq_of_lt hlt
        have hw0 : ¬ k % Dim + 1 = 0 := by omega
        have hN : ¬ k + 1 = Dim * P := by
          intro hN
          have : (k + 1) % Dim = 0 := by rw [hN, Nat.mul_mod_right]
          omega
        rw [if_neg hN]
        simp only [lmState, LastDimensionIterator.increment, hD0, if_false, hw, hw0, e1, e2]
        exact lm_modify_end_flag_recur Dim d Dims q _ (k % Dim + 1) Dim (k / Dim) false false

theorem lm_advance (Dims : List Nat) (Dim : Nat) (q : Addr) :
    ∀ k, k < (Dim :: Dims).prod →
      LastDimensionIterator.advance k (lmState Dim Dims q 0 false)
        = .ok (lmState Dim Dims q k false)
  | 0, _ => rfl
  | k + 1, hk => by
      have ih := lm_advance Dims Dim q k (by omega)
      have hne : ¬ k + 1 = (Dim :: Dims).prod := by omega
      simp only [LastDimensionIterator.advance, ih, lm_increment Dims Dim q k (by omega),
        if_neg hne]

theorem lm_advance_all (Dims : List Nat) (Dim : Nat) (q : Addr) (hN : 0 < (Dim :: Dims).prod) :
    LastDimensionIterator.advance (Dim :: Dims).prod (lmState Dim Dims q 0 false)
      = .ok (lmState Dim Dims q 0 true) := by
  obtain ⟨k, hk⟩ : ∃ k, (Dim :: Dims).prod = k + 1 := ⟨(Dim :: Dims).prod - 1, by omega⟩
  rw [hk]
  have ih := lm_advance Dims Dim q k (by omega)
  simp only [LastDimensionIterator.advance, ih, lm_increment Dims Dim q k (by omega), hk, if_true]

theorem lm_equal_false : ∀ (Dims : List Nat) (Dim : Nat) (q : Addr) (k : Nat),
    (lmState Dim Dims q k false).equal (lmState Dim Dims q 0 true) = false
  | [], _, _, _ => by simp [lmState, LastDimensionIterator.equal]
  | _ :: _, _, _, _ => by simp [lmState, LastDimensionIterator.equal]

theorem lm_equal_true : ∀ (Dims : List Nat) (Dim : Nat) (q : Addr),
    (lmState Dim Dims q 0 true).equal (lmState Dim Dims q 0 true) = true
  | [], _, _ => by simp [lmState, LastDimensionIterator.equal]
  | _ :: _, _, _ => by simp [lmState, LastDimensionIterator.equal]

theorem lm_traverse (Dims : List Nat) (Dim : Nat) (q : Addr) {α : Type}
    (f : LastDimensionIterator (Dim :: Dims) → α) :
    ∀ (j k fuel : Nat), k + j = (Dim :: Dims).prod → j < fuel →
      LastDimensionIterator.traverse (lmState Dim Dims q 0 true) (fun it => .ok (f it)) fuel
          (if k = (Dim :: Dims).prod then lmState Dim Dims q 0 true
           else lmState Dim Dims q k false)
        = .ok (some ((List.range j).map fun n => f (lmState Dim Dims q (k + n) false)))
  | 0, k, fuel + 1, hk, _ => by
      simp only [Nat.add_zero] at hk
      simp [hk, LastDimensionIterator.traverse, LastDimensionIterator.not_equal, lm_equal_true]
  | j + 1, k, fuel + 1, hk, hf => by
      have hne : ¬ k = (Dim :: Dims).prod := by omega
      have ih := lm_traverse Dims Dim q f j (k + 1) fuel (by omega) (by omega)
      rw [if_neg hne]
      simp only [LastDimensionIterator.traverse, LastDimensionIterator.not_equal,
        lm_equal_false, Bool.not_false, if_true, lm_increment Dims Dim q k (by omega), ih]
      rw [List.range_succ_eq_map, List.map_cons, List.map_map]
      simp only [Nat.add_zero, Option.some.injEq, Except.ok.injEq, List.cons.injEq, true_and]
      apply List.map_congr_left
      intro n _
      simp only [Function.comp, Nat.add_assoc, Nat.add_comm 1 n]

theorem colDigits_inBounds : ∀ (dims : List Nat) (k : Nat), k < dims.prod →
    InBounds dims (colDigits dims k)
  | [], _, _ => trivial
  | d :: Dims, k, hk => by
      rw [List.prod_cons] at hk
      have hD : 0 < d := by
        rcases Nat.eq_zero_or_pos d with h0 | h0
        · rw [h0] at hk; simp at hk
        · exact h0
      refine ⟨Nat.mod_lt _ hD, colDigits_inBounds Dims _ ?_⟩
      rw [Nat.div_lt_iff_lt_mul hD, Nat.mul_comm]
      exact hk

theorem colRank_digits : ∀ (dims : List Nat) (k : Nat), k < dims.prod →
    colRank dims (colDigits dims k) = k
  | [], k, hk => by
      simp only [List.prod_nil] at hk
      simp only [colDigits, colRank]
      omega
  | d :: Dims, k, hk => by
      rw [List.prod_cons] at hk
      have hD : 0 < d := by
        rcases Nat.eq_zero_or_pos d with h0 | h0
        · rw [h0] at hk; simp at hk
        · exact h0
      have hj : k / d < Dims.prod := by
        rw [Nat.div_lt_iff_lt_mul hD, Nat.mul_comm]; exact hk
      simp only [colDigits, colRank, colRank_digits Dims _ hj]
      exact Nat.mod_add_div k d

theorem colDigits_surj : ∀ (dims t : List Nat), InBounds dims t →
    ∃ k, k < dims.prod ∧ colDigits dims k = t
  | [], [], _ => ⟨0, by simp, rfl⟩
  | [], _ :: _, h => by simp [InBounds] at h
  | _ :: _, [], h => by simp [InBounds] at h
  | d :: Dims, i :: rest, h => by
      obtain ⟨h1, h2⟩ := h
      obtain ⟨k, hk, hd⟩ := colDigits_surj Dims rest h2
      have hD : 0 < d := by omega
      refine ⟨i + d * k, ?_, ?_⟩
      · rw [List.prod_cons]
        calc i + d * k < d + d * k := by omega
          _ = d * (k + 1) := by rw [Nat.mul_add, Nat.mul_one, Nat.add_comm]
          _ ≤ d * Dims.prod := Nat.mul_le_mul_left _ hk
      · simp only [colDigits]
        rw [Nat.add_mul_mod_self_left, Nat.mod_eq_of_lt h1, Nat.add_mul_div_left _ _ hD,
          Nat.div_eq_of_lt h1, Nat.zero_add, hd]

theorem lmState_indices : ∀ (Dims : List Nat) (Dim : Nat) (q : Addr) (k : Nat) (e : Bool),
    k < (Dim :: Dims).prod → (lmState Dim Dims q k e).indices = colDigits (Dim :: Dims) k
  | [], Dim, q, k, e, hk => by
      simp only [List.prod_cons, List.prod_nil, Nat.mul_one] at hk
      simp [lmState, LastDimensionIterator.indices, colDigits, Nat.mod_eq_of_lt hk]
  | d :: Dims, Dim, q, k, e, hk => by
      rw [List.prod_cons] at hk
      have hD : 0 < Dim := by
        rcases Nat.eq_zero_or_pos Dim with h0 | h0
        · rw [h0] at hk; simp at hk
        · exact h0
      have hj : k / Dim < (d :: Dims).prod := by
        rw [Nat.div_lt_iff_lt_mul hD, Nat.mul_comm]; exact hk
      simp only [lmState, LastDimensionIterator.indices, lmState_indices Dims d _ _ _ hj]
      rfl


/-- C5 (column-major positions).  For every array object with recorded sizes and every
`k` below the product of the dimensions: `k` pre-increments of `lmbegin()` succeed, the
iterator reached is unequal to `lmend()`, and its indices are in bounds with column-major
number `k` (first dimension least significant): they are the mixed-radix digits of `k`.
Hence every in-bounds tuple is the position after exactly one number of steps, and the
tuples visited are those of the row-major traversal. -/
theorem C5_column_major_positions {T : Type} (Dim : Nat) (Dims : List Nat)
    (m : Object T (Dim :: Dims)) (hs : m.val.Sized) :
    (∀ k, k < (Dim :: Dims).prod →
      ∃ it, LastDimensionIterator.advance k (m.val.lmbegin m.addr) = .ok it ∧
        it.equal (m.val.lmend m.addr) = false ∧ it.not_equal (m.val.lmend m.addr) = true ∧
        InBounds (Dim :: Dims) it.indices ∧ colRank (Dim :: Dims) it.indices = k ∧
        it.indices = colDigits (Dim :: Dims) k) ∧
    (∀ t, InBounds (Dim :: Dims) t →
      ∃! k, k < (Dim :: Dims).prod ∧
        ∃ it, LastDimensionIterator.advance k (m.val.lmbegin m.addr) = .ok it ∧
          it.indices = t) ∧
    (∀ t,
      (∃ k, k < (Dim :: Dims).prod ∧
        ∃ it, LastDimensionIterator.advance k (m.val.lmbegin m.addr) = .ok it ∧ it.indices = t) ↔
      (∃ k, k < (Dim :: Dims).prod ∧
        ∃ it, FirstDimensionIterator.advance m k (m.val.fmbegin m.addr) = .ok it ∧
          it.indices = t)) := by
  have hb := Array.lmbegin_eq Dims Dim m.val m.addr
  have he := Array.lmend_eq Dims Dim m.val m.addr
  have hadv := lm_advance Dims Dim m.addr
  have hfb := Array.fmbegin_eq Dims Dim m.val m.addr hs
  have hfadv := fm_advance m hs Dims Dim m.addr m.val (Object.deref_addr m)
  refine ⟨?_, ?_, ?_⟩
  · intro k hk
    refine ⟨lmState Dim Dims m.addr k false, by rw [hb]; exact hadv k hk, by
      rw [he]; exact lm_equal_false _ _ _ _, by
      rw [he]; simp [LastDimensionIterator.not_equal, lm_equal_false], ?_, ?_,
      lmState_indices _ _ _ _ _ hk⟩
    · rw [lmState_indices _ _ _ _ _ hk]; exact colDigits_inBounds _ _ hk
    · rw [lmState_indices _ _ _ _ _ hk]; exact colRank_digits _ _ hk
  · intro t ht
    obtain ⟨k, hk, hd⟩ := colDigits_surj _ t ht
    refine ⟨k, ⟨hk, lmState Dim Dims m.addr k false, by rw [hb]; exact hadv k hk, by
      rw [lmState_indices _ _ _ _ _ hk]; exact hd⟩, ?_⟩
    rintro k1 ⟨hk1, it, hit, hidx⟩
    rw [hb, hadv k1 hk1] at hit
    cases hit
    rw [lmState_indices _ _ _ _ _ hk1] at hidx
    have e1 := colRank_digits _ _ hk1
    have e2 := colRank_digits _ _ hk
    rw [hidx] at e1
    rw [hd] at e2
    omega
  · intro t
    constructor
    · rintro ⟨k, hk, it, hit, hidx⟩
      rw [hb, hadv k hk] at hit
      cases hit
      rw [lmState_indices _ _ _ _ _ hk] at hidx
      have ht : InBounds (Dim :: Dims) t := hidx ▸ colDigits_inBounds _ _ hk
      obtain ⟨k1, hk1, hd⟩ := rowDigits_surj _ t ht
      exact ⟨k1, hk1, fmState Dim Dims m.addr k1, by rw [hfb]; exact hfadv k1 hk1, by
        rw [fmState_indices]; exact hd⟩
    · rintro ⟨k, hk, it, hit, hidx⟩
      rw [hfb, hfadv k hk] at hit
      cases hit
      rw [fmState_indices] at hidx
      have ht : InBounds (Dim :: Dims) t := hidx ▸ rowDigits_inBounds _ _ hk
      obtain ⟨k1, hk1, hd⟩ := colDigits_surj _ t ht
      exact ⟨k1, hk1, lmState Dim Dims m.addr k1 false, by rw [hb]; exact hadv k1 hk1, by
        rw [lmState_indices _ _ _ _ _ hk1]; exact hd⟩

/-- C5 at the array of the test program: the position after one step of the column-major
traversal of shape `[2, 3, 4]`. -/
theorem C5_column_major_positions_witness :
    obj234.val.Sized ∧
    ∃ it, LastDimensionIterator.advance 1 (obj234.val.lmbegin obj234.addr) = .ok it ∧
      it.equal (obj234.val.lmend obj234.addr) = false ∧
      it.not_equal (obj234.val.lmend obj234.addr) = true ∧
      InBounds [2, 3, 4] it.indices ∧ colRank [2, 3, 4] it.indices = 1 ∧
      it.indices = colDigits [2, 3, 4] 1 :=
  ⟨by decide, (C5_column_major_positions 2 [3, 4] obj234 (by decide)).1 1 (by decide)⟩

/-- C7 (column-major end).  For every array object, the iterator obtained from `lmbegin()`
by as many pre-increments as the product of the dimensions compares equal to `lmend()`,
no earlier one does, and the loop `for (it = lmbegin(); it != lmend(); ++it)` is left
after exactly that many runs of its body. -/
theorem C7_column_major_reaches_end {T : Type} (Dim : Nat) (Dims : List Nat)
    (m : Object T (Dim :: Dims)) :
    (∃ it, LastDimensionIterator.advance (Dim :: Dims).prod (m.val.lmbegin m.addr) = .ok it ∧
      it.equal (m.val.lmend m.addr) = true ∧ it.not_equal (m.val.lmend m.addr) = false) ∧
    (∀ k, k < (Dim :: Dims).prod →
      ∃ it, LastDimensionIterator.advance k (m.val.lmbegin m.addr) = .ok it ∧
        it.equal (m.val.lmend m.addr) = false) ∧
    (∀ fuel, (Dim :: Dims).prod < fuel →
      ∃ visited, LastDimensionIterator.traverse (m.val.lmend m.addr)
          (fun it => .ok it.indices) fuel (m.val.lmbegin m.addr) = .ok (some visited) ∧
        visited.length = (Dim :: Dims).prod) := by
  have hb := Array.lmbegin_eq Dims Dim m.val m.addr
  have he := Array.lmend_eq Dims Dim m.val m.addr
  have hpos : 0 < (Dim :: Dims).prod := Array.prod_pos m.val
  rw [hb, he]
  refine ⟨⟨_, lm_advance_all Dims Dim m.addr hpos, lm_equal_true _ _ _, by
    simp [LastDimensionIterator.not_equal, lm_equal_true]⟩, ?_, ?_⟩
  · intro k hk
    exact ⟨_, lm_advance Dims Dim m.addr k hk, lm_equal_false _ _ _ _⟩
  · intro fuel hf
    have h := lm_traverse Dims Dim m.addr (fun it => it.indices)
      (Dim :: Dims).prod 0 fuel (by omega) hf
    rw [if_neg (by omega)] at h
    exact ⟨_, h, by simp⟩

/-! ## Dereferencing -/

/-- C8 (row-major dereference) at the array of the test program, shape `[2, 3, 4]` filled
with `0..23`: the nested base-case iterator of `fmbegin()` refers to the element `0`, but
`operator*` of the three-dimensional iterator itself returns no value, and the same holds
of every row-major iterator over two or more dimensions: the recursion case evaluates
`*_arr_rec_iter;` and ends without `return`. -/
theorem C8_row_major_dereference_no_value :
    (fmState 4 [] ⟨0, [0, 0]⟩ 0).dereference obj234 = .ok 0 ∧
    (obj234.val.fmbegin obj234.addr).dereference obj234 = .error .undefined ∧
    ∀ (T : Type) (rd : List Nat) (m : Object T rd) (Dim d : Nat) (Dims : List Nat)
      (it : FirstDimensionIterator (Dim :: d :: Dims)) (v : T), it.dereference m ≠ .ok v := by
  refine ⟨by decide, by decide, ?_⟩
  intro T rd m Dim d Dims it v h
  cases it with
  | recur _ p i s e r =>
      simp only [FirstDimensionIterator.dereference] at h
      split at h <;> cases h

/-- C9 (column-major dereference) at the array of the test program: the nested base-case
iterator of `lmbegin()` refers to the element `0`, but `operator*` of the three-dimensional
iterator itself returns no value, and the same holds of every column-major iterator over
two or more dimensions: the recursion case evaluates `*_arr_rec_iter;` and ends without
`return`. -/
theorem C9_column_major_dereference_no_value :
    (lmState 4 [] ⟨0, [0, 0]⟩ 0 false).dereference obj234 = .ok 0 ∧
    (obj234.val.lmbegin obj234.addr).dereference obj234 = .error .undefined ∧
    ∀ (T : Type) (rd : List Nat) (m : Object T rd) (Dim d : Nat) (Dims : List Nat)
      (it : LastDimensionIterator (Dim :: d :: Dims)) (v : T), it.dereference m ≠ .ok v := by
  refine ⟨by decide, by decide, ?_⟩
  intro T rd m Dim d Dims it v h
  cases it with
  | recur _ p i s e r =>
      simp only [LastDimensionIterator.dereference] at h
      split at h <;> cases h

/-! ## Assignment -/

/-- C10 (self-assignment).  For every array of any shape, the assignment `a = a`, in
which the argument is the object assigned to, returns normally and leaves the array, and
so the element in every slot, as it was. -/
theorem C10_self_assignment {T : Type} (Dim : Nat) (Dims : List Nat) (a : Array T (Dim :: Dims))
    (this : Addr) :
    (a.assign this a this).1 = .ok () ∧ (a.assign this a this).2 = a ∧
    ∀ t, elem (Dim :: Dims) (a.assign this a this).2 t = elem (Dim :: Dims) a t := by
  cases a <;> simp [Array.assign]

/-! ## Copying and conversion -/

theorem copy_loop_fill {β : Type} {Dim : Nat}
    (body : Nat → (Fin Dim → β) → Except Error Unit × (Fin Dim → β)) (Q : β → Prop)
    (g : Fin Dim → β)
    (hbody : ∀ (index : Nat) (h : index < Dim) (st : Fin Dim → β), (∀ k, Q (st k)) →
      body index st = (.ok (), Function.update st ⟨index, h⟩ (g ⟨index, h⟩)))
    (hg : ∀ k, Q (g k)) :
    ∀ (n j : Nat) (st : Fin Dim → β), j + n = Dim → (∀ k, Q (st k)) →
      copy_loop body (List.range' j n) st = (.ok (), fun k => if j ≤ k.val then g k else st k)
  | 0, j, st, hj, _ => by
      simp only [List.range', copy_loop, Prod.mk.injEq, true_and]
      funext k
      have := k.isLt
      rw [if_neg (by omega)]
  | n + 1, j, st, hj, hst => by
      have hjlt : j < Dim := by omega
      have hst1 : ∀ k, Q (Function.update st ⟨j, hjlt⟩ (g ⟨j, hjlt⟩) k) := by
        intro k
        by_cases hk : k = ⟨j, hjlt⟩
        · rw [hk, Function.update_same]; exact hg _
        · rw [Function.update_noteq hk]; exact hst k
      have ih := copy_loop_fill body Q g hbody hg n (j + 1) _ (by omega) hst1
      simp only [List.range', copy_loop, hbody j hjlt st hst, ih, Prod.mk.injEq, true_and]
      funext k
      by_cases hk : k = ⟨j, hjlt⟩
      · subst hk
        simp
      · have hkv : k.val ≠ j := fun h => hk (Fin.ext h)
        rw [Function.update_noteq hk]
        by_cases h1 : j + 1 ≤ k.val
        · rw [if_pos h1, if_pos (by omega)]
        · rw [if_neg h1, if_neg (by omega)]

theorem copy_loop_range {β : Type} {Dim : Nat}
    (body : Nat → (Fin Dim → β) → Except Error Unit × (Fin Dim → β)) (Q : β → Prop)
    (g : Fin Dim → β)
    (hbody : ∀ (index : Nat) (h : index < Dim) (st : Fin Dim → β), (∀ k, Q (st k)) →
      body index st = (.ok (), Function.update st ⟨index, h⟩ (g ⟨index, h⟩)))
    (hg : ∀ k, Q (g k)) (st : Fin Dim → β) (hst : ∀ k, Q (st k)) :
    copy_loop body (List.range Dim) st = (.ok (), g) := by
  rw [List.range_eq_range', copy_loop_fill body Q g hbody hg Dim 0 st (by omega) hst]
  simp

theorem int_increment_lt {σ : Type} (index : Nat) (st : σ) (h : index < INT_MAX) :
    int_increment index ((.ok (), st) : Except Error Unit × σ) = (.ok (), st) := by
  simp only [int_increment, h, if_true]

theorem int_increment_max {σ : Type} (st : σ) :
    int_increment INT_MAX ((.ok (), st) : Except Error Unit × σ) = (.error .undefined, st) := by
  simp only [int_increment, Nat.lt_irrefl, if_false]

theorem int_increment_snd {σ : Type} (index : Nat) (r : Except Error Unit × σ) :
    (int_increment index r).2 = r.2 := by
  obtain ⟨r1, r2⟩ := r
  cases r1 with
  | error e => rfl
  | ok u =>
      simp only [int_increment]
      split <;> rfl

theorem copy_loop_stops {σ : Type} (body : Nat → σ → Except Error Unit × σ) (Q : σ → Prop)
    (m : Nat) (e : Error)
    (hok : ∀ index st, index < m → Q st → ∃ st1, body index st = (.ok (), st1) ∧ Q st1)
    (hbad : ∀ st, Q st → (body m st).1 = .error e) :
    ∀ (n j : Nat) (st : σ), Q st → j ≤ m → m < j + n →
      (copy_loop body (List.range' j n) st).1 = .error e
  | 0, j, _, _, h1, h2 => by omega
  | n + 1, j, st, hst, h1, h2 => by
      by_cases hj : j = m
      · subst hj
        have hb := hbad st hst
        simp only [List.range', copy_loop]
        split
        · rename_i heq
          rw [heq] at hb
          cases hb
        · rename_i e1 st1 heq
          rw [heq] at hb
          exact hb
      · obtain ⟨st1, h3, h4⟩ := hok j st (by omega) hst
        simp only [List.range', copy_loop, h3]
        exact copy_loop_stops body Q m e hok hbad n (j + 1) st1 h4 (by omega) (by omega)

theorem update_sized {T : Type} {Dim : Nat} {dims : List Nat} (st : Fin Dim → Array T dims)
    (hst : ∀ k, (st k).Sized) (i : Fin Dim) (x : Array T dims) (hx : x.Sized) :
    ∀ k, (Function.update st i x k).Sized := by
  intro k
  by_cases hk : k = i
  · rw [hk, Function.update_same]; exact hx
  · rw [Function.update_noteq hk]; exact hst k

theorem Addr.child_ne {p q : Addr} (h : p ≠ q) (i : Nat) : p.child i ≠ q.child i := by
  intro e
  apply h
  cases p with
  | mk po pp =>
    cases q with
    | mk qo qp =>
      simp only [Addr.child, Addr.mk.injEq] at e
      obtain ⟨e1, e2⟩ := e
      have := List.append_cancel_right e2
      simp [e1, this]

theorem Array.map_sized {U T : Type} (conv : U → T) : ∀ {dims : List Nat} (a : Array U dims),
    a.Sized → (a.map conv).Sized
  | _, .base _ _ _ _, h => h
  | _, .recur _ _ arr _, h => ⟨h.1, fun i => Array.map_sized conv (arr i) (h.2 i)⟩

theorem Array.assign_from_sized {U T : Type} (conv : U → T) :
    ∀ {dims : List Nat} (self : Array T dims) (this : Addr) (src : Array U dims) (that : Addr),
    self.Sized → src.Sized → this ≠ that →
    self.assign_from conv this src that = (.ok (), src.map conv)
  | _, .base Dim pos arr s, this, .base _ _ src src_s, that, hs, hsrc, hne => by
      simp only [Array.Sized] at hs hsrc
      have hl := copy_loop_range (fun index (st : Fin Dim → T) =>
          if index >= Dim then (.error .Out_Of_Range_Exception, st)
          else if h : index < Dim then
            (.ok (), Function.update st ⟨index, h⟩ (conv (src ⟨index, h⟩)))
          else (.error .undefined, st)) (fun _ => True) (fun k => conv (src k))
          (fun index h st _ => by simp [h, Nat.not_le.mpr h]) (fun _ => trivial) arr
          (fun _ => trivial)
      simp only [Array.assign_from, hs, hsrc, ne_eq, not_true_eq_false, if_false, hne,
        not_false_eq_true, if_true, hl, Array.map]
  | _, .recur Dim pos arr s, this, .recur _ _ src src_s, that, hs, hsrc, hne => by
      obtain ⟨hs1, hs2⟩ := hs
      obtain ⟨hsrc1, hsrc2⟩ := hsrc
      have hl := copy_loop_range (fun index (st : Fin Dim → Array T _) =>
          if index >= Dim then (.error .Out_Of_Range_Exception, st)
          else if h : index < Dim then
            ((Array.assign_from conv (st ⟨index, h⟩) (this.child index) (src ⟨index, h⟩)
                (that.child index)).1,
              Function.update st ⟨index, h⟩
                (Array.assign_from conv (st ⟨index, h⟩) (this.child index) (src ⟨index, h⟩)
                  (that.child index)).2)
          else (.error .undefined, st)) Array.Sized (fun k => (src k).map conv)
          (fun index h st hst => by
            have ih := Array.assign_from_sized conv (st ⟨index, h⟩) (this.child index)
              (src ⟨index, h⟩) (that.child index) (hst _) (hsrc2 _) (Addr.child_ne hne index)
            simp [h, Nat.not_le.mpr h, ih])
          (fun k => Array.map_sized conv _ (hsrc2 k)) arr hs2
      simp only [Array.assign_from, hs1, hsrc1, ne_eq, not_true_eq_false, if_false, hne,
        not_false_eq_true, if_true, hl, Array.map]

theorem Array.assign_sized {T : Type} :
    ∀ {dims : List Nat} (self : Array T dims) (this : Addr) (src : Array T dims) (that : Addr),
    self.Sized → src.Sized → this ≠ that → self.assign this src that = (.ok (), src)
  | _, .base Dim pos arr s, this, .base _ _ src src_s, that, hs, hsrc, hne => by
      simp only [Array.Sized] at hs hsrc
      have hl := copy_loop_range (fun index (st : Fin Dim → T) =>
          if index >= Dim then (.error .Out_Of_Range_Exception, st)
          else if h : index < Dim then (.ok (), Function.update st ⟨index, h⟩ (src ⟨index, h⟩))
          else (.error .undefined, st)) (fun _ => True) src
          (fun index h st _ => by simp [h, Nat.not_le.mpr h]) (fun _ => trivial) arr
          (fun _ => trivial)
      simp only [Array.assign, hs, hsrc, ne_eq, not_true_eq_false, if_false, hne,
        not_false_eq_true, if_true, hl]
  | _, .recur Dim pos arr s, this, .recur _ _ src src_s, that, hs, hsrc, hne => by
      obtain ⟨hs1, hs2⟩ := hs
      obtain ⟨hsrc1, hsrc2⟩ := hsrc
      have hl := copy_loop_range (fun index (st : Fin Dim → Array T _) =>
          if index >= Dim then (.error .Out_Of_Range_Exception, st)
          else if h : index < Dim then
            ((Array.assign (st ⟨index, h⟩) (this.child index) (src ⟨index, h⟩)
                (that.child index)).1,
              Function.update st ⟨index, h⟩
                (Array.assign (st ⟨index, h⟩) (this.child index) (src ⟨index, h⟩)
                  (that.child index)).2)
          else (.error .undefined, st)) Array.Sized src
          (fun index h st hst => by
            have ih := Array.assign_sized (st ⟨index, h⟩) (this.child index)
              (src ⟨index, h⟩) (that.child index) (hst _) (hsrc2 _) (Addr.child_ne hne index)
            simp [h, Nat.not_le.mpr h, ih])
          hsrc2 arr hs2
      simp only [Array.assign, hs1, hsrc1, ne_eq, not_true_eq_false, if_false, hne,
        not_false_eq_true, if_true, hl]

theorem Array.default_construct_sized {T : Type} (fill : List Nat → T) :
    ∀ (Dims : List Nat) (Dim : Nat) (hp : ∀ d ∈ Dim :: Dims, 0 < d) (p : List Nat),
    (Array.default_construct fill Dim Dims hp p).Sized
  | [], _, _, _ => rfl
  | d :: Dims, _, _, _ => ⟨rfl, fun _ => Array.default_construct_sized fill Dims d _ _⟩

theorem Array.copy_construct_sized {T : Type} (fill : List Nat → T) :
    ∀ (Dims : List Nat) (Dim : Nat) (hp : ∀ d ∈ Dim :: Dims, 0 < d) (this : Addr)
      (src : Array T (Dim :: Dims)) (that : Addr), src.Sized → this ≠ that →
    (Dims ≠ [] → Dim ≤ INT_MAX) →
    Array.copy_construct fill Dim Dims hp this src that = .ok src
  | [], Dim, hp, this, .base _ _ src src_s, that, hsrc, _, _ => by
      simp only [Array.Sized] at hsrc
      have hl := copy_loop_range (fun index (st : Fin Dim → T) =>
          if index >= Dim then (.error .Out_Of_Range_Exception, st)
          else if h : index < Dim then (.ok (), Function.update st ⟨index, h⟩ (src ⟨index, h⟩))
          else (.error .undefined, st)) (fun _ => True) src
          (fun index h st _ => by simp [h, Nat.not_le.mpr h]) (fun _ => trivial)
          (fun i => fill (this.path ++ [i.val])) (fun _ => trivial)
      simp only [Array.copy_construct, hsrc, hl]
  | d :: Dims, Dim, hp, this, .recur _ _ src src_s, that, hsrc, hne, hint => by
      obtain ⟨hsrc1, hsrc2⟩ := hsrc
      have hmax : Dim ≤ INT_MAX := hint (List.cons_ne_nil _ _)
      have hl := copy_loop_range (fun index (st : Fin Dim → Array T (d :: Dims)) =>
          int_increment index
            (if index >= Dim then (.error .Out_Of_Range_Exception, st)
            else if h : index < Dim then
              (((st ⟨index, h⟩).assign (this.child index) (src ⟨index, h⟩)
                  (that.child index)).1,
                Function.update st ⟨index, h⟩
                  ((st ⟨index, h⟩).assign (this.child index) (src ⟨index, h⟩)
                    (that.child index)).2)
            else (.error .undefined, st))) Array.Sized src
          (fun index h st hst => by
            have ih := Array.assign_sized (st ⟨index, h⟩) (this.child index)
              (src ⟨index, h⟩) (that.child index) (hst _) (hsrc2 _) (Addr.child_ne hne index)
            simp only [ge_iff_le, Nat.not_le.mpr h, if_false, h, dite_true, ih]
            exact int_increment_lt index _ (by omega))
          hsrc2
          (fun i => Array.default_construct fill d Dims
            (fun x hx => hp x (List.mem_cons_of_mem _ hx)) (this.path ++ [i.val]))
          (fun _ => Array.default_construct_sized fill Dims d _ _)
      simp only [Array.copy_construct, hsrc1, hl]

theorem Array.construct_from_sized {U T : Type} (conv : U → T) (fill : List Nat → T) :
    ∀ (Dims : List Nat) (Dim : Nat) (hp : ∀ d ∈ Dim :: Dims, 0 < d) (this : Addr)
      (src : Array U (Dim :: Dims)) (that : Addr), src.Sized → this ≠ that →
    (Dims ≠ [] → Dim ≤ INT_MAX) →
    Array.construct_from conv fill Dim Dims hp this src that = .ok (src.map conv)
  | [], Dim, hp, this, .base _ _ src src_s, that, hsrc, _, _ => by
      simp only [Array.Sized] at hsrc
      have hl := copy_loop_range (fun index (st : Fin Dim → T) =>
          if index >= Dim then (.error .Out_Of_Range_Exception, st)
          else if h : index < Dim then
            (.ok (), Function.update st ⟨index, h⟩ (conv (src ⟨index, h⟩)))
          else (.error .undefined, st)) (fun _ => True) (fun k => conv (src k))
          (fun index h st _ => by simp [h, Nat.not_le.mpr h]) (fun _ => trivial)
          (fun i => fill (this.path ++ [i.val])) (fun _ => trivial)
      simp only [Array.construct_from, hsrc, hl, Array.map]
  | d :: Dims, Dim, hp, this, .recur _ _ src src_s, that, hsrc, hne, hint => by
      obtain ⟨hsrc1, hsrc2⟩ := hsrc
      have hmax : Dim ≤ INT_MAX := hint (List.cons_ne_nil _ _)
      have hl := copy_loop_range (fun index (st : Fin Dim → Array T (d :: Dims)) =>
          int_increment index
            (if index >= Dim then (.error .Out_Of_Range_Exception, st)
            else if h : index < Dim then
              (((st ⟨index, h⟩).assign_from conv (this.child index) (src ⟨index, h⟩)
                  (that.child index)).1,
                Function.update st ⟨index, h⟩
                  ((st ⟨index, h⟩).assign_from conv (this.child index) (src ⟨index, h⟩)
                    (that.child index)).2)
            else (.error .undefined, st))) Array.Sized (fun k => (src k).map conv)
          (fun index h st hst => by
            have ih := Array.assign_from_sized conv (st ⟨index, h⟩) (this.child index)
              (src ⟨index, h⟩) (that.child index) (hst _) (hsrc2 _) (Addr.child_ne hne index)
            simp only [ge_iff_le, Nat.not_le.mpr h, if_false, h, dite_true, ih]
            exact int_increment_lt index _ (by omega))
          (fun k => Array.map_sized conv _ (hsrc2 k))
          (fun i => Array.default_construct fill d Dims
            (fun x hx => hp x (List.mem_cons_of_mem _ hx)) (this.path ++ [i.val]))
          (fun _ => Array.default_construct_sized fill Dims d _ _)
      simp only [Array.construct_from, hsrc1, hl, Array.map]

theorem Array.copy_construct_int_overflow {T : Type} (fill : List Nat → T) (d : Nat)
    (Dims : List Nat) (Dim : Nat) (hp : ∀ x ∈ Dim :: d :: Dims, 0 < x) (this : Addr)
    (src : Array T (Dim :: d :: Dims)) (that : Addr) (hsrc : src.Sized) (hne : this ≠ that)
    (hbig : INT_MAX < Dim) :
    Array.copy_construct fill Dim (d :: Dims) hp this src that = .error .undefined := by
  cases src with
  | recur _ _ src src_s =>
      obtain ⟨hsrc1, hsrc2⟩ := hsrc
      have hstep : ∀ (index : Nat) (st : Fin Dim → Array T (d :: Dims)), index < Dim →
          (∀ k, (st k).Sized) → ∃ st1 : Fin Dim → Array T (d :: Dims),
            (if index >= src_s then ((.error .Out_Of_Range_Exception, st) :
                Except Error Unit × (Fin Dim → Array T (d :: Dims)))
              else if h : index < Dim then
                (((st ⟨index, h⟩).assign (this.child index) (src ⟨index, h⟩)
                    (that.child index)).1,
                  Function.update st ⟨index, h⟩
                    ((st ⟨index, h⟩).assign (this.child index) (src ⟨index, h⟩)
                      (that.child index)).2)
              else (.error .undefined, st)) = (.ok (), st1) ∧ ∀ k, (st1 k).Sized := by
        intro index st h hst
        have ih := Array.assign_sized (st ⟨index, h⟩) (this.child index)
          (src ⟨index, h⟩) (that.child index) (hst _) (hsrc2 _) (Addr.child_ne hne index)
        refine ⟨Function.update st ⟨index, h⟩ (src ⟨index, h⟩), ?_,
          update_sized st hst _ _ (hsrc2 _)⟩
        simp only [hsrc1, ge_iff_le, Nat.not_le.mpr h, if_false, h, dite_true, ih]
      have hl := copy_loop_stops (fun index (st : Fin Dim → Array T (d :: Dims)) =>
          int_increment index
            (if index >= src_s then (.error .Out_Of_Range_Exception, st)
            else if h : index < Dim then
              (((st ⟨index, h⟩).assign (this.child index) (src ⟨index, h⟩)
                  (that.child index)).1,
                Function.update st ⟨index, h⟩
                  ((st ⟨index, h⟩).assign (this.child index) (src ⟨index, h⟩)
                    (that.child index)).2)
            else (.error .undefined, st)))
          (fun st => ∀ k, (st k).Sized) INT_MAX .undefined
          (fun index st hi hst => by
            obtain ⟨st1, h1, h2⟩ := hstep index st (by omega) hst
            refine ⟨st1, ?_, h2⟩
            dsimp only
            rw [h1]
            exact int_increment_lt index st1 hi)
          (fun st hst => by
            obtain ⟨st1, h1, _⟩ := hstep INT_MAX st hbig hst
            dsimp only
            rw [h1, int_increment_max])
          Dim 0
          (fun i => Array.default_construct fill d Dims
            (fun x hx => hp x (List.mem_cons_of_mem _ hx)) (this.path ++ [i.val]))
          (fun _ => Array.default_construct_sized fill Dims d _ _) (Nat.zero_le _) (by omega)
      rw [← List.range_eq_range'] at hl
      simp only [Array.copy_construct, hl]

theorem Array.construct_from_int_overflow {U T : Type} (conv : U → T) (fill : List Nat → T)
    (d : Nat) (Dims : List Nat) (Dim : Nat) (hp : ∀ x ∈ Dim :: d :: Dims, 0 < x) (this : Addr)
    (src : Array U (Dim :: d :: Dims)) (that : Addr) (hsrc : src.Sized) (hne : this ≠ that)
    (hbig : INT_MAX < Dim) :
    Array.construct_from conv fill Dim (d :: Dims) hp this src that = .error .undefined := by
  cases src with
  | recur _ _ src src_s =>
      obtain ⟨hsrc1, hsrc2⟩ := hsrc
      have hstep : ∀ (index : Nat) (st : Fin Dim → Array T (d :: Dims)), index < Dim →
          (∀ k, (st k).Sized) → ∃ st1 : Fin Dim → Array T (d :: Dims),
            (if index >= src_s then ((.error .Out_Of_Range_Exception, st) :
                Except Error Unit × (Fin Dim → Array T (d :: Dims)))
              else if h : index < Dim then
                (((st ⟨index, h⟩).assign_from conv (this.child index) (src ⟨index, h⟩)
                    (that.child index)).1,
                  Function.update st ⟨index, h⟩
                    ((st ⟨index, h⟩).assign_from conv (this.child index) (src ⟨index, h⟩)
                      (that.child index)).2)
              else (.error .undefined, st)) = (.ok (), st1) ∧ ∀ k, (st1 k).Sized := by
        intro index st h hst
        have ih := Array.assign_from_sized conv (st ⟨index, h⟩) (this.child index)
          (src ⟨index, h⟩) (that.child index) (hst _) (hsrc2 _) (Addr.child_ne hne index)
        refine ⟨Function.update st ⟨index, h⟩ ((src ⟨index, h⟩).map conv), ?_,
          update_sized st hst _ _ (Array.map_sized conv _ (hsrc2 _))⟩
        simp only [hsrc1, ge_iff_le, Nat.not_le.mpr h, if_false, h, dite_true, ih]
      have hl := copy_loop_stops (fun index (st : Fin Dim → Array T (d :: Dims)) =>
          int_increment index
            (if index >= src_s then (.error .Out_Of_Range_Exception, st)
            else if h : index < Dim then
              (((st ⟨index, h⟩).assign_from conv (this.child index) (src ⟨index, h⟩)
                  (that.child index)).1,
                Function.update st ⟨index, h⟩
                  ((st ⟨index, h⟩).assign_from conv (this.child index) (src ⟨index, h⟩)
                    (that.child index)).2)
            else (.error .undefined, st)))
          (fun st => ∀ k, (st k).Sized) INT_MAX .undefined
          (fun index st hi hst => by
            obtain ⟨st1, h1, h2⟩ := hstep index st (by omega) hst
            refine ⟨st1, ?_, h2⟩
            dsimp only
            rw [h1]
            exact int_increment_lt index st1 hi)
          (fun st hst => by
            obtain ⟨st1, h1, _⟩ := hstep INT_MAX st hbig hst
            dsimp only
            rw [h1, int_increment_max])
          Dim 0
          (fun i => Array.default_construct fill d Dims
            (fun x hx => hp x (List.mem_cons_of_mem _ hx)) (this.path ++ [i.val]))
          (fun _ => Array.default_construct_sized fill Dims d _ _) (Nat.zero_le _) (by omega)
      rw [← List.range_eq_range'] at hl
      simp only [Array.construct_from, hl]

theorem get_map {U T : Type} (conv : U → T) :
    ∀ (Dims : List Nat) (Dim : Nat) (a : Array U (Dim :: Dims)) (t : List Nat),
    get (Dim :: Dims) (a.map conv) t = (get (Dim :: Dims) a t).map conv
  | _, _, _, [] => rfl
  | [], Dim, .base _ pos arr s, i :: rest => by
      by_cases h1 : i ≥ s
      · simp [get, Array.subscript, Array._array_size, Array.map, h1, Except.map]
      · by_cases h2 : i < Dim
        · cases rest <;>
            simp [get, Array.subscript, Array._array_size, Array.map, Array.raw, h1, h2,
              Except.map]
        · simp [get, Array.subscript, Array._array_size, Array.map, Array.raw, h1, h2,
            Except.map]
  | d :: Dims, Dim, .recur _ pos arr s, i :: rest => by
      by_cases h1 : i ≥ s
      · simp [get, Array.subscript, Array._array_size, Array.map, h1, Except.map]
      · by_cases h2 : i < Dim
        · have ih := get_map conv Dims d (arr ⟨i, h2⟩) rest
          simp only [get, Array.subscript, Array._array_size, Array.map, Array.raw, h1, h2,
            if_false, dite_true]
          exact ih
        · simp [get, Array.subscript, Array._array_size, Array.map, Array.raw, h1, h2,
            Except.map]

theorem copy_loop_inv {σ : Type} (body : Nat → σ → Except Error Unit × σ) (P : σ → Prop)
    (hbody : ∀ index st, P st → P (body index st).2) :
    ∀ (l : List Nat) (st : σ), P st → P (copy_loop body l st).2
  | [], _, h => h
  | index :: rest, st, h => by
      have h1 := hbody index st h
      simp only [copy_loop]
      split
      · rename_i st1 heq
        rw [heq] at h1
        exact copy_loop_inv body P hbody rest st1 h1
      · rename_i e st1 heq
        rw [heq] at h1
        exact h1

theorem Array.assign_keeps_sized {T : Type} :
    ∀ {dims : List Nat} (self : Array T dims) (this : Addr) (src : Array T dims) (that : Addr),
    self.Sized → (self.assign this src that).2.Sized
  | _, .base Dim pos arr s, this, .base _ _ src src_s, that, hs => by
      simp only [Array.assign]
      split
      · exact hs
      · split
        · exact hs
        · exact hs
  | _, .recur Dim pos arr s, this, .recur _ _ src src_s, that, hs => by
      simp only [Array.assign]
      split
      · exact hs
      · split
        · refine ⟨hs.1, ?_⟩
          refine copy_loop_inv _ (fun (st : Fin Dim → Array T _) => ∀ k, (st k).Sized) ?_ _ _ hs.2
          intro index st hst
          dsimp only
          split
          · exact hst
          · split
            · rename_i h
              exact update_sized st hst _ _
                (Array.assign_keeps_sized (st ⟨index, h⟩) _ (src ⟨index, h⟩) _ (hst _))
            · exact hst
        · exact hs

theorem Array.assign_from_keeps_sized {U T : Type} (conv : U → T) :
    ∀ {dims : List Nat} (self : Array T dims) (this : Addr) (src : Array U dims) (that : Addr),
    self.Sized → (self.assign_from conv this src that).2.Sized
  | _, .base Dim pos arr s, this, .base _ _ src src_s, that, hs => by
      simp only [Array.assign_from]
      split
      · exact hs
      · split
        · exact hs
        · exact hs
  | _, .recur Dim pos arr s, this, .recur _ _ src src_s, that, hs => by
      simp only [Array.assign_from]
      split
      · exact hs
      · split
        · refine ⟨hs.1, ?_⟩
          refine copy_loop_inv _ (fun (st : Fin Dim → Array T _) => ∀ k, (st k).Sized) ?_ _ _ hs.2
          intro index st hst
          dsimp only
          split
          · exact hst
          · split
            · rename_i h
              exact update_sized st hst _ _
                (Array.assign_from_keeps_sized conv (st ⟨index, h⟩) _ (src ⟨index, h⟩) _ (hst _))
            · exact hst
        · exact hs

theorem Array.copy_construct_keeps_sized {T : Type} (fill : List Nat → T) :
    ∀ (Dims : List Nat) (Dim : Nat) (hp : ∀ d ∈ Dim :: Dims, 0 < d) (this : Addr)
      (src : Array T (Dim :: Dims)) (that : Addr) (b : Array T (Dim :: Dims)),
    Array.copy_construct fill Dim Dims hp this src that = .ok b → b.Sized
  | [], Dim, hp, this, .base _ _ src src_s, that, b, hb => by
      simp only [Array.copy_construct] at hb
      split at hb
      · cases hb; rfl
      · cases hb
  | d :: Dims, Dim, hp, this, .recur _ _ src src_s, that, b, hb => by
      simp only [Array.copy_construct] at hb
      split at hb
      · cases hb
        refine ⟨rfl, ?_⟩
        refine copy_loop_inv _ (fun (st : Fin Dim → Array T _) => ∀ k, (st k).Sized) ?_ _ _
          (fun _ => Array.default_construct_sized fill Dims d _ _)
        intro index st hst
        dsimp only
        rw [int_increment_snd]
        split
        · exact hst
        · split
          · rename_i h
            exact update_sized st hst _ _
              (Array.assign_keeps_sized (st ⟨index, h⟩) _ (src ⟨index, h⟩) _ (hst _))
          · exact hst
      · cases hb

theorem Array.construct_from_keeps_sized {U T : Type} (conv : U → T) (fill : List Nat → T) :
    ∀ (Dims : List Nat) (Dim : Nat) (hp : ∀ d ∈ Dim :: Dims, 0 < d) (this : Addr)
      (src : Array U (Dim :: Dims)) (that : Addr) (b : Array T (Dim :: Dims)),
    Array.construct_from conv fill Dim Dims hp this src that = .ok b → b.Sized
  | [], Dim, hp, this, .base _ _ src src_s, that, b, hb => by
      simp only [Array.construct_from] at hb
      split at hb
      · cases hb; rfl
      · cases hb
  | d :: Dims, Dim, hp, this, .recur _ _ src src_s, that, b, hb => by
      simp only [Array.construct_from] at hb
      split at hb
      · cases hb
        refine ⟨rfl, ?_⟩
        refine copy_loop_inv _ (fun (st : Fin Dim → Array T _) => ∀ k, (st k).Sized) ?_ _ _
          (fun _ => Array.default_construct_sized fill Dims d _ _)
        intro index st hst
        dsimp only
        rw [int_increment_snd]
        split
        · exact hst
        · split
          · rename_i h
            exact update_sized st hst _ _
              (Array.assign_from_keeps_sized conv (st ⟨index, h⟩) _ (src ⟨index, h⟩) _ (hst _))
          · exact hst
      · cases hb

theorem Array.put_sized {T : Type} {d : Nat} {Dims : List Nat} (a : Array T (d :: Dims))
    (hs : a.Sized) (index : Nat) (c : Sub T Dims) (hc : SubSized Dims c) :
    (a.put index c).Sized := by
  cases a with
  | base Dim pos arr s =>
      simp only [Array.put]
      split <;> exact hs
  | recur Dim pos arr s =>
      simp only [Array.put]
      split
      · exact ⟨hs.1, update_sized arr hs.2 _ _ hc⟩
      · exact hs

theorem write_keeps_sized {T : Type} : ∀ (dims : List Nat) (x : Sub T dims) (is : List Nat) (v : T),
    SubSized dims x → SubSized dims (write dims x is v).2
  | [], _, [], _, _ => trivial
  | [], _, _ :: _, _, _ => trivial
  | _ :: _, _, [], _, h => h
  | d :: Dims, a, index :: rest, v, hs => by
      simp only [write]
      split
      · rename_i c hc
        have hcs : SubSized Dims c := by
          by_cases h1 : index < d
          · obtain ⟨c1, _, hc1, hcs1⟩ := Array.subscript_lt (a : Array T (d :: Dims)) hs h1
            rw [hc1] at hc
            cases hc
            exact hcs1
          · rw [Array.subscript_ge (a : Array T (d :: Dims)) hs (Nat.le_of_not_lt h1)] at hc
            cases hc
        exact Array.put_sized (a : Array T (d :: Dims)) hs index _
          (write_keeps_sized Dims c rest v hcs)
      · exact hs

theorem Obtained.sized : ∀ {T : Type} {dims : List Nat} {a : Array T dims},
    Obtained T dims a → a.Sized := by
  intro T dims a h
  induction h with
  | default_construct fill Dim Dims hp p => exact Array.default_construct_sized fill Dims Dim hp p
  | copy_construct fill Dim Dims hp this that src b _ hb _ =>
      exact Array.copy_construct_keeps_sized fill Dims Dim hp this src that b hb
  | construct_from conv fill Dim Dims hp this that src b _ hb _ =>
      exact Array.construct_from_keeps_sized conv fill Dims Dim hp this src that b hb
  | assign self src this that _ _ ih _ => exact Array.assign_keeps_sized self this src that ih
  | assign_from conv self src this that _ _ ih _ =>
      exact Array.assign_from_keeps_sized conv self this src that ih
  | write Dim Dims a is v _ ih => exact write_keeps_sized (Dim :: Dims) a is v ih


theorem toSigned_of_isSigned {w : Nat} (hw : 0 < w) {x : Int} (hx : IsSigned w x) :
    toSigned w x = x := by
  obtain ⟨h1, h2⟩ := hx
  have hpow : (2 : Int) ^ w = 2 * 2 ^ (w - 1) := by
    obtain ⟨n, rfl⟩ : ∃ n, w = n + 1 := ⟨w - 1, by omega⟩
    simp [pow_succ, Int.mul_comm]
  unfold toSigned
  rw [Int.emod_eq_of_lt (by omega) (by omega)]
  omega

/-- Converting copy where the `int` counter stays in range (the part of C11 that the code
delivers).  For every source array of element type `U` with recorded sizes, every
conversion `conv` from `U` to `T`, and every shape whose first dimension is at most
`INT_MAX` when there are two or more dimensions: the template copy constructor builds an
array that holds `conv x` at every in-bounds tuple where the source holds `x`.  For every
shape, the template copy assignment leaves such an array in a target of the same shape.
The conversion from `short` to `int` keeps the numeric value of every `short`. -/
theorem converting_copy_in_int_range {U T : Type} (conv : U → T) (Dim : Nat) (Dims : List Nat)
    (src : Array U (Dim :: Dims)) (hsrc : src.Sized) (dst : Array T (Dim :: Dims))
    (hdst : dst.Sized) (this that : Addr) (hne : this ≠ that) (fill : List Nat → T)
    (hp : ∀ d ∈ Dim :: Dims, 0 < d) :
    ((Dims ≠ [] → Dim ≤ INT_MAX) →
      ∃ b, Array.construct_from conv fill Dim Dims hp this src that = .ok b ∧
        ∀ t, InBounds (Dim :: Dims) t →
          ∃ x, get (Dim :: Dims) src t = .ok x ∧ get (Dim :: Dims) b t = .ok (conv x)) ∧
    ((dst.assign_from conv this src that).1 = .ok () ∧
      ∀ t, InBounds (Dim :: Dims) t →
        ∃ x, get (Dim :: Dims) src t = .ok x ∧
          get (Dim :: Dims) (dst.assign_from conv this src that).2 t = .ok (conv x)) ∧
    (∀ x : Int, IsSigned 16 x → short_to_int x = x ∧ IsSigned 32 (short_to_int x)) := by
  have hget : ∀ t, InBounds (Dim :: Dims) t →
      ∃ x, get (Dim :: Dims) src t = .ok x ∧
        get (Dim :: Dims) (src.map conv) t = .ok (conv x) := by
    intro t ht
    obtain ⟨x, _, hx⟩ := get_inBounds (Dim :: Dims) src t hsrc ht
    exact ⟨x, hx, by rw [get_map, hx]; rfl⟩
  refine ⟨fun hint =>
    ⟨_, Array.construct_from_sized conv fill Dims Dim hp this src that hsrc hne hint, hget⟩,
    ?_, ?_⟩
  · rw [Array.assign_from_sized conv dst this src that hdst hsrc hne]
    exact ⟨rfl, hget⟩
  · intro x hx
    have h16 : IsSigned 32 x := by
      obtain ⟨h1, h2⟩ := hx
      constructor
      · have : (-(2 : Int) ^ (32 - 1)) ≤ -(2 ^ (16 - 1)) := by norm_num
        omega
      · have : (2 : Int) ^ (16 - 1) ≤ 2 ^ (32 - 1) := by norm_num
        omega
    have e : short_to_int x = x := toSigned_of_isSigned (by decide) h16
    rw [e]
    exact ⟨rfl, h16⟩

/-- The statement `arr1 = arr3` of the test program (line 42): at `[0][2][3]` the `int`
array held 5678 and receives the value 11 of the `short`; the template copy constructor
on the same argument builds an array with that value there. -/
theorem converting_copy_in_int_range_witness :
    arr3.Sized ∧ arr1.Sized ∧ (⟨1, []⟩ : Addr) ≠ ⟨3, []⟩ ∧ (∀ d ∈ [2, 3, 4], 0 < d) ∧
    get [2, 3, 4] arr1 [0, 2, 3] = .ok 5678 ∧
    (∃ x, get [2, 3, 4] arr3 [0, 2, 3] = .ok x ∧
      get [2, 3, 4] (arr1.assign_from short_to_int ⟨1, []⟩ arr3 ⟨3, []⟩).2 [0, 2, 3]
        = .ok (short_to_int x)) ∧
    ∃ b, Array.construct_from short_to_int (fun _ => 0) 2 [3, 4] (by decide) ⟨1, []⟩ arr3
        ⟨3, []⟩ = .ok b ∧
      ∀ t, InBounds [2, 3, 4] t →
        ∃ x, get [2, 3, 4] arr3 t = .ok x ∧ get [2, 3, 4] b t = .ok (short_to_int x) :=
  ⟨by decide, by decide, by decide, by decide, by decide,
    (converting_copy_in_int_range short_to_int 2 [3, 4] arr3 (by decide) arr1 (by decide)
      ⟨1, []⟩ ⟨3, []⟩ (by decide) (fun _ => 0) (by decide)).2.1.2 [0, 2, 3] (by decide),
    (converting_copy_in_int_range short_to_int 2 [3, 4] arr3 (by decide) arr1 (by decide)
      ⟨1, []⟩ ⟨3, []⟩ (by decide) (fun _ => 0) (by decide)).1 (fun _ => by decide)⟩

/-- C11 (converting copy) at `Array<int, 2147483648, 1> dst(src)` with `src` of the class
`Array<short, 2147483648, 1>`: the loop of the template copy constructor of the recursion
case counts with an `int` (line 44), the increment after the iteration at `INT_MAX`
overflows and no converted copy is built; the template copy assignment, whose counter is
a `std::size_t` (line 80), leaves the converted copy in a target of that class. -/
theorem C11_template_constructor_int_overflow :
    wide_src.Sized ∧ wide_dst.Sized ∧
    Array.construct_from short_to_int (fun _ => 0) 2147483648 [1] (by decide) ⟨1, []⟩ wide_src
      ⟨3, []⟩ = .error .undefined ∧
    wide_dst.assign_from short_to_int ⟨1, []⟩ wide_src ⟨3, []⟩
      = (.ok (), wide_src.map short_to_int) :=
  ⟨⟨rfl, fun _ => rfl⟩, ⟨rfl, fun _ => rfl⟩,
    Array.construct_from_int_overflow short_to_int (fun _ => 0) 1 [] 2147483648 _ ⟨1, []⟩
      wide_src ⟨3, []⟩ ⟨rfl, fun _ => rfl⟩ (by decide) (by decide),
    Array.assign_from_sized short_to_int wide_dst ⟨1, []⟩ wide_src ⟨3, []⟩
      ⟨rfl, fun _ => rfl⟩ ⟨rfl, fun _ => rfl⟩ (by decide)⟩

/-- Deep copy where the `int` counter stays in range (the part of C12 that the code
delivers).  For two distinct array variables `a` and `b` of one class, with recorded
sizes: after `b = a`, and, when the first dimension is at most `INT_MAX` or the only one,
after copy-constructing `b` from `a`, `b` holds at every tuple what `a` holds and `a` is
as before; an element write to `b` afterwards succeeds at every in-bounds tuple, is read
back from `b`, and leaves `a` as it was. -/
theorem deep_copy_in_int_range {T : Type} (Dim : Nat) (Dims : List Nat)
    (h : Heap T (Dim :: Dims)) (a b : Nat) (hab : a ≠ b) (ha : (h a).Sized) (hb : (h b).Sized)
    (fill : List Nat → T) (hp : ∀ d ∈ Dim :: Dims, 0 < d) :
    ((h.assign b a).1 = .ok () ∧
      (∀ t, get (Dim :: Dims) ((h.assign b a).2 b) t = get (Dim :: Dims) (h a) t) ∧
      (h.assign b a).2 a = h a) ∧
    ((Dims ≠ [] → Dim ≤ INT_MAX) →
      ∃ h1, Heap.copy_construct fill Dim Dims hp h b a = .ok h1 ∧
        (∀ t, get (Dim :: Dims) (h1 b) t = get (Dim :: Dims) (h a) t) ∧ h1 a = h a ∧
        ∀ p v, InBounds (Dim :: Dims) p →
          (Heap.write h1 b p v).1 = .ok () ∧
          get (Dim :: Dims) ((Heap.write h1 b p v).2 b) p = .ok v ∧
          (Heap.write h1 b p v).2 a = h a) ∧
    (∀ p v, InBounds (Dim :: Dims) p →
      (Heap.write (h.assign b a).2 b p v).1 = .ok () ∧
      get (Dim :: Dims) ((Heap.write (h.assign b a).2 b p v).2 b) p = .ok v ∧
      (Heap.write (h.assign b a).2 b p v).2 a = h a ∧
      ∀ q, get (Dim :: Dims) ((Heap.write (h.assign b a).2 b p v).2 a) q
        = get (Dim :: Dims) (h a) q) := by
  have hne : (⟨b, []⟩ : Addr) ≠ ⟨a, []⟩ := by
    intro e
    simp only [Addr.mk.injEq, and_true] at e
    exact hab e.symm
  have hasg := Array.assign_sized (h b) ⟨b, []⟩ (h a) ⟨a, []⟩ hb ha hne
  have e : h.assign b a = (.ok (), Function.update h b (h a)) := by
    simp only [Heap.assign, hasg]
  have hwrite : ∀ p v, InBounds (Dim :: Dims) p →
      (Heap.write (Function.update h b (h a)) b p v).1 = .ok () ∧
      get (Dim :: Dims) ((Heap.write (Function.update h b (h a)) b p v).2 b) p = .ok v ∧
      (Heap.write (Function.update h b (h a)) b p v).2 a = h a := by
    intro p v hin
    obtain ⟨w1, w2⟩ := write_then_get (Dim :: Dims) (h a) p v ha hin
    have hw : Heap.write (Function.update h b (h a)) b p v
        = ((write (Dim :: Dims) (h a) p v).1,
            Function.update (Function.update h b (h a)) b (write (Dim :: Dims) (h a) p v).2) := by
      simp only [Heap.write, Function.update_same]
    rw [hw]
    dsimp only
    refine ⟨w1, by rw [Function.update_same]; exact w2, ?_⟩
    rw [Function.update_noteq hab, Function.update_noteq hab]
  rw [e]
  dsimp only
  refine ⟨⟨rfl, fun t => by rw [Function.update_same], Function.update_noteq hab _ _⟩, ?_, ?_⟩
  · intro hint
    have hctor := Array.copy_construct_sized fill Dims Dim hp ⟨b, []⟩ (h a) ⟨a, []⟩ ha hne hint
    refine ⟨Function.update h b (h a), ?_, fun t => by rw [Function.update_same],
      Function.update_noteq hab _ _, hwrite⟩
    simp only [Heap.copy_construct, hctor]
  · intro p v hin
    obtain ⟨w1, w2, w3⟩ := hwrite p v hin
    exact ⟨w1, w2, w3, fun q => by rw [w3]⟩

/-- The statement `arr2 = arr1` of the test program (line 41): at `[0][2][3]` the target
held 11 and the argument 5678; afterwards the target reads as the argument at every tuple
and the argument is as before. -/
theorem deep_copy_in_int_range_witness :
    (1 : Nat) ≠ 2 ∧ (test_vars 1).Sized ∧ (test_vars 2).Sized ∧ (∀ d ∈ [2, 3, 4], 0 < d) ∧
    get [2, 3, 4] (test_vars 2) [0, 2, 3] = .ok 11 ∧
    get [2, 3, 4] (test_vars 1) [0, 2, 3] = .ok 5678 ∧
    (Heap.assign test_vars 2 1).1 = .ok () ∧
    (∀ t, get [2, 3, 4] ((Heap.assign test_vars 2 1).2 2) t = get [2, 3, 4] (test_vars 1) t) ∧
    (Heap.assign test_vars 2 1).2 1 = test_vars 1 :=
  ⟨by decide, by decide, by decide, by decide, by decide, by decide,
    (deep_copy_in_int_range 2 [3, 4] test_vars 1 2 (by decide) (by decide) (by decide)
      (fun _ => 0) (by decide)).1⟩

/-- C12 (deep copy) at `Array<int, 2147483648, 1> b(a)`: the loop of the copy constructor
of the recursion case counts with an `int` (line 35), the increment after the iteration
at `INT_MAX` overflows and `b` does not come to hold a copy of `a`; the copy assignment
`b = a`, whose counter is a `std::size_t` (line 61), returns normally with `b` equal to
`a` and `a` as before. -/
theorem C12_copy_constructor_int_overflow :
    (wide_vars 0).Sized ∧ (wide_vars 1).Sized ∧
    Heap.copy_construct (fun _ => 0) 2147483648 [1] (by decide) wide_vars 1 0
      = .error .undefined ∧
    (Heap.assign wide_vars 1 0).1 = .ok () ∧
    (Heap.assign wide_vars 1 0).2 1 = wide_vars 0 ∧
    (Heap.assign wide_vars 1 0).2 0 = wide_vars 0 := by
  have hs0 : (wide_vars 0).Sized := ⟨rfl, fun _ => rfl⟩
  have hs1 : (wide_vars 1).Sized := ⟨rfl, fun _ => rfl⟩
  have hne : (⟨1, []⟩ : Addr) ≠ ⟨0, []⟩ := by decide
  have hctor := Array.copy_construct_int_overflow (fun _ => (0 : Int)) 1 [] 2147483648
    (by decide) ⟨1, []⟩ (wide_vars 0) ⟨0, []⟩ hs0 hne (by decide)
  have hasg := Array.assign_sized (wide_vars 1) ⟨1, []⟩ (wide_vars 0) ⟨0, []⟩ hs1 hs0 hne
  refine ⟨hs0, hs1, ?_, ?_, ?_, ?_⟩
  · rw [Heap.copy_construct, hctor]
  · simp only [Heap.assign, hasg]
  · simp only [Heap.assign, hasg, Function.update_same]
  · simp only [Heap.assign, hasg]
    exact Function.update_noteq (by decide) _ _

/-- C15, as the header has it.  For every assignment, same-type or converting, in which
the recorded size of the target differs from that of the argument: the assignment throws
`Out_Of_Range_Exception`, the one exception class of the header and the one that indexing
throws, and the target is left as it was. -/
theorem C15_size_mismatch_throws_out_of_range {U T : Type} (conv : U → T) (dims : List Nat)
    (self same : Array T dims) (other : Array U dims) (this that : Addr)
    (h1 : self._array_size ≠ same._array_size) (h2 : self._array_size ≠ other._array_size) :
    self.assign this same that = (.error .Out_Of_Range_Exception, self) ∧
    self.assign_from conv this other that = (.error .Out_Of_Range_Exception, self) := by
  constructor
  · cases self <;> cases same <;> simp_all [Array.assign, Array._array_size]
  · cases self <;> cases other <;> simp_all [Array.assign_from, Array._array_size]

/-- C15 at a target of recorded size 2 and an argument of recorded size 3. -/
theorem C15_size_mismatch_throws_out_of_range_witness :
    tgt2._array_size ≠ src2._array_size ∧ tgt2._array_size ≠ src2._array_size ∧
    tgt2.assign ⟨0, []⟩ src2 ⟨1, []⟩ = (.error .Out_Of_Range_Exception, tgt2) ∧
    tgt2.assign_from id ⟨0, []⟩ src2 ⟨1, []⟩ = (.error .Out_Of_Range_Exception, tgt2) :=
  ⟨by decide, by decide,
    C15_size_mismatch_throws_out_of_range id [2] tgt2 src2 src2 ⟨0, []⟩ ⟨1, []⟩ (by decide)
      (by decide)⟩

/-- C15 as stated fails: with recorded sizes 2 and 3 the assignment fails with the very
error that an out-of-range subscript raises, not with an error of another kind. -/
theorem C15_no_distinct_error_kind :
    tgt2._array_size ≠ src2._array_size ∧
    (tgt2.assign ⟨0, []⟩ src2 ⟨1, []⟩).1 = .error .Out_Of_Range_Exception ∧
    tgt2.subscript 2 = .error .Out_Of_Range_Exception ∧
    ¬ ∃ e, (tgt2.assign ⟨0, []⟩ src2 ⟨1, []⟩).1 = .error e ∧ e ≠ .Out_Of_Range_Exception := by
  refine ⟨by decide, by decide, rfl, ?_⟩
  rintro ⟨e, he, hne⟩
  have h : (tgt2.assign ⟨0, []⟩ src2 ⟨1, []⟩).1 = .error .Out_Of_Range_Exception := by decide
  rw [h] at he
  cases he
  exact hne rfl

theorem Array.sized_size {T : Type} {Dim : Nat} {Dims : List Nat} (a : Array T (Dim :: Dims))
    (hs : a.Sized) : a._array_size = Dim := by
  cases a with
  | base _ _ _ _ => exact hs
  | recur _ _ _ _ => exact hs.1

theorem Array.assign_ok {T : Type} {dims : List Nat} (self src : Array T dims)
    (this that : Addr) (hs : self.Sized) (hsrc : src.Sized) :
    (self.assign this src that).1 = .ok () := by
  by_cases hne : this = that
  · cases self with
    | base Dim pos arr s =>
      cases src with
      | base _ _ src src_s =>
        simp only [Array.Sized] at hs hsrc
        simp [Array.assign, hs, hsrc, hne]
    | recur Dim pos arr s =>
      cases src with
      | recur _ _ src src_s =>
        simp [Array.assign, hs.1, hsrc.1, hne]
  · rw [Array.assign_sized self this src that hs hsrc hne]

theorem Array.assign_from_ok {U T : Type} (conv : U → T) {dims : List Nat} (self : Array T dims)
    (src : Array U dims) (this that : Addr) (hs : self.Sized) (hsrc : src.Sized) :
    (self.assign_from conv this src that).1 = .ok () := by
  by_cases hne : this = that
  · cases self with
    | base Dim pos arr s =>
      cases src with
      | base _ _ src src_s =>
        simp only [Array.Sized] at hs hsrc
        simp [Array.assign_from, hs, hsrc, hne]
    | recur Dim pos arr s =>
      cases src with
      | recur _ _ src src_s =>
        simp [Array.assign_from, hs.1, hsrc.1, hne]
  · rw [Array.assign_from_sized conv self this src that hs hsrc hne]

/-- C16 (recorded sizes).  Every array value obtained by default construction, by either
copy constructor, as the target of either assignment operator, or by element writes has,
at every node of every level, `_array_size` equal to the dimension of that level.  So the
recorded sizes of two such arrays of one shape agree and an assignment between them, same
type or converting, returns normally. -/
theorem C16_recorded_sizes {T : Type} (Dim : Nat) (Dims : List Nat) (a : Array T (Dim :: Dims))
    (ha : Obtained T (Dim :: Dims) a) :
    a.Sized ∧
    (∀ (p : List Nat) (d : Nat) (ds : List Nat) (n : Array T (d :: ds)),
      a.nodeAt p (d :: ds) = some n → n._array_size = d) ∧
    (∀ (b : Array T (Dim :: Dims)) (this that : Addr), Obtained T (Dim :: Dims) b →
      a._array_size = b._array_size ∧ (a.assign this b that).1 = .ok ()) ∧
    (∀ (U : Type) (conv : U → T) (b : Array U (Dim :: Dims)) (this that : Addr),
      Obtained U (Dim :: Dims) b →
      a._array_size = b._array_size ∧ (a.assign_from conv this b that).1 = .ok ()) := by
  have hs := ha.sized
  refine ⟨hs, ?_, ?_, ?_⟩
  · intro p d ds n hn
    exact Array.sized_size n (Array.nodeAt_sized a p (d :: ds) n hs hn)
  · intro b this that hb
    exact ⟨by rw [Array.sized_size a hs, Array.sized_size b hb.sized],
      Array.assign_ok a b this that hs hb.sized⟩
  · intro U conv b this that hb
    exact ⟨by rw [Array.sized_size a hs, Array.sized_size b hb.sized],
      Array.assign_from_ok conv a b this that hs hb.sized⟩

/-- C16 at a default-constructed array of shape `[2, 3, 4]`. -/
theorem C16_recorded_sizes_witness :
    Obtained Nat [2, 3, 4] (Array.default_construct (fun _ => 0) 2 [3, 4] (by decide) []) ∧
    (Array.default_construct (fun _ => (0 : Nat)) 2 [3, 4] (by decide) []).Sized :=
  ⟨Obtained.default_construct _ 2 [3, 4] _ [],
    (C16_recorded_sizes 2 [3, 4] _ (Obtained.default_construct (fun _ => 0) 2 [3, 4]
      (by decide) [])).1⟩

/-! ## Iterator comparison and the begin and end iterators -/

theorem fm_equal_self : ∀ {dims : List Nat} (x : FirstDimensionIterator dims),
    x.equal x = true
  | _, .base _ _ _ _ _ _ => by simp [FirstDimensionIterator.equal]
  | _, .recur _ _ _ _ e r => by
      cases e
      · simp [FirstDimensionIterator.equal, fm_equal_self r]
      · simp [FirstDimensionIterator.equal]

theorem lm_equal_self : ∀ {dims : List Nat} (x : LastDimensionIterator dims),
    x.equal x = true
  | _, .base _ _ _ _ _ => by simp [LastDimensionIterator.equal]
  | _, .recur _ _ _ _ e r => by
      cases e
      · simp [LastDimensionIterator.equal, lm_equal_self r]
      · simp [LastDimensionIterator.equal]

/-- C13 (begin iterators).  For every array of any shape, two iterators obtained from
`fmbegin()` on it compare equal under `operator==` and not unequal under `operator!=`, and
so do two iterators obtained from `lmbegin()`. -/
theorem C13_begin_iterators_equal {T : Type} (dims : List Nat) (a : Array T dims) (this : Addr) :
    (a.fmbegin this).equal (a.fmbegin this) = true ∧
    (a.fmbegin this).not_equal (a.fmbegin this) = false ∧
    (a.lmbegin this).equal (a.lmbegin this) = true ∧
    (a.lmbegin this).not_equal (a.lmbegin this) = false := by
  simp [FirstDimensionIterator.not_equal, LastDimensionIterator.not_equal,
    fm_equal_self, lm_equal_self]

theorem rowDigits_append (d : Nat) : ∀ (ds : List Nat) (k : Nat), k < (ds ++ [d]).prod →
    rowDigits (ds ++ [d]) k = rowDigits ds (k / d) ++ [k % d]
  | [], k, hk => by
      simp only [List.nil_append, List.prod_cons, List.prod_nil, Nat.mul_one] at hk
      simp [rowDigits, Nat.mod_eq_of_lt hk]
  | e :: ds, k, hk => by
      have hp : (ds ++ [d]).prod = d * ds.prod := by simp [Nat.mul_comm]
      have hP : 0 < (ds ++ [d]).prod := by
        rw [List.cons_append, List.prod_cons] at hk
        rcases Nat.eq_zero_or_pos (ds ++ [d]).prod with h0 | h0
        · rw [h0] at hk; simp at hk
        · exact h0
      have ih := rowDigits_append d ds (k % (ds ++ [d]).prod) (Nat.mod_lt _ hP)
      show rowDigits (e :: (ds ++ [d])) k = rowDigits (e :: ds) (k / d) ++ [k % d]
      rw [rowDigits, rowDigits, ih, hp, Nat.div_div_eq_div_mul, Nat.mod_mul_right_div_self,
        Nat.mod_mul_right_mod]
      rfl

theorem colDigits_eq_reverse : ∀ (dims : List Nat) (k : Nat), k < dims.prod →
    colDigits dims k = (rowDigits dims.reverse k).reverse
  | [], _, _ => rfl
  | d :: ds, k, hk => by
      rw [List.prod_cons] at hk
      have hD : 0 < d := by
        rcases Nat.eq_zero_or_pos d with h0 | h0
        · rw [h0] at hk; simp at hk
        · exact h0
      have hj : k / d < ds.prod := by
        rw [Nat.div_lt_iff_lt_mul hD, Nat.mul_comm]; exact hk
      have hk2 : k < (ds.reverse ++ [d]).prod := by
        simp only [List.prod_append, List.prod_reverse, List.prod_cons, List.prod_nil,
          Nat.mul_one]
        rw [Nat.mul_comm]; exact hk
      rw [List.reverse_cons, rowDigits_append d _ k hk2, List.reverse_append,
        List.reverse_singleton, List.singleton_append, colDigits,
        colDigits_eq_reverse ds _ hj]

/-- C14 (mirror orders).  For every shape, every array object `m` of that shape, every
array object `mr` of the reversed shape with recorded sizes, and every `k` below the
product of the dimensions: the index tuple of the column-major iterator of `m` after `k`
pre-increments of `lmbegin()` is the reversal of the index tuple of the row-major iterator
of `mr` after `k` pre-increments of `fmbegin()`. -/
theorem C14_column_major_mirrors_row_major {T T1 : Type} (Dim : Nat) (Dims : List Nat)
    (Dimr : Nat) (Dimsr : List Nat) (hrev : Dimr :: Dimsr = (Dim :: Dims).reverse)
    (m : Object T (Dim :: Dims)) (mr : Object T1 (Dimr :: Dimsr)) (hs : mr.val.Sized)
    (k : Nat) (hk : k < (Dim :: Dims).prod) :
    ∃ it itr, LastDimensionIterator.advance k (m.val.lmbegin m.addr) = .ok it ∧
      FirstDimensionIterator.advance mr k (mr.val.fmbegin mr.addr) = .ok itr ∧
      it.indices = itr.indices.reverse := by
  have hkr : k < (Dimr :: Dimsr).prod := by rw [hrev, List.prod_reverse]; exact hk
  refine ⟨lmState Dim Dims m.addr k false, fmState Dimr Dimsr mr.addr k, ?_, ?_, ?_⟩
  · rw [Array.lmbegin_eq]
    exact lm_advance Dims Dim m.addr k hk
  · rw [Array.fmbegin_eq Dimsr Dimr mr.val mr.addr hs]
    exact fm_advance mr hs Dimsr Dimr mr.addr mr.val (Object.deref_addr mr) k hkr
  · rw [lmState_indices _ _ _ _ _ hk, fmState_indices, hrev, colDigits_eq_reverse _ _ hk]

/-- C14 at the test array of shape `[2, 3, 4]` and an array of shape `[4, 3, 2]`, after
five steps. -/
theorem C14_column_major_mirrors_row_major_witness :
    (4 :: [3, 2] = (2 :: [3, 4]).reverse) ∧ obj432.val.Sized ∧ 5 < (2 :: [3, 4]).prod ∧
    ∃ it itr, LastDimensionIterator.advance 5 (obj234.val.lmbegin obj234.addr) = .ok it ∧
      FirstDimensionIterator.advance obj432 5 (obj432.val.fmbegin obj432.addr) = .ok itr ∧
      it.indices = itr.indices.reverse :=
  ⟨by decide, by decide, by decide,
    C14_column_major_mirrors_row_major 2 [3, 4] 4 [3, 2] (by decide) obj234 obj432 (by decide) 5
      (by decide)⟩

theorem fm_equal_iff : ∀ {dims : List Nat}
    (x y : FirstDimensionIterator dims),
    x.equal y = true ↔ AgreeToFirstExhausted x.levels y.levels
  | _, .base _ p1 a1 i1 s1 e1, .base _ p2 a2 i2 s2 e2 => by
      simp only [FirstDimensionIterator.equal, FirstDimensionIterator.levels,
        AgreeToFirstExhausted, List.take_succ_cons, List.take_nil, List.cons.injEq, and_true,
        Level.mk.injEq]
      constructor
      · intro h
        split at h
        · cases h
        · rename_i hn
          simp only [not_or, not_not] at hn
          obtain ⟨h1, h2, h3, h4, h5⟩ := hn
          exact ⟨h3, h1, h2, h4, h5⟩
      · rintro ⟨h3, h1, h2, h4, h5⟩
        simp [h1, h2, h3, h4, h5]
  | _, .recur _ p1 i1 s1 e1 r1, .recur _ p2 i2 s2 e2 r2 => by
      have ih := fm_equal_iff r1 r2
      cases e1
      · simp only [FirstDimensionIterator.equal, FirstDimensionIterator.levels,
          AgreeToFirstExhausted, List.findIdx_cons, cond_false, List.take_succ_cons,
          List.cons.injEq, Level.mk.injEq, true_and] at ih ⊢
        constructor
        · intro h
          split at h
          · cases h
          · rename_i hn
            simp only [not_or, not_not] at hn
            obtain ⟨h1, h2, h3, h4⟩ := hn
            simp only [Bool.false_eq_true, if_false] at h
            exact ⟨⟨h1, h2, h3, h4⟩, ih.mp h⟩
        · rintro ⟨⟨h1, h2, h3, h4⟩, h5⟩
          simp [h1, h2, h3, ← h4, ih.mpr h5]
      · simp only [FirstDimensionIterator.equal, FirstDimensionIterator.levels,
          AgreeToFirstExhausted, List.findIdx_cons, cond_true, List.take_succ_cons,
          List.take_zero, List.cons.injEq, Level.mk.injEq, true_and, and_true]
        constructor
        · intro h
          split at h
          · cases h
          · rename_i hn
            simp only [not_or, not_not] at hn
            exact hn
        · rintro ⟨h1, h2, h3, h4⟩
          simp [h1, h2, h3, ← h4]

theorem lm_equal_iff : ∀ {dims : List Nat}
    (x y : LastDimensionIterator dims),
    x.equal y = true ↔ AgreeToFirstExhausted x.levels y.levels
  | _, .base _ p1 i1 s1 e1, .base _ p2 i2 s2 e2 => by
      simp only [LastDimensionIterator.equal, LastDimensionIterator.levels,
        AgreeToFirstExhausted, List.take_succ_cons, List.take_nil, List.cons.injEq, and_true,
        Level.mk.injEq, true_and]
      constructor
      · intro h
        split at h
        · cases h
        · rename_i hn
          simp only [not_or, not_not] at hn
          exact hn
      · rintro ⟨h1, h2, h4, h5⟩
        simp [h1, h2, h4, h5]
  | _, .recur _ p1 i1 s1 e1 r1, .recur _ p2 i2 s2 e2 r2 => by
      have ih := lm_equal_iff r1 r2
      cases e1
      · simp only [LastDimensionIterator.equal, LastDimensionIterator.levels,
          AgreeToFirstExhausted, List.findIdx_cons, cond_false, List.take_succ_cons,
          List.cons.injEq, Level.mk.injEq, true_and] at ih ⊢
        constructor
        · intro h
          split at h
          · cases h
          · rename_i hn
            simp only [not_or, not_not] at hn
            obtain ⟨h1, h2, h3, h4⟩ := hn
            simp only [Bool.false_eq_true, if_false] at h
            exact ⟨⟨h1, h2, h3, h4⟩, ih.mp h⟩
        · rintro ⟨⟨h1, h2, h3, h4⟩, h5⟩
          simp [h1, h2, h3, ← h4, ih.mpr h5]
      · simp only [LastDimensionIterator.equal, LastDimensionIterator.levels,
          AgreeToFirstExhausted, List.findIdx_cons, cond_true, List.take_succ_cons,
          List.take_zero, List.cons.injEq, Level.mk.injEq, true_and, and_true]
        constructor
        · intro h
          split at h
          · cases h
          · rename_i hn
            simp only [not_or, not_not] at hn
            exact hn
        · rintro ⟨h1, h2, h3, h4⟩
          simp [h1, h2, h3, ← h4]

/-- C18 (iterator equality).  For any two iterators of one kind and class, `operator==`
holds exactly when the two agree on the members of every level (pointers to the array
node, index, size, end flag) from the outermost down to and including the first level
whose end flag is set, or down to the deepest when none is set.  In particular two
iterators whose outer level agrees with its end flag set are equal whatever they nest, and
`operator!=` is the negation of `operator==`. -/
theorem C18_iterator_equality (dims : List Nat) :
    (∀ x y : FirstDimensionIterator dims,
      (x.equal y = true ↔ AgreeToFirstExhausted x.levels y.levels) ∧
      x.not_equal y = !x.equal y) ∧
    (∀ x y : LastDimensionIterator dims,
      (x.equal y = true ↔ AgreeToFirstExhausted x.levels y.levels) ∧
      x.not_equal y = !x.equal y) ∧
    (∀ (Dim d : Nat) (Dims : List Nat) (p : Option Addr) (i s : Nat)
      (r1 r2 : FirstDimensionIterator (d :: Dims)),
      (FirstDimensionIterator.recur Dim p i s true r1).equal (.recur Dim p i s true r2) = true) ∧
    (∀ (Dim d : Nat) (Dims : List Nat) (p : Option Addr) (i s : Nat)
      (r1 r2 : LastDimensionIterator (d :: Dims)),
      (LastDimensionIterator.recur Dim p i s true r1).equal (.recur Dim p i s true r2) = true) := by
  refine ⟨fun x y => ⟨fm_equal_iff x y, rfl⟩,
    fun x y => ⟨lm_equal_iff x y, rfl⟩, ?_, ?_⟩
  · intro Dim d Dims p i s r1 r2
    simp [FirstDimensionIterator.equal]
  · intro Dim d Dims p i s r1 r2
    simp [LastDimensionIterator.equal]

theorem Array.fmbegin_levels {T : Type} : ∀ {dims : List Nat} (a : Array T dims) (q : Addr),
    ∀ l ∈ (a.fmbegin q).levels, l.index = 0 ∧ l.exhausted = false
  | _, .base _ _ _ _, _ => by
      simp [Array.fmbegin, FirstDimensionIterator.levels]
  | _, .recur _ pos arr _, q => by
      have ih := Array.fmbegin_levels (arr ⟨0, pos⟩) (q.child 0)
      simp only [Array.fmbegin, FirstDimensionIterator.levels, List.mem_cons]
      rintro l (rfl | hl)
      · exact ⟨rfl, rfl⟩
      · exact ih l hl

theorem Array.lmbegin_levels {T : Type} : ∀ {dims : List Nat} (a : Array T dims) (q : Addr),
    ∀ l ∈ (a.lmbegin q).levels, l.index = 0 ∧ l.exhausted = false
  | _, .base _ _ _ _, _ => by
      simp [Array.lmbegin, LastDimensionIterator.levels]
  | _, .recur _ pos arr _, q => by
      have ih := Array.lmbegin_levels (arr ⟨0, pos⟩) (q.child 0)
      simp only [Array.lmbegin, LastDimensionIterator.levels, List.mem_cons]
      rintro l (rfl | hl)
      · exact ⟨rfl, rfl⟩
      · exact ih l hl

theorem Array.fmend_levels {T : Type} : ∀ {dims : List Nat} (a : Array T dims) (q : Addr),
    ∀ l ∈ (a.fmend q).levels, l.index = 0 ∧ l.exhausted = true
  | _, .base _ _ _ _, _ => by
      simp [Array.fmend, FirstDimensionIterator.levels]
  | _, .recur _ pos arr _, q => by
      have ih := Array.fmend_levels (arr ⟨0, pos⟩) (q.child 0)
      simp only [Array.fmend, FirstDimensionIterator.levels, List.mem_cons]
      rintro l (rfl | hl)
      · exact ⟨rfl, rfl⟩
      · exact ih l hl

theorem Array.lmend_levels {T : Type} : ∀ {dims : List Nat} (a : Array T dims) (q : Addr),
    ∀ l ∈ (a.lmend q).levels, l.index = 0 ∧ l.exhausted = true
  | _, .base _ _ _ _, _ => by
      simp [Array.lmend, LastDimensionIterator.levels]
  | _, .recur _ pos arr _, q => by
      have ih := Array.lmend_levels (arr ⟨0, pos⟩) (q.child 0)
      simp only [Array.lmend, LastDimensionIterator.levels, List.mem_cons]
      rintro l (rfl | hl)
      · exact ⟨rfl, rfl⟩
      · exact ih l hl

theorem fm_levels_length : ∀ {dims : List Nat}
    (x : FirstDimensionIterator dims), x.levels.length = dims.length
  | _, .base _ _ _ _ _ _ => rfl
  | _, .recur _ _ _ _ _ r => by
      simp [FirstDimensionIterator.levels, fm_levels_length r]

theorem lm_levels_length : ∀ {dims : List Nat}
    (x : LastDimensionIterator dims), x.levels.length = dims.length
  | _, .base _ _ _ _ _ => rfl
  | _, .recur _ _ _ _ _ r => by
      simp [LastDimensionIterator.levels, lm_levels_length r]

/-- C19 (begin state).  For every array of any shape, the iterator returned by
`fmbegin()` and the one returned by `lmbegin()` have one level per dimension, index 0 and
a clear end flag at every level, and point at the array at the outermost level; at every
node that is not a leaf the nested iterator is the begin iterator of the child
`_array[0]`. -/
theorem C19_begin_state {T : Type} (Dim : Nat) (Dims : List Nat) (a : Array T (Dim :: Dims))
    (this : Addr) :
    ((a.fmbegin this).levels.length = (Dim :: Dims).length ∧
      (∀ l ∈ (a.fmbegin this).levels, l.index = 0 ∧ l.exhausted = false) ∧
      (a.fmbegin this).levels.head?.map Level.node = some (some this)) ∧
    ((a.lmbegin this).levels.length = (Dim :: Dims).length ∧
      (∀ l ∈ (a.lmbegin this).levels, l.index = 0 ∧ l.exhausted = false) ∧
      (a.lmbegin this).levels.head?.map Level.node = some (some this)) ∧
    (∀ (D : Nat) (pos : 0 < D) (d : Nat) (Ds : List Nat) (arr : Fin D → Array T (d :: Ds))
      (s : Nat) (q : Addr),
      (Array.recur D pos arr s).fmbegin q
        = .recur D (some q) 0 s false ((arr ⟨0, pos⟩).fmbegin (q.child 0)) ∧
      (Array.recur D pos arr s).lmbegin q
        = .recur D (some q) 0 D false ((arr ⟨0, pos⟩).lmbegin (q.child 0))) := by
  refine ⟨⟨fm_levels_length _, Array.fmbegin_levels a this, ?_⟩,
    ⟨lm_levels_length _, Array.lmbegin_levels a this, ?_⟩,
    fun _ _ _ _ _ _ _ => ⟨rfl, rfl⟩⟩
  · cases a <;> rfl
  · cases a <;> rfl

/-- C20, as the header has it.  For every array with two or more dimensions, the iterator
returned by `fmend()` and the one returned by `lmend()` have index 0 and a set end flag at
the outermost level, and the nested iterator is the end iterator of the child `_array[0]`:
index 0 and a set end flag at every deeper level as well. -/
theorem C20_end_state_nests_end {T : Type} (Dim d : Nat) (Dims : List Nat)
    (a : Array T (Dim :: d :: Dims)) (this : Addr) :
    (∀ l ∈ (a.fmend this).levels, l.index = 0 ∧ l.exhausted = true) ∧
    (∀ l ∈ (a.lmend this).levels, l.index = 0 ∧ l.exhausted = true) ∧
    (∀ (pos : 0 < Dim) (arr : Fin Dim → Array T (d :: Dims)) (s : Nat),
      a = .recur Dim pos arr s →
      a.fmend this = .recur Dim (some this) 0 s true ((arr ⟨0, pos⟩).fmend (this.child 0)) ∧
      a.lmend this = .recur Dim (some this) 0 Dim true ((arr ⟨0, pos⟩).lmend (this.child 0))) := by
  refine ⟨Array.fmend_levels a this, Array.lmend_levels a this, ?_⟩
  intro pos arr s h
  subst h
  exact ⟨rfl, rfl⟩

/-- C20 as stated fails at the test array of shape `[2, 3, 4]`: the levels below the
outermost of `fmend()` and of `lmend()` have their end flags set, so they are not in the
begin state. -/
theorem C20_nested_levels_not_at_begin :
    (obj234.val.fmend obj234.addr).levels.map (fun l => l.exhausted) = [true, true, true] ∧
    (obj234.val.lmend obj234.addr).levels.map (fun l => l.exhausted) = [true, true, true] ∧
    ¬ (∀ l ∈ (obj234.val.fmend obj234.addr).levels.tail, l.index = 0 ∧ l.exhausted = false) ∧
    ¬ (∀ l ∈ (obj234.val.lmend obj234.addr).levels.tail, l.index = 0 ∧ l.exhausted = false) := by
  refine ⟨by decide, by decide, by decide, by decide⟩

/-! ## Reachable iterator states -/

theorem fmState_inv : ∀ (Dims : List Nat) (Dim : Nat) (q : Addr) (k : Nat),
    k < (Dim :: Dims).prod → (fmState Dim Dims q k).Inv q
  | [], Dim, q, k, hk => by
      simp only [List.prod_cons, List.prod_nil, Nat.mul_one] at hk
      exact ⟨rfl, rfl, hk, rfl⟩
  | d :: Dims, Dim, q, k, hk => by
      rw [List.prod_cons] at hk
      have hP : 0 < (d :: Dims).prod := by
        rcases Nat.eq_zero_or_pos (d :: Dims).prod with h0 | h0
        · rw [h0] at hk; simp at hk
        · exact h0
      refine ⟨rfl, ?_, rfl, fmState_inv Dims d _ _ (Nat.mod_lt _ hP)⟩
      rw [Nat.div_lt_iff_lt_mul hP]
      exact hk

theorem Array.fmend_inv {T : Type} : ∀ {dims : List Nat} (a : Array T dims) (q : Addr),
    a.Sized → (a.fmend q).Inv q
  | _, .base _ pos _ _, _, hs => ⟨rfl, rfl, pos, hs⟩
  | _, .recur _ pos arr _, q, hs =>
      ⟨rfl, pos, hs.1, Array.fmend_inv (arr ⟨0, pos⟩) (q.child 0) (hs.2 _)⟩

theorem fm_copy_of_inv : ∀ {dims : List Nat}
    (it : FirstDimensionIterator dims) (q : Addr), it.Inv q → it.copy = it
  | _, .base _ _ _ _ _ _, _, h => by
      obtain ⟨_, _, _, h4⟩ := h
      simp [FirstDimensionIterator.copy, h4]
  | _, .recur _ _ i _ _ r, q, h => by
      obtain ⟨_, _, h3, h4⟩ := h
      simp [FirstDimensionIterator.copy, h3, fm_copy_of_inv r _ h4]

theorem fm_bounded_of_inv : ∀ {dims : List Nat}
    (it : FirstDimensionIterator dims) (q : Addr), it.Inv q → it.Bounded ∧ it.AccessInRange
  | _, .base _ _ _ _ _ _, q, h => by
      obtain ⟨h1, _, h3, h4⟩ := h
      exact ⟨⟨h3, h4⟩, ⟨q, 0⟩, h1, by simpa using h3⟩
  | _, .recur _ _ i _ _ r, q, h => by
      obtain ⟨_, h2, h3, h4⟩ := h
      have ih := fm_bounded_of_inv r _ h4
      exact ⟨⟨h2, h3, ih.1⟩, ih.2⟩

theorem fm_increment_inv {T : Type} {rd : List Nat} (m : Object T rd) (hs : m.val.Sized) :
    ∀ {dims : List Nat} (it : FirstDimensionIterator dims) (q : Addr) (a : Array T dims),
    m.deref q dims = some a → it.Inv q → ∃ it1, it.increment m = .ok it1 ∧ it1.Inv q
  | _, .base Dim p ar i s e, q, _, _, hinv => by
      obtain ⟨h1, h2, h3, h4⟩ := hinv
      by_cases h : s = i + 1
      · refine ⟨.base Dim p ar 0 s true, by simp [FirstDimensionIterator.increment, h], ?_⟩
        exact ⟨h1, h2, by omega, h4⟩
      · refine ⟨.base Dim p ar (i + 1) s false, by simp [FirstDimensionIterator.increment, h], ?_⟩
        exact ⟨h1, h2, by omega, h4⟩
  | _, .recur Dim p i s e r, q, a, hq, hinv => by
      obtain ⟨h1, h2, h3, h4⟩ := hinv
      subst h1
      cases a with
      | recur _ pos arr s0 =>
        have hc := Object.deref_child m q pos arr s0 i h2 hq
        obtain ⟨r1, hr1, hr1inv⟩ := fm_increment_inv m hs r (q.child i) _ hc h4
        by_cases hflag : r1._is_iter_end = true
        · by_cases h : s = i + 1
          · refine ⟨.recur Dim (some q) 0 s true (fmState _ _ (q.child 0) 0), ?_, ?_⟩
            · simp only [FirstDimensionIterator.increment, hr1, hflag, if_true]
              rw [if_pos h]
              exact fm_modify_end_flag_recur m hs Dim _ _ q _ hq 0 pos s true r1
            · exact ⟨rfl, pos, h3,
                fmState_inv _ _ (q.child 0) 0 (Array.prod_pos (arr ⟨0, pos⟩))⟩
          · have hlt : i + 1 < Dim := by omega
            refine ⟨.recur Dim (some q) (i + 1) s false (fmState _ _ (q.child (i + 1)) 0),
              ?_, ?_⟩
            · simp only [FirstDimensionIterator.increment, hr1, hflag, if_true]
              rw [if_neg h]
              exact fm_modify_end_flag_recur m hs Dim _ _ q _ hq (i + 1) hlt s false r1
            · exact ⟨rfl, hlt, h3,
                fmState_inv _ _ (q.child (i + 1)) 0 (Array.prod_pos (arr ⟨0, pos⟩))⟩
        · refine ⟨.recur Dim (some q) i s e r1, ?_, ?_⟩
          · simp only [FirstDimensionIterator.increment, hr1, hflag, Bool.false_eq_true,
              if_false]
          · exact ⟨rfl, h2, h3, hr1inv⟩

theorem Array.fmbegin_inv {T : Type} : ∀ {dims : List Nat} (a : Array T dims) (q : Addr),
    a.Sized → (a.fmbegin q).Inv q
  | _, .base _ pos _ _, _, hs => ⟨rfl, rfl, pos, hs⟩
  | _, .recur _ pos arr _, q, hs =>
      ⟨rfl, pos, hs.1, Array.fmbegin_inv (arr ⟨0, pos⟩) (q.child 0) (hs.2 _)⟩

theorem fm_reachable_inv {T : Type} {rd : List Nat} (m : Object T rd)
    (hs : m.val.Sized) (it : FirstDimensionIterator rd) (h : FirstDimensionIterator.Reachable m it) : it.Inv m.addr := by
  induction h with
  | fmbegin => exact Array.fmbegin_inv m.val m.addr hs
  | fmend => exact Array.fmend_inv m.val m.addr hs
  | increment it it1 _ hinc ih =>
      obtain ⟨it2, h2, hinv⟩ := fm_increment_inv m hs it m.addr m.val (Object.deref_addr m) ih
      rw [h2] at hinc
      cases hinc
      exact hinv
  | post_increment it ret it1 _ hpost ih =>
      obtain ⟨it2, h2, _⟩ := fm_increment_inv m hs it m.addr m.val (Object.deref_addr m) ih
      simp only [FirstDimensionIterator.post_increment, h2, Except.ok.injEq, Prod.mk.injEq] at hpost
      rw [← hpost.1, fm_copy_of_inv it _ ih]
      exact ih
  | copy it _ ih =>
      rw [fm_copy_of_inv it _ ih]
      exact ih

theorem lmState_inv : ∀ (Dims : List Nat) (Dim : Nat) (q : Addr) (k : Nat) (e : Bool),
    k < (Dim :: Dims).prod → (lmState Dim Dims q k e).Inv q
  | [], Dim, q, k, e, hk => by
      simp only [List.prod_cons, List.prod_nil, Nat.mul_one] at hk
      exact ⟨rfl, hk, rfl⟩
  | d :: Dims, Dim, q, k, e, hk => by
      rw [List.prod_cons] at hk
      have hD : 0 < Dim := by
        rcases Nat.eq_zero_or_pos Dim with h0 | h0
        · rw [h0] at hk; simp at hk
        · exact h0
      refine ⟨rfl, Nat.mod_lt _ hD, rfl, lmState_inv Dims d _ _ e ?_⟩
      rw [Nat.div_lt_iff_lt_mul hD, Nat.mul_comm]
      exact hk

theorem lm_copy_of_inv : ∀ {dims : List Nat}
    (it : LastDimensionIterator dims) (q : Addr), it.Inv q → it.copy = it
  | _, .base _ _ _ _ _, _, h => by
      obtain ⟨_, _, h4⟩ := h
      simp [LastDimensionIterator.copy, h4]
  | _, .recur _ _ i _ _ r, q, h => by
      obtain ⟨_, _, h3, h4⟩ := h
      simp [LastDimensionIterator.copy, h3, lm_copy_of_inv r _ h4]

theorem lm_bounded_of_inv : ∀ {dims : List Nat}
    (it : LastDimensionIterator dims) (q : Addr), it.Inv q → it.Bounded
  | _, .base _ _ _ _ _, _, h => ⟨h.2.1, h.2.2⟩
  | _, .recur _ _ _ _ _ r, _, h =>
      ⟨h.2.1, h.2.2.1, lm_bounded_of_inv r _ h.2.2.2⟩

theorem LastDimensionIterator.set_ptr_base {Dim : Nat} (p p1 : Option Addr) (i s : Nat)
    (e : Bool) :
    (LastDimensionIterator.base Dim p i s e).set_arr_ptr p1
      = LastDimensionIterator.base Dim p1 i s e := rfl

theorem lm_repoint_inv : ∀ {dims : List Nat} (r : LastDimensionIterator dims) (q0 q : Addr),
    r.Inv q0 →
    ∃ r2, LastDimensionIterator.modify_end_flag dims (r.set_arr_ptr (some q)) = .ok r2 ∧ r2.Inv q
  | _, .base Dim p i s e, q0, q, h => by
      obtain ⟨_, h2, h3⟩ := h
      refine ⟨.base Dim (some q) i s e, rfl, ?_⟩
      exact ⟨rfl, h2, h3⟩
  | _, .recur Dim p i s e r, q0, q, h => by
      obtain ⟨_, h2, h3, h4⟩ := h
      obtain ⟨r2, hr2, hinv⟩ := lm_repoint_inv r (q0.child i) (q.child i) h4
      refine ⟨.recur Dim (some q) i s r2._is_iter_end r2, ?_, ?_⟩
      · simp only [LastDimensionIterator.set_ptr_recur, LastDimensionIterator.modify_end_flag,
          hr2]
      · exact ⟨rfl, h2, h3, hinv⟩

theorem lm_modify_end_flag_inv {Dim d : Nat} {Dims : List Nat} (q q0 : Addr) (i s : Nat)
    (e : Bool) (r : LastDimensionIterator (d :: Dims)) (hi : i < Dim) (hs : s = Dim)
    (hr : r.Inv q0) :
    ∃ it1, LastDimensionIterator.modify_end_flag (Dim :: d :: Dims) (.recur Dim (some q) i s e r)
        = .ok it1 ∧ it1.Inv q := by
  obtain ⟨r2, hr2, hinv⟩ := lm_repoint_inv r q0 (q.child i) hr
  refine ⟨.recur Dim (some q) i s r2._is_iter_end r2, ?_, ?_⟩
  · simp only [LastDimensionIterator.modify_end_flag, hr2]
  · exact ⟨rfl, hi, hs, hinv⟩

theorem lm_increment_inv : ∀ {dims : List Nat} (it : LastDimensionIterator dims) (q : Addr),
    it.Inv q → ∃ it1, it.increment = .ok it1 ∧ it1.Inv q
  | _, .base Dim p i s e, q, hinv => by
      obtain ⟨h1, h2, h3⟩ := hinv
      by_cases h : s = i + 1
      · refine ⟨.base Dim p 0 s true, by simp [LastDimensionIterator.increment, h], ?_⟩
        exact ⟨h1, by omega, h3⟩
      · refine ⟨.base Dim p (i + 1) s e, by simp [LastDimensionIterator.increment, h], ?_⟩
        exact ⟨h1, by omega, h3⟩
  | _, .recur Dim p i s e r, q, hinv => by
      obtain ⟨h1, h2, h3, h4⟩ := hinv
      subst h1
      have hs0 : ¬ s = 0 := by omega
      have hlt : (i + 1) % s < Dim := by
        rw [h3]; exact Nat.mod_lt _ (by omega)
      by_cases hw : (i + 1) % s = 0
      · obtain ⟨r1, hr1, hr1inv⟩ := lm_increment_inv r (q.child i) h4
        obtain ⟨it1, hit1, hinv1⟩ :=
          lm_modify_end_flag_inv q (q.child i) ((i + 1) % s) s true r1 hlt h3 hr1inv
        refine ⟨it1, ?_, hinv1⟩
        simp only [LastDimensionIterator.increment, hs0, if_false, hw, if_true, hr1]
        rw [hw] at hit1
        exact hit1
      · obtain ⟨it1, hit1, hinv1⟩ :=
          lm_modify_end_flag_inv q (q.child i) ((i + 1) % s) s e r hlt h3 h4
        refine ⟨it1, ?_, hinv1⟩
        simp only [LastDimensionIterator.increment, hs0, if_false, hw]
        exact hit1

theorem lm_reachable_inv {T : Type} {rd : List Nat} (a : Array T rd)
    (this : Addr) (it : LastDimensionIterator rd) (h : LastDimensionIterator.Reachable a this it) : it.Inv this := by
  induction h with
  | lmbegin =>
      cases a with
      | base Dim pos arr s =>
          rw [Array.lmbegin_eq [] Dim _ this]
          exact lmState_inv [] Dim this 0 false (Array.prod_pos (Array.base Dim pos arr s))
      | recur Dim pos arr s =>
          rw [Array.lmbegin_eq _ Dim _ this]
          exact lmState_inv _ Dim this 0 false (Array.prod_pos (Array.recur Dim pos arr s))
  | lmend =>
      cases a with
      | base Dim pos arr s =>
          rw [Array.lmend_eq [] Dim _ this]
          exact lmState_inv [] Dim this 0 true (Array.prod_pos (Array.base Dim pos arr s))
      | recur Dim pos arr s =>
          rw [Array.lmend_eq _ Dim _ this]
          exact lmState_inv _ Dim this 0 true (Array.prod_pos (Array.recur Dim pos arr s))
  | increment it it1 _ hinc ih =>
      obtain ⟨it2, h2, hinv⟩ := lm_increment_inv it this ih
      rw [h2] at hinc
      cases hinc
      exact hinv
  | post_increment it ret it1 _ hpost ih =>
      obtain ⟨it2, h2, _⟩ := lm_increment_inv it this ih
      simp only [LastDimensionIterator.post_increment, h2, Except.ok.injEq, Prod.mk.injEq] at hpost
      rw [← hpost.1, lm_copy_of_inv it _ ih]
      exact ih
  | copy it _ ih =>
      rw [lm_copy_of_inv it _ ih]
      exact ih


/-- C17 (bounded indices).  For every array object with recorded sizes and every iterator
of either kind reached from the begin or the end iterator by pre-increments,
post-increments and copies: at every level the index is below the dimension and the stored
size is the dimension, the element access of `operator*` at the base level stays inside
the leaf, and a further pre-increment returns normally. -/
theorem C17_reachable_states_bounded {T : Type} (Dim : Nat) (Dims : List Nat)
    (m : Object T (Dim :: Dims)) (hs : m.val.Sized) :
    (∀ it, FirstDimensionIterator.Reachable m it →
      it.Bounded ∧ it.AccessInRange ∧ ∃ it1, it.increment m = .ok it1) ∧
    (∀ it, LastDimensionIterator.Reachable m.val m.addr it →
      it.Bounded ∧ ∃ it1, it.increment = .ok it1) := by
  constructor
  · intro it h
    have hinv := fm_reachable_inv m hs it h
    obtain ⟨it1, h1, _⟩ := fm_increment_inv m hs it m.addr m.val (Object.deref_addr m) hinv
    have hb := fm_bounded_of_inv it _ hinv
    exact ⟨hb.1, hb.2, it1, h1⟩
  · intro it h
    have hinv := lm_reachable_inv m.val m.addr it h
    obtain ⟨it1, h1, _⟩ := lm_increment_inv it m.addr hinv
    exact ⟨lm_bounded_of_inv it _ hinv, it1, h1⟩

/-- C17 at the end iterator of the test array. -/
theorem C17_reachable_states_bounded_witness :
    obj234.val.Sized ∧ (obj234.val.fmend obj234.addr).Bounded ∧
    (obj234.val.fmend obj234.addr).AccessInRange ∧
    ∃ it1, (obj234.val.fmend obj234.addr).increment obj234 = .ok it1 :=
  ⟨by decide,
    (C17_reachable_states_bounded 2 [3, 4] obj234 (by decide)).1 _
      FirstDimensionIterator.Reachable.fmend⟩

/-- C23 (post-increment).  For every array object with recorded sizes and every iterator
of either kind reached from the begin iterator (or the end iterator) by increments and
copies: the post-increment returns normally, the iterator it returns compares equal to
the iterator as it was before the call, and it leaves the iterator in the state that the
pre-increment produces from the same state. -/
theorem C23_post_increment {T : Type} (Dim : Nat) (Dims : List Nat)
    (m : Object T (Dim :: Dims)) (hs : m.val.Sized) :
    (∀ it, FirstDimensionIterator.Reachable m it →
      ∃ ret it1, it.post_increment m = .ok (ret, it1) ∧ ret.equal it = true ∧
        ret.not_equal it = false ∧ it.increment m = .ok it1) ∧
    (∀ it, LastDimensionIterator.Reachable m.val m.addr it →
      ∃ ret it1, it.post_increment = .ok (ret, it1) ∧ ret.equal it = true ∧
        ret.not_equal it = false ∧ it.increment = .ok it1) := by
  constructor
  · intro it h
    have hinv := fm_reachable_inv m hs it h
    obtain ⟨it1, h1, _⟩ := fm_increment_inv m hs it m.addr m.val (Object.deref_addr m) hinv
    refine ⟨it.copy, it1, by simp only [FirstDimensionIterator.post_increment, h1], ?_, ?_, h1⟩
    · rw [fm_copy_of_inv it _ hinv]
      exact fm_equal_self it
    · rw [fm_copy_of_inv it _ hinv]
      simp [FirstDimensionIterator.not_equal, fm_equal_self]
  · intro it h
    have hinv := lm_reachable_inv m.val m.addr it h
    obtain ⟨it1, h1, _⟩ := lm_increment_inv it m.addr hinv
    refine ⟨it.copy, it1, by simp only [LastDimensionIterator.post_increment, h1], ?_, ?_, h1⟩
    · rw [lm_copy_of_inv it _ hinv]
      exact lm_equal_self it
    · rw [lm_copy_of_inv it _ hinv]
      simp [LastDimensionIterator.not_equal, lm_equal_self]

/-- C23 at the begin iterator of the test array. -/
theorem C23_post_increment_witness :
    obj234.val.Sized ∧
    ∃ ret it1, (obj234.val.fmbegin obj234.addr).post_increment obj234 = .ok (ret, it1) ∧
      ret.equal (obj234.val.fmbegin obj234.addr) = true ∧
      ret.not_equal (obj234.val.fmbegin obj234.addr) = false ∧
      (obj234.val.fmbegin obj234.addr).increment obj234 = .ok it1 :=
  ⟨by decide,
    (C23_post_increment 2 [3, 4] obj234 (by decide)).1 _ FirstDimensionIterator.Reachable.fmbegin⟩

theorem fm_nodes_of_inv : ∀ {dims : List Nat}
    (it : FirstDimensionIterator dims) (q : Addr), it.Inv q →
    it.levels.map Level.node = (q.descend it.indices).map some ∧
    ∀ l ∈ it.levels, ∀ ep, l.elems = some ep → ep.offset = 0
  | _, .base _ _ _ _ _ _, q, h => by
      obtain ⟨h1, h2, _, _⟩ := h
      simp [FirstDimensionIterator.levels, FirstDimensionIterator.indices, Addr.descend, h1, h2]
  | _, .recur _ _ i _ _ r, q, h => by
      obtain ⟨h1, _, _, h4⟩ := h
      have ih := fm_nodes_of_inv r _ h4
      refine ⟨by simp [FirstDimensionIterator.levels, FirstDimensionIterator.indices,
        Addr.descend, h1, ih.1], ?_⟩
      intro l hl ep hep
      simp only [FirstDimensionIterator.levels, List.mem_cons] at hl
      rcases hl with rfl | hl
      · cases hep
      · exact ih.2 l hl ep hep

theorem lm_nodes_of_inv : ∀ {dims : List Nat}
    (it : LastDimensionIterator dims) (q : Addr), it.Inv q →
    it.levels.map Level.node = (q.descend it.indices).map some
  | _, .base _ _ _ _ _, q, h => by
      simp [LastDimensionIterator.levels, LastDimensionIterator.indices, Addr.descend, h.1]
  | _, .recur _ _ i _ _ r, q, h => by
      obtain ⟨h1, _, _, h4⟩ := h
      simp [LastDimensionIterator.levels, LastDimensionIterator.indices, Addr.descend, h1,
        lm_nodes_of_inv r _ h4]

theorem FirstDimensionIterator.levels_set : ∀ {dims : List Nat}
    (it : FirstDimensionIterator dims) (e : Bool),
    (it.set_is_iter_end e).levels.tail = it.levels.tail ∧
    (it.set_is_iter_end e).levels.map Level.index = it.levels.map Level.index
  | _, .base _ _ _ _ _ _, _ => ⟨rfl, rfl⟩
  | _, .recur _ _ _ _ _ _, _ => ⟨rfl, rfl⟩

theorem FirstDimensionIterator.levels_ne_nil : ∀ {dims : List Nat}
    (it : FirstDimensionIterator dims), ∃ l rest, it.levels = l :: rest
  | _, .base _ _ _ _ _ _ => ⟨_, _, rfl⟩
  | _, .recur _ _ _ _ _ _ => ⟨_, _, rfl⟩

theorem fm_modify_end_flag_zero {T : Type} {rd : List Nat} (m : Object T rd) :
    ∀ (dims : List Nat) (it it1 : FirstDimensionIterator dims),
    FirstDimensionIterator.modify_end_flag m dims it = .ok it1 →
    it1.levels.head?.map Level.index = it.levels.head?.map Level.index ∧
    (∀ l ∈ it1.levels.tail, l.index = 0) ∧
    ∀ l ∈ it1.levels, ∀ ep, l.elems = some ep → ep.offset = l.index
  | _, .base Dim p ar i s e, it1, h => by
      simp only [FirstDimensionIterator.modify_end_flag] at h
      split at h
      · cases h
        simp [FirstDimensionIterator.levels]
      · cases h
  | Dim :: d :: Dims, .recur _ p i s e r, it1, h => by
      simp only [FirstDimensionIterator.modify_end_flag] at h
      split at h
      · cases h
      · split at h
        · split at h
          · split at h
            · rename_i _ q _ _ arr _ _ hi _ r1 hr1
              cases h
              obtain ⟨ih1, ih2, ih3⟩ := fm_modify_end_flag_zero m (d :: Dims) _ r1 hr1
              have hz : ∀ l ∈ r1.levels, l.index = 0 := by
                obtain ⟨l1, rest1, e1⟩ := FirstDimensionIterator.levels_ne_nil r1
                obtain ⟨l0, rest0, e0⟩ := FirstDimensionIterator.levels_ne_nil
                  (((arr ⟨i, hi⟩).fmbegin (q.child i)).set_is_iter_end false)
                have hidx := (FirstDimensionIterator.levels_set
                  ((arr ⟨i, hi⟩).fmbegin (q.child i)) false).2
                have hb := Array.fmbegin_levels (arr ⟨i, hi⟩) (q.child i)
                obtain ⟨lb, restb, eb⟩ := FirstDimensionIterator.levels_ne_nil
                  ((arr ⟨i, hi⟩).fmbegin (q.child i))
                rw [e0, eb] at hidx
                rw [e1, e0] at ih1
                rw [e1] at ih2
                simp only [List.head?_cons, Option.map_some', Option.some.injEq] at ih1
                simp only [List.map_cons, List.cons.injEq] at hidx
                have hlb := (hb lb (by rw [eb]; exact List.mem_cons_self _ _)).1
                intro l hl
                rw [e1] at hl
                rcases List.mem_cons.mp hl with rfl | hl
                · rw [ih1, hidx.1, hlb]
                · exact ih2 l hl
              refine ⟨by simp [FirstDimensionIterator.levels], ?_, ?_⟩
              · intro l hl
                simp only [FirstDimensionIterator.levels, List.tail_cons] at hl
                exact hz l hl
              · intro l hl ep hep
                simp only [FirstDimensionIterator.levels, List.mem_cons] at hl
                rcases hl with rfl | hl
                · cases hep
                · exact ih3 l hl ep hep
            · cases h
          · cases h
        · cases h

theorem fm_modify_end_flag_first_slot {T : Type} {rd : List Nat} (m : Object T rd)
    (Dim d : Nat) (Dims : List Nat) (it it1 : FirstDimensionIterator (Dim :: d :: Dims))
    (h : FirstDimensionIterator.modify_end_flag m (Dim :: d :: Dims) it = .ok it1) :
    ∀ l ∈ it1.levels.tail, l.index = 0 ∧ ∀ ep, l.elems = some ep → ep.offset = 0 := by
  obtain ⟨_, h2, h3⟩ := fm_modify_end_flag_zero m _ it it1 h
  intro l hl
  refine ⟨h2 l hl, fun ep hep => ?_⟩
  rw [h3 l (List.mem_of_mem_tail hl) ep hep]
  exact h2 l hl

/-- C25 (reference chain).  For every array object with recorded sizes and every iterator
of either kind reached from the begin iterator (or the end iterator) by increments and
copies: the array pointers of the levels are the addresses met from the root array along
the current indices, so each nested iterator refers to the child of the node above it at
the index above it, and a pointer into element storage designates the first slot of its
leaf.  Whenever the row-major `modify_end_flag` of a level that is not the deepest returns,
every level below it has index 0, the base level included, where it set the element
pointer to the first slot. -/
theorem C25_reference_chain {T : Type} (Dim : Nat) (Dims : List Nat)
    (m : Object T (Dim :: Dims)) (hs : m.val.Sized) :
    (∀ it, FirstDimensionIterator.Reachable m it →
      it.levels.map Level.node = (m.addr.descend it.indices).map some ∧
      ∀ l ∈ it.levels, ∀ ep, l.elems = some ep → ep.offset = 0) ∧
    (∀ it, LastDimensionIterator.Reachable m.val m.addr it →
      it.levels.map Level.node = (m.addr.descend it.indices).map some) ∧
    (∀ (D d : Nat) (Ds : List Nat) (it it1 : FirstDimensionIterator (D :: d :: Ds)),
      FirstDimensionIterator.modify_end_flag m (D :: d :: Ds) it = .ok it1 →
      ∀ l ∈ it1.levels.tail, l.index = 0 ∧ ∀ ep, l.elems = some ep → ep.offset = 0) := by
  refine ⟨fun it h => ?_, fun it h => ?_, fun D d Ds it it1 h =>
    fm_modify_end_flag_first_slot m D d Ds it it1 h⟩
  · exact fm_nodes_of_inv it _ (fm_reachable_inv m hs it h)
  · exact lm_nodes_of_inv it _
      (lm_reachable_inv m.val m.addr it h)

/-- C25 at the begin iterator of the test array. -/
theorem C25_reference_chain_witness :
    obj234.val.Sized ∧
    (obj234.val.fmbegin obj234.addr).levels.map Level.node
      = (obj234.addr.descend (obj234.val.fmbegin obj234.addr).indices).map some :=
  ⟨by decide,
    ((C25_reference_chain 2 [3, 4] obj234 (by decide)).1 _
      FirstDimensionIterator.Reachable.fmbegin).1⟩

/-! ## Frame of an element write -/

theorem Array.raw_put_ne {T : Type} {dims : List Nat} (a : Array T dims) {index j : Nat}
    (h : j ≠ index) (v : Sub T dims.tail) : (a.put index v).raw j = a.raw j := by
  cases a with
  | base Dim pos arr s =>
      simp only [Array.put]
      split
      · simp only [Array.raw]
        split
        · rename_i h1 h2
          rw [Function.update_noteq (fun e => h (Fin.mk.inj e))]
        · rfl
      · rfl
  | recur Dim pos arr s =>
      simp only [Array.put]
      split
      · simp only [Array.raw]
        split
        · rename_i h1 h2
          rw [Function.update_noteq (fun e => h (Fin.mk.inj e))]
        · rfl
      · rfl

theorem Array.subscript_put_ne {T : Type} {dims : List Nat} (a : Array T dims) {index j : Nat}
    (h : j ≠ index) (v : Sub T dims.tail) : (a.put index v).subscript j = a.subscript j := by
  simp only [Array.subscript, Array.put_size, Array.raw_put_ne a h]

theorem Array.subscript_put {T : Type} {d : Nat} {Dims : List Nat} (a : Array T (d :: Dims))
    (hs : a.Sized) {index : Nat} (h : index < d) (v : Sub T Dims) :
    (a.put index v).subscript index = .ok v := by
  have hsz : a._array_size = d := Array.sized_size a hs
  simp [Array.subscript, Array.put_size, hsz, h, Array.raw_put]

theorem write_frame {T : Type} : ∀ (dims : List Nat) (x : Sub T dims) (p q : List Nat) (v : T),
    SubSized dims x → InBounds dims p → InBounds dims q → q ≠ p →
    get dims (write dims x p v).2 q = get dims x q
  | [], _, [], [], _, _, _, _, hne => absurd rfl hne
  | [], _, _ :: _, _, _, _, hp, _, _ => by simp [InBounds] at hp
  | [], _, [], _ :: _, _, _, _, hq, _ => by simp [InBounds] at hq
  | _ :: _, _, [], _, _, _, hp, _, _ => by simp [InBounds] at hp
  | _ :: _, _, _ :: _, [], _, _, _, hq, _ => by simp [InBounds] at hq
  | d :: Dims, a, i :: rest, j :: rest1, v, hs, hp, hq, hne => by
      obtain ⟨hi, hrest⟩ := hp
      obtain ⟨hj, hrest1⟩ := hq
      obtain ⟨c, _, hc, hcs⟩ := Array.subscript_lt (a : Array T (d :: Dims)) hs hi
      by_cases hji : j = i
      · subst hji
        have hne1 : rest1 ≠ rest := fun e => hne (by rw [e])
        have ih := write_frame Dims c rest rest1 v hcs hrest hrest1 hne1
        have hsub := Array.subscript_put (a : Array T (d :: Dims)) hs hi (write Dims c rest v).2
        simp only [write, hc, get, hsub]
        exact ih
      · have hsub := Array.subscript_put_ne (a : Array T (d :: Dims)) hji (write Dims c rest v).2
        simp only [write, hc, get, hsub]

/-- C24 (frame of a write).  For every array with recorded sizes, every in-bounds tuple
`p`, every value `v` and every other in-bounds tuple `q`: after the assignment
`a[p] = v` a read at `q` returns what it returned before, and the array still records its
dimensions at every node. -/
theorem C24_write_frame {T : Type} (Dim : Nat) (Dims : List Nat) (a : Array T (Dim :: Dims))
    (hs : a.Sized) (p q : List Nat) (hp : InBounds (Dim :: Dims) p)
    (hq : InBounds (Dim :: Dims) q) (hne : q ≠ p) (v : T) :
    get (Dim :: Dims) (write (Dim :: Dims) a p v).2 q = get (Dim :: Dims) a q ∧
    Array.Sized (write (Dim :: Dims) a p v).2 ∧
    Array._array_size (write (Dim :: Dims) a p v).2 = a._array_size :=
  ⟨write_frame (Dim :: Dims) a p q v hs hp hq hne, write_keeps_sized (Dim :: Dims) a p v hs, by
    rw [Array.sized_size _ (write_keeps_sized (Dim :: Dims) a p v hs), Array.sized_size a hs]⟩

/-- C24 at the test array: writing at `[1][1][1]` leaves `[0][2][3]` as it was. -/
theorem C24_write_frame_witness :
    arr234.Sized ∧ InBounds [2, 3, 4] [1, 1, 1] ∧ InBounds [2, 3, 4] [0, 2, 3] ∧
    ([0, 2, 3] : List Nat) ≠ [1, 1, 1] ∧
    get [2, 3, 4] (write [2, 3, 4] arr234 [1, 1, 1] 1234).2 [0, 2, 3]
      = get [2, 3, 4] arr234 [0, 2, 3] :=
  ⟨by decide, by decide, by decide, by decide,
    (C24_write_frame 2 [3, 4] arr234 (by decide) [1, 1, 1] [0, 2, 3] (by decide) (by decide)
      (by decide) 1234).1⟩

/-! ## One advance at one level -/

theorem lm_modify_end_flag_eq_repoint : ∀ {dims : List Nat} (r : LastDimensionIterator dims)
    (q : Addr),
    LastDimensionIterator.modify_end_flag dims (r.set_arr_ptr (some q)) = .ok (r.repoint q)
  | _, .base _ _ _ _ _, _ => rfl
  | _, .recur Dim p i s e r, q => by
      simp only [LastDimensionIterator.set_ptr_recur, LastDimensionIterator.modify_end_flag,
        lm_modify_end_flag_eq_repoint r (q.child i), LastDimensionIterator.repoint]

theorem LastDimensionIterator.repoint_facts : ∀ {dims : List Nat}
    (r : LastDimensionIterator dims) (q : Addr),
    (r.repoint q).indices = r.indices ∧ (r.repoint q).deepest_flag = r.deepest_flag ∧
    (r.repoint q)._is_iter_end = r.deepest_flag ∧
    (∀ l ∈ (r.repoint q).levels, l.exhausted = r.deepest_flag) ∧
    (r.repoint q).levels.map Level.node = (q.descend r.indices).map some
  | _, .base _ _ _ _ _, _ => by
      simp [LastDimensionIterator.repoint, LastDimensionIterator.indices,
        LastDimensionIterator.deepest_flag, LastDimensionIterator._is_iter_end,
        LastDimensionIterator.levels, Addr.descend]
  | _, .recur _ _ i _ _ r, q => by
      obtain ⟨h1, h2, h3, h4, h5⟩ := LastDimensionIterator.repoint_facts r (q.child i)
      refine ⟨?_, ?_, ?_, ?_, ?_⟩
      · simp [LastDimensionIterator.repoint, LastDimensionIterator.indices, h1]
      · simp [LastDimensionIterator.repoint, LastDimensionIterator.deepest_flag, h2]
      · exact h3
      · intro l hl
        simp only [LastDimensionIterator.repoint, LastDimensionIterator.levels,
          List.mem_cons] at hl
        rcases hl with rfl | hl
        · simp [h3, LastDimensionIterator.deepest_flag]
        · simpa [LastDimensionIterator.deepest_flag] using h4 l hl
      · simp [LastDimensionIterator.repoint, LastDimensionIterator.levels,
          LastDimensionIterator.indices, Addr.descend, h5, h1]

theorem lm_modify_end_flag_level {Dim d : Nat} {Dims : List Nat} (q : Addr) (i s : Nat)
    (e : Bool) (r : LastDimensionIterator (d :: Dims)) :
    LastDimensionIterator.modify_end_flag (Dim :: d :: Dims) (.recur Dim (some q) i s e r)
      = .ok (.recur Dim (some q) i s r.deepest_flag (r.repoint (q.child i))) := by
  simp only [LastDimensionIterator.modify_end_flag, lm_modify_end_flag_eq_repoint,
    (LastDimensionIterator.repoint_facts r (q.child i)).2.2.1]

/-- C21, as the header has it.  For a column-major pre-increment at a level of dimension
`D` with index below `D`: the index becomes `(index + 1) mod D`.  At the deepest level the
flag is set when the index wrapped and is otherwise as before.  At any other level, when
the index wrapped the nested iterator is pre-incremented once, and in either case the
nested iterator is then pointed at the child at the new index with its indices and its
deepest flag as they are, and this level and every level in between take over that deepest
flag: the flag of this level is not set by the wrap itself. -/
theorem C21_column_major_advance (D i : Nat) (hi : i < D) :
    (∀ (p : Option Addr) (e : Bool),
      (LastDimensionIterator.base D p i D e).increment
        = .ok (.base D p ((i + 1) % D) D (if (i + 1) % D = 0 then true else e))) ∧
    (∀ (d : Nat) (Ds : List Nat) (q : Addr) (e : Bool) (r : LastDimensionIterator (d :: Ds)),
      ((i + 1) % D ≠ 0 →
        (LastDimensionIterator.recur D (some q) i D e r).increment
          = .ok (.recur D (some q) ((i + 1) % D) D r.deepest_flag
              (r.repoint (q.child ((i + 1) % D))))) ∧
      ((i + 1) % D = 0 → ∀ r1, r.increment = .ok r1 →
        (LastDimensionIterator.recur D (some q) i D e r).increment
          = .ok (.recur D (some q) 0 D r1.deepest_flag (r1.repoint (q.child 0))))) ∧
    (∀ (dims : List Nat) (r : LastDimensionIterator dims) (q : Addr),
      (r.repoint q).indices = r.indices ∧ (r.repoint q).deepest_flag = r.deepest_flag ∧
      (r.repoint q)._is_iter_end = r.deepest_flag ∧
      (∀ l ∈ (r.repoint q).levels, l.exhausted = r.deepest_flag) ∧
      (r.repoint q).levels.map Level.node = (q.descend r.indices).map some) := by
  have hD0 : ¬ D = 0 := by omega
  refine ⟨?_, ?_, fun dims r q => LastDimensionIterator.repoint_facts r q⟩
  · intro p e
    by_cases h : D = i + 1
    · have hw : (i + 1) % D = 0 := by rw [← h, Nat.mod_self]
      simp [LastDimensionIterator.increment, h, hw]
    · have hlt : i + 1 < D := by omega
      have hw : (i + 1) % D = i + 1 := Nat.mod_eq_of_lt hlt
      simp [LastDimensionIterator.increment, h, hw]
  · intro d Ds q e r
    constructor
    · intro hw
      simp only [LastDimensionIterator.increment, hD0, if_false, hw]
      exact lm_modify_end_flag_level q _ D e r
    · intro hw r1 hr1
      simp only [LastDimensionIterator.increment, hD0, if_false, hw, if_true, hr1]
      exact lm_modify_end_flag_level q 0 D true r1

/-- C21 at an outer level of dimension 2 with index 1 of the test array. -/
theorem C21_column_major_advance_witness :
    1 < 2 ∧
    (LastDimensionIterator.base 2 none 1 2 false).increment
      = .ok (.base 2 none ((1 + 1) % 2) 2 (if (1 + 1) % 2 = 0 then true else false)) :=
  ⟨by decide, (C21_column_major_advance 2 1 (by decide)).1 none false⟩

/-- C21 as stated fails at the test array of shape `[2, 3, 4]`: the second pre-increment
from `lmbegin()` wraps the outermost index to 0, yet the flag of the outermost level is
clear after it. -/
theorem C21_wrap_leaves_flag_clear :
    LastDimensionIterator.advance 1 (obj234.val.lmbegin obj234.addr)
      = .ok (lmState 2 [3, 4] obj234.addr 1 false) ∧
    (lmState 2 [3, 4] obj234.addr 1 false).indices = [1, 0, 0] ∧
    ∃ it2, (lmState 2 [3, 4] obj234.addr 1 false).increment = .ok it2 ∧
      it2.indices = [0, 1, 0] ∧ it2._is_iter_end = false := by
  refine ⟨by decide, by decide, lmState 2 [3, 4] obj234.addr 2 false, by decide, by decide,
    by decide⟩

/-- C22 (row-major advance).  At a level that is not the deepest, over a node of an array
object with recorded sizes, with index below the dimension: the nested iterator is
pre-incremented first, and a failure of that is the failure of the advance.  When the
nested iterator does not come out with its end flag set, index and flag of this level stay.
When it does, the index is incremented; on reaching the dimension it is reset to 0 and the
flag is set, otherwise the flag is cleared; and the nested iterator becomes the begin
iterator of the child at the new index, with index 0 and a clear flag at every level.  At
the deepest level the index becomes `(index + 1) mod D` and the flag is set exactly when it
wrapped to 0. -/
theorem C22_row_major_advance {T : Type} {rd : List Nat} (m : Object T rd) (hs : m.val.Sized)
    (D d : Nat) (Ds : List Nat) (q : Addr) (pos : 0 < D) (arr : Fin D → Array T (d :: Ds))
    (s0 : Nat) (hq : m.deref q (D :: d :: Ds) = some (.recur D pos arr s0)) (i : Nat)
    (hi : i < D) (e : Bool) (r : FirstDimensionIterator (d :: Ds)) :
    (∀ err, r.increment m = .error err →
      (FirstDimensionIterator.recur D (some q) i D e r).increment m = .error err) ∧
    (∀ r1, r.increment m = .ok r1 →
      (r1._is_iter_end = false →
        (FirstDimensionIterator.recur D (some q) i D e r).increment m
          = .ok (.recur D (some q) i D e r1)) ∧
      (r1._is_iter_end = true → i + 1 = D →
        (FirstDimensionIterator.recur D (some q) i D e r).increment m
          = .ok (.recur D (some q) 0 D true ((arr ⟨0, pos⟩).fmbegin (q.child 0)))) ∧
      (r1._is_iter_end = true → ∀ h : i + 1 < D,
        (FirstDimensionIterator.recur D (some q) i D e r).increment m
          = .ok (.recur D (some q) (i + 1) D false
              ((arr ⟨i + 1, h⟩).fmbegin (q.child (i + 1)))))) ∧
    (∀ (c : Array T (d :: Ds)) (addr : Addr),
      ∀ l ∈ (c.fmbegin addr).levels, l.index = 0 ∧ l.exhausted = false) ∧
    (∀ (p : Option ElemPtr) (ar : Option Addr) (e1 : Bool),
      (FirstDimensionIterator.base D p ar i D e1).increment m
        = .ok (.base D p ar ((i + 1) % D) D (decide ((i + 1) % D = 0)))) := by
  have hsz : ∀ k, (arr k).Sized :=
    (Object.deref_sized m hs q _ _ hq).2
  refine ⟨?_, ?_, fun c addr => Array.fmbegin_levels c addr, ?_⟩
  · intro err herr
    simp only [FirstDimensionIterator.increment, herr]
  · intro r1 hr1
    refine ⟨?_, ?_, ?_⟩
    · intro hf
      simp only [FirstDimensionIterator.increment, hr1, hf, Bool.false_eq_true, if_false]
    · intro hf hwrap
      simp only [FirstDimensionIterator.increment, hr1, hf, if_true]
      rw [if_pos hwrap.symm, Array.fmbegin_eq Ds d _ _ (hsz _)]
      exact fm_modify_end_flag_recur m hs D d Ds q _ hq 0 pos D true r1
    · intro hf hlt
      have hne : ¬ D = i + 1 := by omega
      simp only [FirstDimensionIterator.increment, hr1, hf, if_true]
      rw [if_neg hne, Array.fmbegin_eq Ds d _ _ (hsz _)]
      exact fm_modify_end_flag_recur m hs D d Ds q _ hq (i + 1) hlt D false r1
  · intro p ar e1
    by_cases h : D = i + 1
    · have hw : (i + 1) % D = 0 := by rw [← h, Nat.mod_self]
      simp only [FirstDimensionIterator.increment, if_pos h, hw, decide_True]
    · have hlt : i + 1 < D := by omega
      have hw : (i + 1) % D = i + 1 := Nat.mod_eq_of_lt hlt
      have hnz : ¬ i + 1 = 0 := by omega
      simp only [FirstDimensionIterator.increment, if_neg h, hw, hnz, decide_False]

/-- C22 at the outermost level of the test array with index 0. -/
theorem C22_row_major_advance_witness :
    obj234.val.Sized ∧ 0 < 2 ∧
    (FirstDimensionIterator.base 2 none none 0 2 true).increment obj234
      = .ok (.base 2 none none ((0 + 1) % 2) 2 (decide ((0 + 1) % 2 = 0))) :=
  ⟨by decide, by decide,
    (C22_row_major_advance obj234 (by decide) 2 3 [4] obj234.addr (by decide)
      (fun i => .recur 3 (by decide)
        (fun j => .base 4 (by decide) (fun k => 12 * i.val + 4 * j.val + k.val) 4) 3) 2
      rfl 0 (by decide) false (fmState 3 [4] (obj234.addr.child 0) 0)).2.2.2 none none true⟩

end ms
